import Mathlib

/-!
# Verification development for preqc-lr

Shallow embedding of `src/src/polisher.cpp` (namespace `racon`), of the statistics of
`src/preqc-lr/main/preqclr.cpp` (namespace `preqclr`) and of the graph of
`src/include/spoa/graph.hpp` (namespace `SPOA`):

* `std::vector<std::unique_ptr<T>>` is a `List (Option α)`; a null pointer is `none`;
* `std::string` is a `List Char` (a list of bytes);
* `uint32_t` / `uint64_t` values are natural numbers, reduced modulo `2 ^ 32` / `2 ^ 64`
  wherever the source arithmetic can wrap;
* `double` values (`error`, thresholds, mean quality, polished fraction) are exact rationals;
* a counted `for` loop is a structural recursion on the number of iterations that remain.
-/

set_option autoImplicit false

namespace racon

/-! ## Definitions -/

/-! ### shrinkToFit (polisher.cpp, lines 23-48) -/

/-- The call `src[i].swap(src[j])` on a vector of owning pointers. -/
def swapAt {α : Type} (src : List (Option α)) (i j : Nat) : List (Option α) :=
  (src.set i (src.getD j none)).set j (src.getD i none)

/-- The inner loop `while (j < src.size() && src[j] == nullptr) ++j;`.
The first argument is the number of remaining iterations, `src.size() - j`. -/
def skipNull {α : Type} (src : List (Option α)) : Nat → Nat → Nat
  | 0, j => j
  | n + 1, j => if (src.getD j none).isNone then skipNull src n (j + 1) else j

/-- The `for` loop of `shrinkToFit`; returns the vector and the final value of `i`.
The first argument is the number of remaining iterations, `src.size() - i`. -/
def shrinkLoop {α : Type} : Nat → List (Option α) → Nat → Nat → List (Option α) × Nat
  | 0, src, i, _ => (src, i)
  | n + 1, src, i, j =>
    if (src.getD i none).isSome then shrinkLoop n src (i + 1) j
    else
      let j1 := max j i
      let j2 := skipNull src (src.length - j1) j1
      if j2 ≥ src.length then (src, i)
      else shrinkLoop n (if i ≠ j2 then swapAt src i j2 else src) (i + 1) j2

/-- The function `shrinkToFit(src, begin)`: the compacted vector and the returned
`num_deletions` (an unsigned 64-bit subtraction). -/
def shrinkToFit {α : Type} (src : List (Option α)) (b : Nat) : List (Option α) × Nat :=
  let r := shrinkLoop (src.length - b) src b b
  let num_deletions := (r.1.length + 2 ^ 64 - r.2) % 2 ^ 64
  (if r.2 < r.1.length then r.1.take r.2 else r.1, num_deletions)

/-! ### Overlap records and the overlap filter (polisher.cpp, lines 282-355) -/

/-- The enumeration `PolisherType`: contig polishing or fragment correction. -/
inductive PolisherType where
  | kC
  | kF
deriving DecidableEq

/-- The accessors of `racon::Overlap` that `polisher.cpp` reads. The class itself is declared
in `overlap.hpp`; a break-point is a pair `(target_pos, query_pos)`. -/
structure Overlap where
  q_id : Nat
  t_id : Nat
  strand : Bool
  error : ℚ
  length : Nat
  is_valid : Bool
  breaking_points : List (Nat × Nat)
deriving DecidableEq

/-- The test of lines 287-288: the overlap is discarded when it holds. -/
def Overlap.rejected (error_threshold : ℚ) (o : Overlap) : Bool :=
  decide (o.error > error_threshold) || decide (o.q_id = o.t_id)

/-- The inner loop of `remove_invalid_overlaps` (lines 293-303), entered with `overlaps[i]`
non-null. The first argument counts the remaining iterations, `end - j`. -/
def removeInner (i : Nat) : Nat → Nat → List (Option Overlap) → List (Option Overlap)
  | 0, _, overlaps => overlaps
  | n + 1, j, overlaps =>
    match overlaps.getD j none with
    | none => removeInner i n (j + 1) overlaps
    | some oj =>
      match overlaps.getD i none with
      | none => overlaps
      | some oi =>
        if oi.length > oj.length then removeInner i n (j + 1) (overlaps.set j none)
        else overlaps.set i none

/-- The body of the outer loop of `remove_invalid_overlaps` (lines 284-304) at index `i`. -/
def removeBody (type_ : PolisherType) (error_threshold : ℚ) (i e : Nat)
    (overlaps : List (Option Overlap)) : List (Option Overlap) :=
  match overlaps.getD i none with
  | none => overlaps
  | some oi =>
    if oi.rejected error_threshold then overlaps.set i none
    else if type_ = PolisherType.kC then removeInner i (e - (i + 1)) (i + 1) overlaps
    else overlaps

/-- The outer loop of `remove_invalid_overlaps` (lines 283-305). The first argument counts
the remaining iterations, `end - i`; the third is `end`. -/
def removeOuter (type_ : PolisherType) (error_threshold : ℚ) :
    Nat → Nat → Nat → List (Option Overlap) → List (Option Overlap)
  | 0, _, _, overlaps => overlaps
  | n + 1, i, e, overlaps =>
    removeOuter type_ error_threshold n (i + 1) e (removeBody type_ error_threshold i e overlaps)

/-- The lambda `remove_invalid_overlaps(begin, end)`, which captures `overlaps`, `type_` and
`error_threshold_` by reference. -/
def remove_invalid_overlaps (type_ : PolisherType) (error_threshold : ℚ)
    (overlaps : List (Option Overlap)) (b e : Nat) : List (Option Overlap) :=
  removeOuter type_ error_threshold (e - b) b e overlaps

/-- The `for` loop of the overlap intake (lines 315-330); returns the vector and the final
value of `c`. `transmute` stands for `Overlap::transmute(sequences_, name_to_id, id_to_id)`,
whose body is in `overlap.cpp`. The loop `while (overlaps[c] == nullptr) ++c;` stops at
index `i` at the latest, because `overlaps[i]` is non-null there. -/
def intakeLoop (type_ : PolisherType) (error_threshold : ℚ) (transmute : Overlap → Overlap) :
    Nat → Nat → Nat → List (Option Overlap) → List (Option Overlap) × Nat
  | 0, _, c, overlaps => (overlaps, c)
  | n + 1, i, c, overlaps =>
    match overlaps.getD i none with
    | none => (overlaps, c)
    | some o =>
      let overlaps1 := overlaps.set i (some (transmute o))
      if !(transmute o).is_valid then
        intakeLoop type_ error_threshold transmute n (i + 1) c (overlaps1.set i none)
      else
        let c1 := skipNull overlaps1 (overlaps1.length - c) c
        match overlaps1.getD c1 none with
        | none => (overlaps1, c1)
        | some oc =>
          if oc.q_id ≠ (transmute o).q_id then
            intakeLoop type_ error_threshold transmute n (i + 1) i
              (remove_invalid_overlaps type_ error_threshold overlaps1 c1 i)
          else intakeLoop type_ error_threshold transmute n (i + 1) c1 overlaps1

/-- The overlap intake of `Polisher::initialize` (lines 308-355). The body of `while (true)`
runs once, because `status` is set to `false` before the loop test. `records` are the
overlaps that `preqc_to_racon_parsepaf` appends to the empty vector and `status` is the value
it returns. The result is the overlap vector after `shrinkToFit(overlaps, l)` with `l = 0`. -/
def overlapIntake (type_ : PolisherType) (error_threshold : ℚ) (transmute : Overlap → Overlap)
    (records : List Overlap) (status : Bool) : List (Option Overlap) :=
  let overlaps := records.map some
  let r := intakeLoop type_ error_threshold transmute (overlaps.length - 0) 0 0 overlaps
  let overlaps2 :=
    if !status then remove_invalid_overlaps type_ error_threshold r.1 r.2 r.1.length else r.1
  (shrinkToFit overlaps2 0).1

/-! ### Specification predicates for the overlap intake -/

/-- The query id of the `k`-th record once transmuted, when that record is valid. -/
def qAt (transmute : Overlap → Overlap) (records : List Overlap) (k : Nat) : Option Nat :=
  match records[k]? with
  | none => none
  | some r => if (transmute r).is_valid then some (transmute r).q_id else none

/-- The valid records of each query are contiguous in the input: no valid record of another
query stands between two valid records of the same query. -/
def QueryContiguous (transmute : Overlap → Overlap) (records : List Overlap) : Prop :=
  ∀ k3, k3 < records.length → ∀ k2, k2 < k3 → ∀ k1, k1 < k2 →
    qAt transmute records k1 ≠ none → qAt transmute records k2 ≠ none →
    qAt transmute records k1 = qAt transmute records k3 →
    qAt transmute records k2 = qAt transmute records k1

set_option synthInstance.maxSize 1024 in
instance instDecidableQueryContiguous (transmute : Overlap → Overlap) (records : List Overlap) :
    Decidable (QueryContiguous transmute records) := by
  unfold QueryContiguous
  infer_instance

/-- The loop invariant of `intakeLoop` in mode C, before the record at index `i` is read:
the records from `i` on are untouched; the earlier non-null entries are valid transmuted
records; the pending group `[c, i)` has one query id; the entries before `c` hold at most
one overlap per query, of queries that no later valid record has. -/
structure IntakeInv (transmute : Overlap → Overlap) (records : List Overlap) (i c : Nat)
    (ov : List (Option Overlap)) : Prop where
  len : ov.length = records.length
  ci : c ≤ i
  fresh : ∀ k r, i ≤ k → records[k]? = some r → ov.getD k none = some r
  done : ∀ k o, k < i → ov.getD k none = some o →
    ∃ r, records[k]? = some r ∧ o = transmute r ∧ o.is_valid = true
  pending : ∀ k1 k2 o1 o2, c ≤ k1 → k1 < i → c ≤ k2 → k2 < i →
    ov.getD k1 none = some o1 → ov.getD k2 none = some o2 → o1.q_id = o2.q_id
  uniq : ∀ k1 k2 o1 o2, k1 < c → k2 < c →
    ov.getD k1 none = some o1 → ov.getD k2 none = some o2 → o1.q_id = o2.q_id → k1 = k2
  sep : ∀ k1 o1 k2 r2, k1 < c → ov.getD k1 none = some o1 → c ≤ k2 →
    records[k2]? = some r2 → (transmute r2).is_valid = true → (transmute r2).q_id ≠ o1.q_id

/-! ### Sequences, windows and window construction (polisher.cpp, lines 394-409) -/

/-- The accessors of `racon::Sequence` that `polisher.cpp` reads (the class is declared in
`Sequence.hpp`). -/
structure Sequence where
  name : List Char
  data : List Char
  reverse_complement : List Char
  quality : List Char
  reverse_quality : List Char
deriving DecidableEq

/-- The enumeration `WindowType`. -/
inductive WindowType where
  | kNGS
  | kTGS
deriving DecidableEq

/-- One call of `Window::add_layer`: the fragment, its quality (empty for a null pointer, the
quality length being 0 then) and the two offsets into the window. -/
structure Layer where
  data : List Char
  quality : List Char
  begin_ : Nat
  end_ : Nat
deriving DecidableEq

/-- A `racon::Window` as `polisher.cpp` uses it: target id, rank, type, the backbone slice
with its quality slice, and the layers added so far. -/
structure Window where
  id : Nat
  rank : Nat
  type_ : WindowType
  backbone : List Char
  quality : List Char
  layers : List Layer
deriving DecidableEq

/-- Modelled from the spec: `createWindow` is defined in `window.cpp`, which is not among the
sources. A window "owns a slice of target backbone (data + optional quality), a type" and its
`rank`; the slices are given as a pointer and a length, here the characters themselves. -/
def createWindow (id rank : Nat) (type_ : WindowType) (backbone quality : List Char) : Window :=
  Window.mk id rank type_ backbone quality []

/-- The expression of lines 399-400, in `uint32_t` arithmetic:
`std::min(j + window_length_, static_cast<uint32_t>(data.size())) - j`. -/
def windowSliceLength (window_length size j : Nat) : Nat :=
  (min ((j + window_length) % 2 ^ 32) (size % 2 ^ 32) + 2 ^ 32 - j) % 2 ^ 32

/-- The window created at lines 402-405 for target `i` at offset `j` with rank `k`. -/
def windowAt (window_length : Nat) (window_type : WindowType) (dummy_quality : List Char)
    (i : Nat) (s : Sequence) (j k : Nat) : Window :=
  createWindow i k window_type
    ((s.data.drop j).take (windowSliceLength window_length s.data.length j))
    (if s.quality.isEmpty then dummy_quality.take (windowSliceLength window_length s.data.length j)
      else (s.quality.drop j).take (windowSliceLength window_length s.data.length j))

/-- The inner loop of lines 397-406 for target `i`: `j` and `k` are `uint32_t` counters and
the windows are appended to `windows_`. The loop need not terminate when `j` wraps around,
so the first argument is fuel and `none` means that it ran out. Returns `windows_` and the
final `k`. -/
def windowLoop (window_length : Nat) (window_type : WindowType) (dummy_quality : List Char)
    (i : Nat) (s : Sequence) : Nat → Nat → Nat → List Window → Option (List Window × Nat)
  | 0, _, _, _ => none
  | fuel + 1, j, k, windows_ =>
    if j < s.data.length then
      windowLoop window_length window_type dummy_quality i s fuel
        ((j + window_length) % 2 ^ 32) ((k + 1) % 2 ^ 32)
        (windows_ ++ [windowAt window_length window_type dummy_quality i s j k])
    else some (windows_, k)

/-- The outer loop of lines 395-409 over the targets `sequences_[0 .. targets_size)`. The
second argument counts the remaining iterations, `targets_size - i`. Returns `windows_` and
`id_to_first_window_id`. -/
def buildWindows (window_length : Nat) (window_type : WindowType) (dummy_quality : List Char)
    (sequences_ : List Sequence) (fuel : Nat) :
    Nat → Nat → List Window → List Nat → Option (List Window × List Nat)
  | 0, _, windows_, id_to_first_window_id => some (windows_, id_to_first_window_id)
  | n + 1, i, windows_, id_to_first_window_id =>
    match sequences_[i]? with
    | none => none
    | some s =>
      match windowLoop window_length window_type dummy_quality i s fuel 0 0 windows_ with
      | none => none
      | some (windows1, k) =>
        buildWindows window_length window_type dummy_quality sequences_ fuel n (i + 1) windows1
          (id_to_first_window_id.set (i + 1) (id_to_first_window_id.getD i 0 + k))

/-- The window construction of `Polisher::initialize` (lines 394-409): `windows_` is empty on
entry, `dummy_quality_` is `window_length_` copies of `!` and `id_to_first_window_id` starts
as `targets_size + 1` zeros. -/
def constructWindows (window_length : Nat) (window_type : WindowType)
    (sequences_ : List Sequence) (targets_size fuel : Nat) : Option (List Window × List Nat) :=
  buildWindows window_length window_type (List.replicate window_length '!') sequences_ fuel
    targets_size 0 [] (List.replicate (targets_size + 1) 0)

/-! ### Routing of layers into windows (polisher.cpp, lines 411-467) -/

/-- Modelled from the spec: `Window::add_layer` is defined in `window.cpp`, which is not
among the sources; it "appends a fragment with inclusive begin and end offsets into the
window". -/
def Window.add_layer (w : Window) (data quality : List Char) (begin_ end_ : Nat) : Window :=
  Window.mk w.id w.rank w.type_ w.backbone w.quality (w.layers ++ [Layer.mk data quality begin_ end_])

/-- The `uint32_t` difference `breaking_points[j + 1].second - breaking_points[j].second`. -/
def querySpan (s e : Nat × Nat) : Nat :=
  (e.2 + 2 ^ 32 - s.2) % 2 ^ 32

/-- The byte `quality[k]` as an unsigned number; reading past the end of the string is
undefined in the source and yields 0 here. -/
def byteAt (quality : List Char) (k : Nat) : Nat :=
  match quality[k]? with
  | some c => c.toNat
  | none => 0

/-- The summand `static_cast<uint32_t>(quality[k]) - 33` of line 432, an unsigned 32-bit
subtraction. -/
def phredTerm (quality : List Char) (k : Nat) : Nat :=
  (byteAt quality k + 2 ^ 32 - 33) % 2 ^ 32

/-- The value of `average_quality` after lines 430-434: the sum of the summands over
`k = breaking_points[j].second, ..., breaking_points[j + 1].second - 1`, divided by the
query span. -/
def averageQuality (quality : List Char) (s e : Nat × Nat) : ℚ :=
  (((List.range' s.2 (e.2 - s.2)).map (fun k => phredTerm quality k)).sum : ℚ) /
    (querySpan s e : ℚ)

/-- The two tests of lines 421-439 on one break-point pair: `true` when neither `continue`
is taken. -/
def layerPasses (window_length : Nat) (quality_threshold : ℚ) (sequence : Sequence)
    (strand : Bool) (s e : Nat × Nat) : Bool :=
  if (querySpan s e : ℚ) < (2 / 100 : ℚ) * (window_length : ℚ) then false
  else if !sequence.quality.isEmpty || !sequence.reverse_quality.isEmpty then
    if averageQuality (if strand then sequence.reverse_quality else sequence.quality) s e
        < quality_threshold then false
    else true
  else true

/-- The index `window_id` of lines 441-442: a `uint64_t` sum of a vector offset and a
`uint32_t` quotient, which cannot wrap. -/
def layerWindowId (window_length : Nat) (id_to_first_window_id : List Nat) (t_id : Nat)
    (s : Nat × Nat) : Nat :=
  id_to_first_window_id.getD t_id 0 + s.1 / window_length

/-- The value `window_start` of lines 443-444. -/
def layerWindowStart (window_length : Nat) (s : Nat × Nat) : Nat :=
  ((s.1 / window_length) * window_length) % 2 ^ 32

/-- The layer built at lines 446-463 from one break-point pair. -/
def layerOf (window_length : Nat) (sequence : Sequence) (strand : Bool) (s e : Nat × Nat) :
    Layer :=
  let data := if strand then sequence.reverse_complement.drop s.2 else sequence.data.drop s.2
  let data_length := querySpan s e
  let quality := if strand then sequence.reverse_quality.drop s.2 else sequence.quality.drop s.2
  let quality_null := if strand then sequence.reverse_quality.isEmpty else sequence.quality.isEmpty
  let quality_length := if quality_null then 0 else data_length
  Layer.mk (data.take data_length) (quality.take quality_length)
    ((s.1 + 2 ^ 32 - layerWindowStart window_length s) % 2 ^ 32)
    ((e.1 + 2 ^ 32 - layerWindowStart window_length s + 2 ^ 32 - 1) % 2 ^ 32)

/-- The body of the loop over break-point pairs (lines 421-463) for one pair `(s, e)` of the
overlap `o`, whose query is `sequence`. -/
def layerStep (window_length : Nat) (quality_threshold : ℚ) (id_to_first_window_id : List Nat)
    (sequence : Sequence) (o : Overlap) (s e : Nat × Nat) (windows_ : List Window) :
    List Window :=
  if layerPasses window_length quality_threshold sequence o.strand s e then
    match windows_[layerWindowId window_length id_to_first_window_id o.t_id s]? with
    | none => windows_
    | some w =>
      windows_.set (layerWindowId window_length id_to_first_window_id o.t_id s)
        (w.add_layer (layerOf window_length sequence o.strand s e).data
          (layerOf window_length sequence o.strand s e).quality
          (layerOf window_length sequence o.strand s e).begin_
          (layerOf window_length sequence o.strand s e).end_)
  else windows_

/-- The loop `for (j = 0; j < breaking_points.size(); j += 2)` of lines 420-464. -/
def layersOfOverlap (window_length : Nat) (quality_threshold : ℚ)
    (id_to_first_window_id : List Nat) (sequence : Sequence) (o : Overlap) :
    List (Nat × Nat) → List Window → List Window
  | s :: e :: rest, windows_ =>
    layersOfOverlap window_length quality_threshold id_to_first_window_id sequence o rest
      (layerStep window_length quality_threshold id_to_first_window_id sequence o s e windows_)
  | _, windows_ => windows_

/-- The loop over the overlaps (lines 413-467); the state is `windows_` and
`targets_coverages_`, whose entries are `uint32_t` counters. -/
def distributeLayers (window_length : Nat) (quality_threshold : ℚ)
    (id_to_first_window_id : List Nat) (sequences_ : List Sequence) :
    List (Option Overlap) → List Window × List Nat → List Window × List Nat
  | [], st => st
  | none :: _, st => st
  | some o :: rest, st =>
    match sequences_[o.q_id]? with
    | none => st
    | some sequence =>
      distributeLayers window_length quality_threshold id_to_first_window_id sequences_ rest
        (layersOfOverlap window_length quality_threshold id_to_first_window_id sequence o
            o.breaking_points st.1,
          st.2.set o.t_id ((st.2.getD o.t_id 0 + 1) % 2 ^ 32))

/-! ### The layer filter as the specification words it -/

/-- Modelled from the spec: `createSequence(name, data)` is defined in `sequence.cpp`, which
is not among the sources; it yields a sequence with that name and data and nothing else. -/
def createSequence (name data : List Char) : Sequence :=
  Sequence.mk name data [] [] []

/-- The values from which `polish` builds one emitted sequence (lines 507-516): the target
id `windows_[i]->id()`, the accumulated `polished_data` and the value of `polished_ratio`. -/
structure Polished where
  id : Nat
  data : List Char
  xc : ℚ

/-- The test of line 506, `i == windows_.size() - 1 || windows_[i + 1]->rank() == 0`, on
the windows that follow window `i`. -/
def targetEnds (rest : List Window) : Bool :=
  match rest with
  | [] => true
  | next :: _ => decide (next.rank = 0)

/-- The loop of lines 498-526 over the windows, after every task has been waited for.
`consensus w` is the pair of the flag returned by `Window::generate_consensus` for window `w`
and the string `consensus()` it leaves in the window (both come from `window.cpp`). The state
is `polished_data`, the `uint32_t` counter `num_polished_windows` and what was emitted. -/
def polishLoop (consensus : Window → Bool × List Char) (drop_unpolished_sequences : Bool) :
    List Window → List Char → Nat → List Polished → List Polished
  | [], _, _, dst => dst
  | w :: rest, polished_data, num_polished_windows, dst =>
    if targetEnds rest then
      polishLoop consensus drop_unpolished_sequences rest [] 0
        (if !drop_unpolished_sequences ||
            decide (((((num_polished_windows + (if (consensus w).1 then 1 else 0)) % 2 ^ 32 : Nat) : ℚ)
              / (((w.rank + 1) % 2 ^ 32 : Nat) : ℚ)) > 0) then
          dst ++ [Polished.mk w.id (polished_data ++ (consensus w).2)
            ((((num_polished_windows + (if (consensus w).1 then 1 else 0)) % 2 ^ 32 : Nat) : ℚ)
              / (((w.rank + 1) % 2 ^ 32 : Nat) : ℚ))]
        else dst)
    else
      polishLoop consensus drop_unpolished_sequences rest (polished_data ++ (consensus w).2)
        ((num_polished_windows + (if (consensus w).1 then 1 else 0)) % 2 ^ 32) dst

/-- The string `tags` of lines 511-514; `xc` is the text of `std::to_string(polished_ratio)`
and `std::to_string` of an unsigned number is its decimal representation. -/
def polishTags (type_ : PolisherType) (length coverage : Nat) (xc : List Char) : List Char :=
  (if type_ = PolisherType.kF then "r".toList else []) ++ " LN:i:".toList ++
    Nat.toDigits 10 length ++ " RC:i:".toList ++ Nat.toDigits 10 coverage ++ " XC:f:".toList ++ xc

/-- The sequence emplaced into `dst` at lines 515-516. `to_string` stands for
`std::to_string(double)`. -/
def polishedSequence (type_ : PolisherType) (sequences_ : List Sequence)
    (targets_coverages_ : List Nat) (to_string : ℚ → List Char) (p : Polished) : Sequence :=
  createSequence
    ((match sequences_[p.id]? with
      | some s => s.name
      | none => []) ++
      polishTags type_ p.data.length (targets_coverages_.getD p.id 0) (to_string p.xc))
    p.data

/-- The sequences that `Polisher::polish` appends to `dst`. -/
def polish (type_ : PolisherType) (sequences_ : List Sequence) (targets_coverages_ : List Nat)
    (to_string : ℚ → List Char) (consensus : Window → Bool × List Char)
    (drop_unpolished_sequences : Bool) (windows_ : List Window) : List Sequence :=
  (polishLoop consensus drop_unpolished_sequences windows_ [] 0 []).map
    (polishedSequence type_ sequences_ targets_coverages_ to_string)

/-! ### Specification predicates for the window table -/

/-- The window table as `Polisher::initialize` builds it: `groups[t]` lists the windows of
target `t`, the window at position `r` having id `t` and rank `r`, and `windows_` is their
concatenation. A target has fewer than `2 ^ 32` windows. -/
def WindowGroups (groups : List (List Window)) : Prop :=
  ∀ (t : Nat) (g : List Window), groups[t]? = some g →
    g.length < 2 ^ 32 ∧ ∀ (r : Nat) (w : Window), g[r]? = some w → w.id = t ∧ w.rank = r

/-- The number of windows of a group for which `generate_consensus` returned `true`. -/
def polishedCount (consensus : Window → Bool × List Char) (g : List Window) : Nat :=
  (g.filter (fun w => (consensus w).1)).length

/-- What `polish` computes for the windows `g` of target `t`. -/
def groupSummary (consensus : Window → Bool × List Char) (t : Nat) (g : List Window) :
    Polished :=
  Polished.mk t ((g.map (fun w => (consensus w).2)).flatten)
    ((polishedCount consensus g : ℚ) / (g.length : ℚ))

/-- What `polish` emits for a window table whose first group belongs to target `b`: one
summary for every target with at least one window, unless `drop_unpolished_sequences` is set
and the polished fraction is 0. -/
def polishSpec (consensus : Window → Bool × List Char) (drop_unpolished_sequences : Bool)
    (b : Nat) (groups : List (List Window)) : List Polished :=
  (((groups.enumFrom b).filter (fun p => !p.2.isEmpty)).map
      (fun p => groupSummary consensus p.1 p.2)).filter
    (fun s => !drop_unpolished_sequences || decide (s.xc > 0))

/-- The windows that the window construction creates for target `t`, in creation order. -/
def targetWindows (window_length : Nat) (window_type : WindowType) (dummy_quality : List Char)
    (sequences_ : List Sequence) (t : Nat) : List Window :=
  match sequences_[t]? with
  | some s =>
    (List.range ((s.data.length + window_length - 1) / window_length)).map
      (fun r => windowAt window_length window_type dummy_quality t s (r * window_length) r)
  | none => []

/-- The id and the rank of a window, which adding layers leaves unchanged. -/
def Window.key (w : Window) : Nat × Nat :=
  (w.id, w.rank)

/-- Target `t` of the sequence table has non-empty data. -/
def targetHasData (sequences_ : List Sequence) (t : Nat) : Bool :=
  match sequences_[t]? with
  | some s => !s.data.isEmpty
  | none => false
/-! ### The sequence intake of Polisher::initialize (polisher.cpp, lines 187-260) -/

/-- The state of the sequence intake. The two `std::unordered_map`s are association lists:
`m[key] = value` puts `(key, value)` in front and `find` is `List.lookup`, which returns the
entry written last. -/
structure IntakeState where
  sequences_ : List (Option Sequence)
  name_to_id : List (List Char × Nat)
  id_to_id : List (Nat × Nat)
  n : Nat
  sequences_size : Nat
  total_sequences_length : Nat
deriving DecidableEq

/-- The loop of lines 189-192 over the targets, from index `i` on:
`name_to_id[name + "t"] = i; id_to_id[i << 1 | 1] = i;`. -/
def registerTargets :
    List Sequence → Nat → List (List Char × Nat) × List (Nat × Nat) →
      List (List Char × Nat) × List (Nat × Nat)
  | [], _, maps => maps
  | s :: rest, i, maps =>
    registerTargets rest (i + 1)
      ((s.name ++ ['t'], i) :: maps.1, ((2 * i + 1) % 2 ^ 64, i) :: maps.2)

/-- The body of the loop of lines 228-251 at index `i`; `none` is the call `exit(1)` for a
duplicate sequence with unequal data. -/
def sequenceIntakeBody (i : Nat) (st : IntakeState) : Option IntakeState :=
  match st.sequences_.getD i none with
  | none => none
  | some s =>
    match st.name_to_id.lookup (s.name ++ ['t']) with
    | some id =>
      match st.sequences_.getD id none with
      | none => none
      | some target =>
        if s.data.length ≠ target.data.length ∨ s.quality.length ≠ target.quality.length then
          none
        else
          some (IntakeState.mk (st.sequences_.set i none)
            ((s.name ++ ['q'], id) :: st.name_to_id)
            (((2 * st.sequences_size) % 2 ^ 64, id) :: st.id_to_id)
            (st.n + 1) (st.sequences_size + 1)
            (st.total_sequences_length + s.data.length))
    | none =>
      some (IntakeState.mk st.sequences_
        ((s.name ++ ['q'], i - st.n) :: st.name_to_id)
        (((2 * st.sequences_size) % 2 ^ 64, i - st.n) :: st.id_to_id)
        st.n (st.sequences_size + 1)
        (st.total_sequences_length + s.data.length))

/-- The loop of lines 228-251; the first argument counts the remaining iterations,
`sequences_.size() - i`. -/
def sequenceIntakeLoop : Nat → Nat → IntakeState → Option IntakeState
  | 0, _, st => some st
  | k + 1, i, st =>
    match sequenceIntakeBody i st with
    | none => none
    | some st1 => sequenceIntakeLoop k (i + 1) st1

/-- The sequence intake (lines 187-260): `targets` is `sequences_` after the targets were
loaded and `queries` are the records that lines 216-224 append behind them. The body of
`while (true)` runs once. The result is the state after `shrinkToFit(sequences_, l)`. -/
def sequenceIntake (targets queries : List Sequence) : Option IntakeState :=
  match sequenceIntakeLoop queries.length targets.length
      (IntakeState.mk (targets.map some ++ queries.map some)
        (registerTargets targets 0 ([], [])).1 (registerTargets targets 0 ([], [])).2 0 0 0) with
  | none => none
  | some st =>
    some (IntakeState.mk (shrinkToFit st.sequences_ targets.length).1 st.name_to_id st.id_to_id
      st.n st.sequences_size st.total_sequences_length)

/-- The internal id that the intake finds for the name of `q` among the targets, if any:
the query is folded into that target. -/
def foldTarget (targets : List Sequence) (q : Sequence) : Option Nat :=
  (registerTargets targets 0 ([], [])).1.lookup (q.name ++ ['t'])

/-- The number of queries in a list that are folded into a target. -/
def foldedCount (targets : List Sequence) (qs : List Sequence) : Nat :=
  (qs.filter (fun q => (foldTarget targets q).isSome)).length


/-- The entry that the intake loop leaves at the position of query `q`: null when the query
is folded into a target. -/
def intakeMark (targets : List Sequence) (q : Sequence) : Option Sequence :=
  if (foldTarget targets q).isSome then none else some q

/-- The internal id that the intake loop writes for the query `q` at position `j` of the chunk
`rest`, when the chunk starts at index `base` with `n` queries folded so far: the target's id
for a folded query and `i - n` with `i = base + j` otherwise. -/
def recordedId (targets : List Sequence) (base n : Nat) (rest : List Sequence) (j : Nat)
    (q : Sequence) : Nat :=
  match foldTarget targets q with
  | some id => id
  | none => base + j - (n + foldedCount targets (rest.take j))

/-- What the intake loop has done once it ran over the chunk `rest`, started behind the entries
`targets ++ done` with the maps `nm`, `im` and the counters `n`, `ssize`. -/
structure IntakeOutcome (targets rest : List Sequence) (done : List (Option Sequence))
    (nm : List (List Char × Nat)) (im : List (Nat × Nat)) (n ssize : Nat)
    (st : IntakeState) : Prop where
  seqs : st.sequences_ = targets.map some ++ done ++ rest.map (intakeMark targets)
  count : st.n = n + foldedCount targets rest
  size : st.sequences_size = ssize + rest.length
  nameFrame : ∀ key, (∀ q ∈ rest, key ≠ q.name ++ ['q']) →
    st.name_to_id.lookup key = nm.lookup key
  idFrame : ∀ key, (key < 2 * ssize ∨ 2 * (ssize + rest.length) ≤ key ∨ key % 2 = 1) →
    st.id_to_id.lookup key = im.lookup key
  idAt : ∀ j q, rest[j]? = some q →
    st.id_to_id.lookup (2 * (ssize + j)) =
      some (recordedId targets (targets.length + done.length) n rest j q)
  nameLog : ∀ j q, rest[j]? = some q →
    (q.name ++ ['q'], recordedId targets (targets.length + done.length) n rest j q)
      ∈ st.name_to_id
  nameKeep : ∀ e ∈ nm, e ∈ st.name_to_id
  nameFolded : ∀ name id,
    (registerTargets targets 0 ([], [])).1.lookup (name ++ ['t']) = some id →
    (nm.lookup (name ++ ['q']) = some id ∨ ∃ q ∈ rest, q.name = name) →
    st.name_to_id.lookup (name ++ ['q']) = some id
  nameLast : ∀ j q, rest[j]? = some q →
    (∀ j2 q2, j < j2 → rest[j2]? = some q2 → q2.name ≠ q.name) →
    st.name_to_id.lookup (q.name ++ ['q']) =
      some (recordedId targets (targets.length + done.length) n rest j q)
/-! ### createPolisher (polisher.cpp, lines 50-129) -/

/-- The lambda `is_suffix` of `createPolisher`: `src.compare(pos, len, suffix) == 0` holds
when the `len` characters of `src` from position `pos` on are `suffix`. -/
def is_suffix (src suffix : List Char) : Bool :=
  if src.length < suffix.length then false
  else decide ((src.drop (src.length - suffix.length)).take suffix.length = suffix)

/-- The formats of `bioparser` for sequences. -/
inductive SequenceFormat where
  | fasta
  | fastq
deriving DecidableEq

/-- The formats of `bioparser` for overlaps. -/
inductive OverlapFormat where
  | mhap
  | paf
  | sam
deriving DecidableEq

/-- The object that `bioparser::createParser<Format, Sequence>(path)` returns, as far as
`createPolisher` fixes it: the format and the path. -/
structure SequenceReader where
  format : SequenceFormat
  path : List Char
deriving DecidableEq

/-- The object that `bioparser::createParser<Format, Overlap>(path)` returns, as far as
`createPolisher` fixes it: the format and the path. -/
structure OverlapReader where
  format : OverlapFormat
  path : List Char
deriving DecidableEq

/-- The arguments that `createPolisher` hands to the constructor of `Polisher`. -/
structure Polisher where
  sparser_ : SequenceReader
  oparser_ : OverlapReader
  tparser_ : SequenceReader
  type_ : PolisherType
  window_length_ : Nat
  quality_threshold_ : ℚ
  error_threshold_ : ℚ
  match_ : Int
  mismatch : Int
  gap : Int
  num_threads : Nat

/-- The extension chain of `createPolisher` for `sequences_path` and `target_path`
(lines 77-91 and 108-122); `none` is the call `exit(1)`. -/
def sequenceReaderFor (path : List Char) : Option SequenceReader :=
  if is_suffix path ".fasta".toList || is_suffix path ".fa".toList ||
      is_suffix path ".fasta.gz".toList || is_suffix path ".fa.gz".toList then
    some (SequenceReader.mk SequenceFormat.fasta path)
  else if is_suffix path ".fastq".toList || is_suffix path ".fq".toList ||
      is_suffix path ".fastq.gz".toList || is_suffix path ".fq.gz".toList then
    some (SequenceReader.mk SequenceFormat.fastq path)
  else none

/-- The extension chain of `createPolisher` for `overlaps_path` (lines 93-106); `none` is the
call `exit(1)`. -/
def overlapReaderFor (path : List Char) : Option OverlapReader :=
  if is_suffix path ".mhap".toList || is_suffix path ".mhap.gz".toList then
    some (OverlapReader.mk OverlapFormat.mhap path)
  else if is_suffix path ".paf".toList || is_suffix path ".paf.gz".toList then
    some (OverlapReader.mk OverlapFormat.paf path)
  else if is_suffix path ".sam".toList || is_suffix path ".sam.gz".toList then
    some (OverlapReader.mk OverlapFormat.sam path)
  else none

/-- The function `createPolisher`. The argument `type` is `none` for a value of the enumeration
type that is neither `kC` nor `kF`; the result `none` is the call `exit(1)`. -/
def createPolisher (sequences_path overlaps_path target_path : List Char)
    (type : Option PolisherType) (window_length : Nat) (quality_threshold error_threshold : ℚ)
    (match_ mismatch gap : Int) (num_threads : Nat) : Option Polisher :=
  match type with
  | none => none
  | some ty =>
    if ty ≠ PolisherType.kC ∧ ty ≠ PolisherType.kF then none
    else if window_length = 0 then none
    else
      match sequenceReaderFor sequences_path with
      | none => none
      | some sparser =>
        match overlapReaderFor overlaps_path with
        | none => none
        | some oparser =>
          match sequenceReaderFor target_path with
          | none => none
          | some tparser =>
            some (Polisher.mk sparser oparser tparser ty window_length quality_threshold
              error_threshold match_ mismatch gap num_threads)

/-- The wording of the specification: the path ends with one of the extensions, optionally
followed by `.gz`. -/
def SpecEndsWith (path : List Char) (extensions : List String) : Prop :=
  ∃ e ∈ extensions, e.toList <:+ path ∨ (e.toList ++ ".gz".toList) <:+ path
end racon

namespace preqclr

/-! ### preqclr.cpp: calculate_tot_bases (lines 509-566) -/

/-- The constant `INT_MAX` of a 32-bit `int`. -/
def INT_MAX : Nat := 2147483647

/-- The conversion of an `unsigned long long` to the `int` parameter of `writer->Int`. -/
def asInt (v : Nat) : Int :=
  if v % 2 ^ 32 < 2 ^ 31 then ((v % 2 ^ 32 : Nat) : Int) else ((v % 2 ^ 32 : Nat) : Int) - 2 ^ 32

/-- The body of the first loop of `calculate_tot_bases` (lines 531-539) for one read of
length `r_len`. The map `read_lengths` is ordered by `greater<unsigned int>`: the list holds
its entries `(read length, number of reads)` in decreasing order of read length. -/
def binRead (r_len : Nat) : List (Nat × Nat) → List (Nat × Nat)
  | [] => [(r_len, 1)]
  | (k, c) :: rest =>
    if k = r_len then (k, c + 1) :: rest
    else if k < r_len then (r_len, 1) :: (k, c) :: rest
    else (k, c) :: binRead r_len rest

/-- The first loop of `calculate_tot_bases` (lines 527-540); `reads` holds the field `read_len`
of the records of `paf`, and `unsigned int r_len = it->second.read_len` keeps 32 bits. -/
def read_lengths (reads : List Nat) : List (Nat × Nat) :=
  reads.foldl (fun bins read_len => binRead (read_len % 2 ^ 32) bins) []

/-- The product `nb = curr_longest * nr` in `unsigned long long`, with `nr` the `unsigned int`
copy of the counter. -/
def basesOfBin (curr_longest count : Nat) : Nat :=
  (curr_longest * (count % 2 ^ 32)) % 2 ^ 64

/-- The test `!(nb > 0) || !(tot_num_bases > INT_MAX - nb)` of line 557; the subtraction is
done in `unsigned long long`. -/
def guardPasses (nb tot_num_bases : Nat) : Bool :=
  decide (¬ (nb > 0) ∨ ¬ (tot_num_bases > (INT_MAX + 2 ^ 64 - nb) % 2 ^ 64))

/-- The second loop of `calculate_tot_bases` (lines 548-563): the entries written, each the key
`curr_longest` and the value of `tot_num_bases` that is handed to `writer->Int`. -/
def totBasesLoop : List (Nat × Nat) → Nat → List (Nat × Nat)
  | [], _ => []
  | (curr_longest, count) :: rest, tot_num_bases =>
    if guardPasses (basesOfBin curr_longest count) tot_num_bases then
      (curr_longest, (tot_num_bases + basesOfBin curr_longest count) % 2 ^ 64) ::
        totBasesLoop rest ((tot_num_bases + basesOfBin curr_longest count) % 2 ^ 64)
    else totBasesLoop rest tot_num_bases

/-- The function `calculate_tot_bases`. The counter of a bin is an `int`: the result is `none`
when a counter would pass `INT_MAX`, where the behaviour of `j->second += 1` is undefined. -/
def calculate_tot_bases (reads : List Nat) : Option (List (Nat × Nat)) :=
  if (read_lengths reads).all (fun p => decide (p.2 ≤ INT_MAX)) then
    some (totBasesLoop (read_lengths reads) 0)
  else none

/-- The bases in the bins of read length at least `L`. -/
def binBases (bins : List (Nat × Nat)) (L : Nat) : Nat :=
  ((bins.filter (fun p => decide (L ≤ p.1))).map (fun p => p.1 * p.2)).sum

/-- The running totals of the bins when no bin is skipped and nothing wraps. -/
def runningTotals : List (Nat × Nat) → Nat → List (Nat × Nat)
  | [], _ => []
  | (k, c) :: rest, tot => (k, tot + k * c) :: runningTotals rest (tot + k * c)

/-! ### preqclr.cpp: calculate_ngx (lines 456-507) -/

/-- The call `m.insert(make_pair(k, v))` on a `std::map` with the default order: the list
holds the entries in increasing order of key and an entry already stored under `k` is kept. -/
def mapInsert (k v : Nat) : List (Nat × Nat) → List (Nat × Nat)
  | [] => [(k, v)]
  | (k1, v1) :: rest =>
    if k1 = k then (k1, v1) :: rest
    else if k < k1 then (k, v) :: (k1, v1) :: rest
    else (k1, v1) :: mapInsert k v rest

/-- The loop `while (x <= 100)` of lines 474-477; the first argument counts the remaining
iterations. `key x` is the value of `(float(x) * genome_size_est)/100` after its conversion to
`unsigned long long`. -/
def gxLoop (key : Nat → Nat) : Nat → Nat → List (Nat × Nat) → List (Nat × Nat)
  | 0, _, gx => gx
  | n + 1, x, gx => gxLoop key n (x + 1) (mapInsert (key x) x gx)

/-- The inner loop of lines 488-492 over the entries of `gx`. -/
def ngxInner (gx : List (Nat × Nat)) (start end_ c : Nat) (ngx : List (Nat × Nat)) :
    List (Nat × Nat) :=
  gx.foldl (fun m p => if start ≤ p.1 ∧ p.1 ≤ end_ then mapInsert p.2 c m else m) ngx

/-- The loop of lines 485-494 over the sorted contig lengths; `none` when `end += c` would pass
`INT_MAX`, where the behaviour of the signed addition is undefined. -/
def ngxLoop (gx : List (Nat × Nat)) : List Nat → Nat → Nat → List (Nat × Nat) →
    Option (List (Nat × Nat))
  | [], _, _, ngx => some ngx
  | c :: rest, start, end_, ngx =>
    if end_ + c > INT_MAX then none
    else ngxLoop gx rest (start + c) (end_ + c) (ngxInner gx start (end_ + c) c ngx)

/-- The contig lengths after `sort(contig_lengths.rbegin(), contig_lengths.rend())`: in
descending order. -/
def sortDescending (contig_lengths : List Nat) : List Nat :=
  contig_lengths.insertionSort (fun a b => b ≤ a)

/-- The function `calculate_ngx` on non-negative contig lengths: the entries `(x, ngx)` that
are written, in increasing order of `x`. -/
def calculate_ngx (contig_lengths : List Nat) (key : Nat → Nat) : Option (List (Nat × Nat)) :=
  ngxLoop (gxLoop key 101 0 []) (sortDescending contig_lengths) 0 0 []

/-- The entry `(x, v)` names the first contig of the list `sorted` at which the cumulative
length reaches the threshold `key x` stored for `x`. -/
def FirstReaching (key : Nat → Nat) (sorted : List Nat) (x v : Nat) : Prop :=
  x ≤ 100 ∧ ∃ i, sorted[i]? = some v ∧ key x ≤ (sorted.take (i + 1)).sum ∧
    ∀ i2, i2 < i → (sorted.take (i2 + 1)).sum < key x

end preqclr

namespace racon
end racon

namespace preqclr

/-! ### preqclr.cpp: parse_paf (lines 371-454) and sequence.cpp -/

/-- The class `sequence` (sequence.cpp): the fields that `set` and `updateCov` write. -/
structure sequence where
  read_id : List Char
  read_len : Nat
  cov : ℚ

/-- The method `sequence::set`. -/
def sequence.set (_s : sequence) (i : List Char) (l : Nat) (c : ℚ) : sequence :=
  sequence.mk i l c

/-- The method `sequence::updateCov`. -/
def sequence.updateCov (s : sequence) (c : ℚ) : sequence :=
  sequence.mk s.read_id s.read_len (s.cov + c)

/-- The columns of a PAF line that `parse_paf` copies into `unsigned int` variables. -/
structure PafRecord where
  qname : List Char
  qlen : Nat
  qstart : Nat
  qend : Nat
  strand : Nat
  tname : List Char
  tlen : Nat
  tstart : Nat
  tend : Nat

/-- The conversion of a 32-bit unsigned value to `int`. -/
def toInt32 (v : Nat) : Int :=
  if v % 2 ^ 32 < 2 ^ 31 then ((v % 2 ^ 32 : Nat) : Int) else ((v % 2 ^ 32 : Nat) : Int) - 2 ^ 32

/-- The conversion of an `int` to `unsigned int`. -/
def toUInt32 (z : Int) : Nat :=
  (z % 2 ^ 32).toNat

/-- The value of `qsuffix_len = qlen - qend - 1`, an `unsigned int` expression. -/
def qsuffix_len (r : PafRecord) : Nat :=
  (r.qlen + 2 ^ 32 - r.qend % 2 ^ 32 + 2 ^ 32 - 1) % 2 ^ 32

/-- The value of `tsuffix_len = tlen - tend - 1`, an `unsigned int` expression. -/
def tsuffix_len (r : PafRecord) : Nat :=
  (r.tlen + 2 ^ 32 - r.tend % 2 ^ 32 + 2 ^ 32 - 1) % 2 ^ 32

/-- The value of `left_clip` after lines 408-414; `left_clip += u` with an unsigned `u` leaves
the `int` conversion of `u` in the `int` that held 0. -/
def left_clip (r : PafRecord) : Int :=
  if r.qstart ≠ 0 ∧ r.tstart ≠ 0 then
    if r.strand = 0 then toInt32 (min r.qstart r.tstart)
    else toInt32 (min r.qstart (tsuffix_len r))
  else 0

/-- The value of `right_clip` after lines 415-421. -/
def right_clip (r : PafRecord) : Int :=
  if r.qend ≠ 0 ∧ r.tend ≠ 0 then
    if r.strand = 0 then toInt32 (min (qsuffix_len r) (tsuffix_len r))
    else toInt32 (min (qsuffix_len r) r.tstart)
  else 0

/-- The value of `overlap_len = abs(qend - qstart) + left_clip + right_clip` (line 423): `abs`
of the `int` conversion of the unsigned difference, an `int` sum, and the conversion of the sum
to `unsigned int`. -/
def overlap_len (r : PafRecord) : Nat :=
  toUInt32 (((toInt32 ((r.qend + 2 ^ 32 - r.qstart % 2 ^ 32) % 2 ^ 32)).natAbs : Int)
    + left_clip r + right_clip r)

/-- Lines 426-436 and 437-448 for one read `name` of length `len`: the record of the read is
created with the coverage `double(overlap_len) / double(len)`, or that coverage is added to the
record found. The map is a list of entries; the order of its keys plays no part here. -/
def addCoverage (name : List Char) (len : Nat) (ov : Nat) :
    List (List Char × sequence) → List (List Char × sequence)
  | [] => [(name, (sequence.mk [] 0 0).set name len ((ov : ℚ) / (len : ℚ)))]
  | (k, s) :: rest =>
    if k = name then (k, s.updateCov ((ov : ℚ) / (len : ℚ))) :: rest
    else (k, s) :: addCoverage name len ov rest

/-- The body of the loop of `parse_paf` for one record (lines 389-449). -/
def pafStep (paf_records : List (List Char × sequence)) (r : PafRecord) :
    List (List Char × sequence) :=
  if r.qname ≠ r.tname then
    addCoverage r.tname r.tlen (overlap_len r)
      (addCoverage r.qname r.qlen (overlap_len r) paf_records)
  else paf_records

/-- The function `parse_paf` on the records that `paf_read` yields. -/
def parse_paf (records : List PafRecord) : List (List Char × sequence) :=
  records.foldl pafStep []

/-! ### preqclr.cpp: calculate_est_cov_and_est_genome_size (lines 607-699) -/

/-- The function `round` of `<cmath>`: to the nearest integer, halves away from zero. -/
def roundHalfAway (q : ℚ) : ℚ :=
  if 0 ≤ q then ((Int.floor (q + 1 / 2) : Int) : ℚ) else ((Int.ceil (q - 1 / 2) : Int) : ℚ)

/-- The index `i25 = ceil(covs.size() * 0.25)`. -/
def i25 (n : Nat) : Nat :=
  (Int.ceil ((n : ℚ) * (25 / 100))).toNat

/-- The index `i75 = ceil(covs.size() * 0.75)`. -/
def i75 (n : Nat) : Nat :=
  (Int.ceil ((n : ℚ) * (75 / 100))).toNat

/-- The index `i50 = ceil(filtered_covs.size() * 0.50)`. -/
def i50 (m : Nat) : Nat :=
  (Int.ceil ((m : ℚ) * (50 / 100))).toNat

/-- The call `sort(covs.begin(), covs.end())` on pairs `(coverage, read length)`. -/
def sortCovs (covs : List (ℚ × Nat)) : List (ℚ × Nat) :=
  covs.insertionSort (fun a b => a.1 < b.1 ∨ (a.1 = b.1 ∧ a.2 ≤ b.2))

/-- The vector `covs` of lines 623-636: the rounded coverage and the length of every read. -/
def covsOf (paf : List sequence) : List (ℚ × Nat) :=
  paf.map (fun r => (roundHalfAway r.cov, r.read_len))

/-- The value `lowerbound = round(covs[i25].first - IQR * 1.5)`. -/
def lowerbound (c25 c75 : ℚ × Nat) : ℚ :=
  roundHalfAway (c25.1 - (c75.1 - c25.1) * (3 / 2))

/-- The value `upperbound = round(covs[i75].first + IQR * 1.5)`. -/
def upperbound (c25 c75 : ℚ × Nat) : ℚ :=
  roundHalfAway (c75.1 + (c75.1 - c25.1) * (3 / 2))

/-- The entries of `covs` that pass the filter of lines 660-669. -/
def keptCovs (covs : List (ℚ × Nat)) (c25 c75 : ℚ × Nat) : List (ℚ × Nat) :=
  covs.filter (fun p =>
    decide (lowerbound c25 c75 < roundHalfAway p.1) &&
      decide (roundHalfAway p.1 < upperbound c25 c75))

/-- Lines 671-683 on the entries that passed the filter: `filtered_covs` is sorted,
`median_cov = filtered_covs[i50]` and
`est_genome_size = (tot_reads * (sum_len / tot_reads)) / median_cov`; `none` when the index
`i50` is outside `filtered_covs`. -/
def estimateFrom (kept : List (ℚ × Nat)) : Option ℚ :=
  match ((kept.map (fun p => roundHalfAway p.1)).insertionSort (fun a b => a ≤ b))[
      i50 kept.length]? with
  | some median_cov =>
    some (((kept.length : ℚ) * ((((kept.map Prod.snd).sum : Nat) : ℚ) / (kept.length : ℚ)))
      / median_cov)
  | none => none

/-- The function `calculate_est_cov_and_est_genome_size` on the records of the read map: the
value `est_genome_size` it returns, or `none` when `covs[i25]`, `covs[i75]` or
`filtered_covs[i50]` is read outside the vector. -/
def calculate_est_cov_and_est_genome_size (paf : List sequence) : Option ℚ :=
  match (sortCovs (covsOf paf))[i25 (covsOf paf).length]?,
    (sortCovs (covsOf paf))[i75 (covsOf paf).length]? with
  | some c25, some c75 => estimateFrom (keptCovs (sortCovs (covsOf paf)) c25 c75)
  | _, _ => none

end preqclr

namespace racon
end racon

namespace SPOA

/-! ### The POA graph (include/spoa/graph.hpp, include/spoa/node.hpp) -/

/-- Modelled from the spec: the class `Edge` is declared in `edge.hpp`, which is not among the
sources; an edge is a "directed pair (from_id, to_id) with a weight". -/
structure Edge where
  begin_node_id : Nat
  end_node_id : Nat
  weight : ℚ

/-- The fields of the class `Node` (node.hpp). -/
structure Node where
  id_ : Nat
  letter_ : Char
  in_edges_ : List Edge
  out_edges_ : List Edge
  aligned_nodes_ids_ : List Nat

/-- The fields of the class `Graph` (graph.hpp) that the topological order touches. -/
structure Graph where
  num_sequences_ : Nat
  num_nodes_ : Nat
  nodes_ : List Node
  is_sorted_ : Bool
  sorted_nodes_ids_ : List Nat

/-- The accessor `sorted_nodes_ids()`; `none` is the failure of `assert(is_sorted_ == true)`. -/
def Graph.sorted_nodes_ids (g : Graph) : Option (List Nat) :=
  if g.is_sorted_ = true then some g.sorted_nodes_ids_ else none

/-- The pair `(u, v)` is an edge of the graph: some node holds it among its in-edges or its
out-edges. -/
def Graph.IsEdge (g : Graph) (u v : Nat) : Prop :=
  ∃ n ∈ g.nodes_, ∃ e ∈ n.in_edges_ ++ n.out_edges_, e.begin_node_id = u ∧ e.end_node_id = v

/-- Modelled from the spec: the invariants of the graph, "owns the node vector (index = id)",
"every in-edge of a node has that node as its to_id", "every out-edge has the node as from_id",
and for every edge `(u, v)`, "v is in u's out-edge list and u is in v's in-edge list". -/
structure Graph.WellFormed (g : Graph) : Prop where
  size : g.nodes_.length = g.num_nodes_
  ids : ∀ (i : Nat) (n : Node), g.nodes_[i]? = some n → n.id_ = i
  in_edges : ∀ n ∈ g.nodes_, ∀ e ∈ n.in_edges_,
    e.end_node_id = n.id_ ∧ e.begin_node_id < g.num_nodes_
  out_edges : ∀ n ∈ g.nodes_, ∀ e ∈ n.out_edges_,
    e.begin_node_id = n.id_ ∧ ∃ m, g.nodes_[e.end_node_id]? = some m ∧ e ∈ m.in_edges_

/-- Modelled from the spec: invariant (c), "the graph is acyclic": no node reaches itself along
one or more edges. -/
def Graph.Acyclic (g : Graph) : Prop :=
  ∀ v, ¬ Relation.TransGen g.IsEdge v v

/-- Every in-edge of the node comes from a node that is already placed. -/
def nodeReady (n : Node) (sorted : List Nat) : Bool :=
  n.in_edges_.all (fun e => sorted.contains e.begin_node_id)

/-- Modelled from the spec: the loop of a "standard DFS/Kahn ordering" (Kahn's algorithm):
while a node remains, the first remaining node whose in-edges all come from placed nodes is
placed next. The first argument bounds the number of iterations by the number of nodes. -/
def kahnLoop (nodes_ : List Node) : Nat → List Nat → List Nat → List Nat
  | 0, _, sorted => sorted
  | fuel + 1, remaining, sorted =>
    match remaining.find? (fun v =>
        match nodes_[v]? with
        | some n => nodeReady n sorted
        | none => false) with
    | none => sorted
    | some v => kahnLoop nodes_ fuel (remaining.erase v) (sorted ++ [v])

/-- Modelled from the spec: `Graph::topological_sort` is defined in `graph.cpp`, which is not
among the sources: "standard DFS/Kahn ordering; in rigorous mode, verifies that the result is a
valid ordering for all edges". It fills `sorted_nodes_ids_` and sets `is_sorted_`. -/
def Graph.topological_sort (g : Graph) (_rigorous : Bool) : Graph :=
  Graph.mk g.num_sequences_ g.num_nodes_ g.nodes_ true
    (kahnLoop g.nodes_ g.num_nodes_ (List.range g.num_nodes_) [])

/-- A graph of three nodes with the edges `2 -> 0` and `0 -> 1`, as an example. -/
def exampleGraph : Graph :=
  Graph.mk 1 3
    [Node.mk 0 'A' [Edge.mk 2 0 1] [Edge.mk 0 1 1] [],
      Node.mk 1 'C' [Edge.mk 0 1 1] [] [],
      Node.mk 2 'G' [] [Edge.mk 2 0 1] []]
    false []

end SPOA

namespace racon
/-! ## Theorems -/

/-! ### shrinkToFit -/

theorem length_swapAt {α : Type} (src : List (Option α)) (i j : Nat) :
    (swapAt src i j).length = src.length := by
  simp [swapAt]

theorem skipNull_spec {α : Type} (src : List (Option α)) :
    ∀ (n j : Nat), n = src.length - j → j ≤ src.length →
      j ≤ skipNull src n j ∧ skipNull src n j ≤ src.length ∧
      (∀ k, j ≤ k → k < skipNull src n j → src.getD k none = none) ∧
      (skipNull src n j < src.length → (src.getD (skipNull src n j) none).isSome = true) := by
  intro n
  induction n with
  | zero =>
    intro j hn hj
    have : j = src.length := by omega
    simp only [skipNull]
    refine ⟨le_refl _, hj, ?_, ?_⟩
    · intro k h1 h2; omega
    · intro h; omega
  | succ n ih =>
    intro j hn hj
    simp only [skipNull]
    split
    · rename_i hnone
      obtain ⟨h1, h2, h3, h4⟩ := ih (j + 1) (by omega) (by omega)
      refine ⟨by omega, h2, ?_, h4⟩
      intro k hk1 hk2
      rcases Nat.eq_or_lt_of_le hk1 with h | h
      · subst h; simpa using hnone
      · exact h3 k h hk2
    · rename_i hsome
      refine ⟨le_refl _, hj, ?_, ?_⟩
      · intro k h1 h2; omega
      · intro _
        cases h : src.getD j none <;> simp_all

theorem filter_drop_none {α : Type} (src : List (Option α)) :
    ∀ (d a b : Nat), b = a + d →
      (∀ k, a ≤ k → k < b → src.getD k none = none) →
      (src.drop a).filter (fun x => x.isSome) = (src.drop b).filter (fun x => x.isSome) := by
  intro d
  induction d with
  | zero => intro a b hb _; subst hb; rfl
  | succ d ih =>
    intro a b hb hnone
    by_cases ha : a < src.length
    · have h0 : src.getD a none = none := hnone a (le_refl _) (by omega)
      rw [List.getD_eq_getElem _ _ ha] at h0
      rw [List.drop_eq_getElem_cons ha, List.filter_cons, h0]
      simp only [Option.isSome_none, Bool.false_eq_true, if_false]
      exact ih (a + 1) b (by omega) (fun k h1 h2 => hnone k (by omega) h2)
    · rw [List.drop_of_length_le (by omega), List.drop_of_length_le (by omega)]

theorem take_succ_getD {α : Type} (src : List (Option α)) (i : Nat) (hi : i < src.length) :
    src.take (i + 1) = src.take i ++ [src.getD i none] := by
  rw [List.take_succ, List.getElem?_eq_getElem hi, List.getD_eq_getElem _ _ hi]
  rfl

theorem take_set_of_le {α : Type} (l : List α) (n m : Nat) (a : α) (h : n ≤ m) :
    (l.set m a).take n = l.take n := by
  apply List.ext_getElem?
  intro k
  rw [List.getElem?_take, List.getElem?_take]
  split
  · rw [List.getElem?_set_ne (by omega)]
  · rfl

theorem take_append_filter_step {α : Type} (src : List (Option α)) (i : Nat)
    (hi : i < src.length) (hs : (src.getD i none).isSome = true) :
    src.take (i + 1) ++ (src.drop (i + 1)).filter (fun x => x.isSome) =
      src.take i ++ (src.drop i).filter (fun x => x.isSome) := by
  rw [take_succ_getD src i hi, List.drop_eq_getElem_cons hi, List.filter_cons]
  rw [List.getD_eq_getElem _ _ hi] at hs ⊢
  rw [if_pos hs, List.append_assoc]
  rfl

theorem getD_swapAt_of_ne {α : Type} (src : List (Option α)) (i j k : Nat)
    (hi : k ≠ i) (hj : k ≠ j) : (swapAt src i j).getD k none = src.getD k none := by
  simp only [swapAt, List.getD_eq_getElem?_getD]
  rw [List.getElem?_set_ne (Ne.symm hj), List.getElem?_set_ne (Ne.symm hi)]

theorem getD_swapAt_right {α : Type} (src : List (Option α)) (i j : Nat)
    (hj : j < src.length) : (swapAt src i j).getD j none = src.getD i none := by
  simp only [swapAt, List.getD_eq_getElem?_getD]
  rw [List.getElem?_set_self (by simpa using hj)]
  simp

theorem getD_swapAt_left {α : Type} (src : List (Option α)) (i j : Nat)
    (hi : i < src.length) (hij : i ≠ j) : (swapAt src i j).getD i none = src.getD j none := by
  simp only [swapAt, List.getD_eq_getElem?_getD]
  rw [List.getElem?_set_ne (Ne.symm hij), List.getElem?_set_self hi]
  simp

theorem shrinkLoop_spec {α : Type} :
    ∀ (n : Nat) (src : List (Option α)) (i j : Nat), n = src.length - i → i ≤ src.length →
      j ≤ src.length →
      (∀ k, i ≤ k → k < j → src.getD k none = none) →
      (shrinkLoop n src i j).2 ≤ (shrinkLoop n src i j).1.length ∧
      (shrinkLoop n src i j).1.length = src.length ∧
      (shrinkLoop n src i j).1.take (shrinkLoop n src i j).2 =
        src.take i ++ (src.drop i).filter (fun x => x.isSome) := by
  intro n
  induction n with
  | zero =>
    intro src i j hn hi _ _
    have : i = src.length := by omega
    subst this
    simp [shrinkLoop]
  | succ n ih =>
    intro src i j hn hi hjl hj
    have hlt : i < src.length := by omega
    simp only [shrinkLoop]
    split
    · rename_i hsome
      obtain ⟨h1, h2, h3⟩ := ih src (i + 1) j (by omega) (by omega) hjl
        (fun k hk1 hk2 => hj k (by omega) hk2)
      exact ⟨h1, h2, by rw [h3]; exact take_append_filter_step src i hlt hsome⟩
    · rename_i hnull
      have hnull' : src.getD i none = none := by
        cases h : src.getD i none <;> simp_all
      have hmax : max j i ≤ src.length := by
        rcases Nat.le_total j i with h | h
        · rw [Nat.max_eq_right h]; exact hi
        · rw [Nat.max_eq_left h]; exact hjl
      obtain ⟨s1, s2, s3, s4⟩ := skipNull_spec src (src.length - max j i) (max j i) rfl hmax
      generalize skipNull src (src.length - max j i) (max j i) = j2 at s1 s2 s3 s4
      have hall : ∀ k, i ≤ k → k < j2 → src.getD k none = none := by
        intro k hk1 hk2
        by_cases hk : k < max j i
        · rcases Nat.le_total j i with h | h
          · rw [Nat.max_eq_right h] at hk; omega
          · rw [Nat.max_eq_left h] at hk; exact hj k hk1 hk
        · exact s3 k (by omega) hk2
      have hij2 : i ≤ j2 := le_trans (le_max_right j i) s1
      split
      · rename_i hge
        refine ⟨hi, rfl, ?_⟩
        have := filter_drop_none src (src.length - i) i src.length (by omega)
          (fun k h1 h2 => hall k h1 (by omega))
        simp [this]
      · rename_i hlt2
        have hlt2' : j2 < src.length := by omega
        have hsome2 := s4 hlt2'
        have hne : i ≠ j2 := by
          intro h; subst h; rw [hnull'] at hsome2; simp at hsome2
        rw [if_pos hne]
        have hlen := length_swapAt src i j2
        obtain ⟨h1, h2, h3⟩ := ih (swapAt src i j2) (i + 1) j2 (by omega) (by omega) (by omega)
          (fun k hk1 hk2 => by
            rw [getD_swapAt_of_ne src i j2 k (by omega) (by omega)]
            exact hall k (by omega) hk2)
        refine ⟨h1, by omega, ?_⟩
        rw [h3]
        have e1 : ((swapAt src i j2).drop (i + 1)).filter (fun x => x.isSome)
            = ((swapAt src i j2).drop (j2 + 1)).filter (fun x => x.isSome) :=
          filter_drop_none _ (j2 - i) (i + 1) (j2 + 1) (by omega) (fun k hk1 hk2 => by
            by_cases hk : k = j2
            · subst hk; rw [getD_swapAt_right src i k hlt2']; exact hnull'
            · rw [getD_swapAt_of_ne src i j2 k (by omega) hk]
              exact hall k (by omega) (by omega))
        have e2 : (swapAt src i j2).drop (j2 + 1) = src.drop (j2 + 1) := by
          simp only [swapAt]
          rw [List.drop_set_of_lt _ _ (by omega), List.drop_set_of_lt _ _ (by omega)]
        have e3 : (swapAt src i j2).take (i + 1) = src.take i ++ [src.getD j2 none] := by
          rw [take_succ_getD _ i (by omega), getD_swapAt_left src i j2 hlt hne]
          simp only [swapAt]
          rw [take_set_of_le _ _ _ _ hij2, take_set_of_le _ _ _ _ (le_refl i)]
        have e4 : (src.drop i).filter (fun x => x.isSome)
            = src.getD j2 none :: (src.drop (j2 + 1)).filter (fun x => x.isSome) := by
          rw [filter_drop_none src (j2 - i) i j2 (by omega) hall,
            List.drop_eq_getElem_cons hlt2', List.filter_cons]
          rw [List.getD_eq_getElem _ _ hlt2'] at hsome2 ⊢
          rw [if_pos hsome2]
        rw [e1, e2, e3, e4]
        simp

theorem shrinkToFit_fst_eq {α : Type} (src : List (Option α)) (b : Nat) (hb : b ≤ src.length) :
    (shrinkToFit src b).1 = src.take b ++ (src.drop b).filter (fun x => x.isSome) := by
  obtain ⟨h1, _, h3⟩ := shrinkLoop_spec (src.length - b) src b b rfl hb hb
    (fun k hk1 hk2 => by omega)
  simp only [shrinkToFit]
  split
  · exact h3
  · rw [← h3, List.take_of_length_le (by omega)]

/-- C1: for `begin <= src.size()`, `shrinkToFit(src, begin)` leaves the vector equal to its
first `begin` entries, unchanged, followed by exactly the non-null entries that were at
indices `>= begin`, in their original relative order; so no null entry remains at an index
`>= begin`. -/
theorem shrinkToFit_compacts {α : Type} (src : List (Option α)) (b : Nat)
    (hb : b ≤ src.length) :
    (shrinkToFit src b).1 = src.take b ++ (src.drop b).filter (fun x => x.isSome) ∧
    ∀ k, b ≤ k → k < (shrinkToFit src b).1.length →
      ((shrinkToFit src b).1.getD k none).isSome = true := by
  refine ⟨shrinkToFit_fst_eq src b hb, ?_⟩
  intro k hk1 hk2
  rw [shrinkToFit_fst_eq src b hb] at hk2 ⊢
  have hlen : (src.take b).length = b := by simp [hb]
  rw [List.getD_eq_getElem _ _ hk2, List.getElem_append_right (by omega)]
  have hmem := List.getElem_mem (l := (src.drop b).filter (fun x => x.isSome))
    (n := k - (src.take b).length) (by simp only [List.length_append] at hk2; omega)
  exact (List.mem_filter.mp hmem).2

theorem shrinkToFit_compacts_witness :
    (shrinkToFit [some 7, none, none, some 8, none, some 9] 1).1 =
        [some 7, none, none, some 8, none, some 9].take 1 ++
          ([some 7, none, none, some 8, none, some 9].drop 1).filter (fun x => x.isSome) ∧
    ∀ k, 1 ≤ k → k < (shrinkToFit [some 7, none, none, some 8, none, some 9] 1).1.length →
      ((shrinkToFit [some 7, none, none, some 8, none, some 9] 1).1.getD k none).isSome = true :=
  shrinkToFit_compacts [some 7, none, none, some 8, none, some 9] 1 (by decide)

/-! ### remove_invalid_overlaps -/

theorem getD_set_eq_ite {α : Type} (l : List (Option α)) (i k : Nat) (a : Option α) :
    (l.set i a).getD k none = if k = i ∧ i < l.length then a else l.getD k none := by
  simp only [List.getD_eq_getElem?_getD, List.getElem?_set]
  by_cases h : i = k
  · subst h
    by_cases h2 : i < l.length
    · simp [h2]
    · simp [h2, List.getElem?_eq_none (Nat.le_of_not_lt h2)]
  · have : ¬ k = i := fun h3 => h h3.symm
    simp [h, this]

theorem getD_set_none {α : Type} (l : List (Option α)) (i k : Nat) :
    (l.set i none).getD k none = if k = i then none else l.getD k none := by
  rw [getD_set_eq_ite]
  by_cases h : k = i
  · subst h
    by_cases h2 : k < l.length
    · simp [h2]
    · simp only [h2, and_false, if_false, if_true]
      exact List.getD_eq_default _ _ (Nat.le_of_not_lt h2)
  · simp [h]

theorem lt_length_of_getD_eq_some {α : Type} (l : List (Option α)) (i : Nat) (a : α)
    (h : l.getD i none = some a) : i < l.length := by
  by_contra hc
  rw [List.getD_eq_default _ _ (Nat.le_of_not_lt hc)] at h
  exact Option.noConfusion h

theorem removeInner_length (i : Nat) :
    ∀ (n j : Nat) (ov : List (Option Overlap)), (removeInner i n j ov).length = ov.length := by
  intro n
  induction n with
  | zero => intro j ov; rfl
  | succ n ih =>
    intro j ov
    simp only [removeInner]
    split
    · exact ih _ _
    · split
      · rfl
      · split
        · rw [ih]; simp
        · simp

theorem removeInner_spec (i e : Nat) (oi : Overlap) :
    ∀ (n j : Nat) (ov : List (Option Overlap)), i < j → j + n = e → ov.getD i none = some oi →
      (∀ k, k < j ∨ e ≤ k → k ≠ i → (removeInner i n j ov).getD k none = ov.getD k none) ∧
      (((removeInner i n j ov).getD i none = some oi ∧
          ∀ k, j ≤ k → k < e → (removeInner i n j ov).getD k none = none ∧
            ∀ o, ov.getD k none = some o → o.length < oi.length) ∨
        ((removeInner i n j ov).getD i none = none ∧
          ∃ k o, j ≤ k ∧ k < e ∧ ov.getD k none = some o ∧ oi.length ≤ o.length ∧
            (∀ k2, j ≤ k2 → k2 < k → (removeInner i n j ov).getD k2 none = none ∧
              ∀ o2, ov.getD k2 none = some o2 → o2.length < oi.length) ∧
            (∀ k2, k ≤ k2 → (removeInner i n j ov).getD k2 none = ov.getD k2 none))) := by
  intro n
  induction n with
  | zero =>
    intro j ov hij hje hoi
    simp only [removeInner]
    refine ⟨fun k _ _ => trivial, Or.inl ⟨hoi, ?_⟩⟩
    intro k h1 h2; omega
  | succ n ih =>
    intro j ov hij hje hoi
    simp only [removeInner]
    cases hj : ov.getD j none with
    | none =>
      simp only []
      obtain ⟨f, d⟩ := ih (j + 1) ov (by omega) (by omega) hoi
      have fj : (removeInner i n (j + 1) ov).getD j none = none := by
        rw [f j (Or.inl (by omega)) (by omega)]; exact hj
      refine ⟨fun k hk hki => f k (by omega) hki, ?_⟩
      rcases d with ⟨d1, d2⟩ | ⟨d1, k, o, hk1, hk2, hk3, hk4, hk5, hk6⟩
      · refine Or.inl ⟨d1, ?_⟩
        intro k hk1 hk2
        rcases Nat.eq_or_lt_of_le hk1 with h | h
        · subst h
          exact ⟨fj, fun o ho => by rw [hj] at ho; exact Option.noConfusion ho⟩
        · exact d2 k h hk2
      · refine Or.inr ⟨d1, k, o, by omega, hk2, hk3, hk4, ?_, hk6⟩
        intro k2 h1 h2
        rcases Nat.eq_or_lt_of_le h1 with h | h
        · subst h
          exact ⟨fj, fun o ho => by rw [hj] at ho; exact Option.noConfusion ho⟩
        · exact hk5 k2 h h2
    | some oj =>
      simp only [hoi]
      split
      · rename_i hgt
        have hoi2 : (ov.set j none).getD i none = some oi := by
          rw [getD_set_none, if_neg (by omega)]; exact hoi
        obtain ⟨f, d⟩ := ih (j + 1) (ov.set j none) (by omega) (by omega) hoi2
        have e1 : ∀ k, k ≠ j → (ov.set j none).getD k none = ov.getD k none := by
          intro k hk; rw [getD_set_none, if_neg hk]
        have fj : (removeInner i n (j + 1) (ov.set j none)).getD j none = none := by
          rw [f j (Or.inl (by omega)) (by omega), getD_set_none, if_pos rfl]
        refine ⟨fun k hk hki => by rw [f k (by omega) hki, e1 k (by omega)], ?_⟩
        rcases d with ⟨d1, d2⟩ | ⟨d1, k, o, hk1, hk2, hk3, hk4, hk5, hk6⟩
        · refine Or.inl ⟨d1, ?_⟩
          intro k hk1 hk2
          rcases Nat.eq_or_lt_of_le hk1 with h | h
          · subst h
            refine ⟨fj, fun o ho => ?_⟩
            rw [hj] at ho
            cases ho
            exact hgt
          · obtain ⟨a1, a2⟩ := d2 k h hk2
            exact ⟨a1, fun o ho => a2 o (by rw [e1 k (by omega)]; exact ho)⟩
        · refine Or.inr ⟨d1, k, o, by omega, hk2, by rw [← e1 k (by omega)]; exact hk3, hk4, ?_, ?_⟩
          · intro k2 h1 h2
            rcases Nat.eq_or_lt_of_le h1 with h | h
            · subst h
              refine ⟨fj, fun o ho => ?_⟩
              rw [hj] at ho
              cases ho
              exact hgt
            · obtain ⟨a1, a2⟩ := hk5 k2 h h2
              exact ⟨a1, fun o ho => a2 o (by rw [e1 k2 (by omega)]; exact ho)⟩
          · intro k2 h1
            rw [hk6 k2 h1, e1 k2 (by omega)]
      · rename_i hle
        have hil := lt_length_of_getD_eq_some ov i oi hoi
        refine ⟨fun k _ hki => by rw [getD_set_none, if_neg hki], Or.inr ⟨?_, j, oj, le_refl _, by omega, hj, by omega, ?_, ?_⟩⟩
        · rw [getD_set_none, if_pos rfl]
        · intro k2 h1 h2; omega
        · intro k2 h1
          rw [getD_set_none, if_neg (by omega)]

theorem removeInner_frame (i e : Nat) (oi : Overlap) (n j : Nat) (ov : List (Option Overlap))
    (hij : i < j) (hje : j + n = e) (hoi : ov.getD i none = some oi) (k : Nat)
    (hk : k < i ∨ e ≤ k) : (removeInner i n j ov).getD k none = ov.getD k none :=
  (removeInner_spec i e oi n j ov hij hje hoi).1 k (by omega) (by omega)

theorem removeInner_nulled (i e : Nat) (oi : Overlap) (n j : Nat) (ov : List (Option Overlap))
    (hij : i < j) (hje : j + n = e) (hoi : ov.getD i none = some oi) (k : Nat) :
    (removeInner i n j ov).getD k none = ov.getD k none ∨
      (removeInner i n j ov).getD k none = none := by
  obtain ⟨f, d⟩ := removeInner_spec i e oi n j ov hij hje hoi
  by_cases hki : k = i
  · subst hki
    rcases d with ⟨d1, _⟩ | ⟨d1, _⟩
    · exact Or.inl (by rw [d1, hoi])
    · exact Or.inr d1
  · by_cases hr : k < j ∨ e ≤ k
    · exact Or.inl (f k hr hki)
    · rcases d with ⟨_, d2⟩ | ⟨_, kk, o, _, _, _, _, h5, h6⟩
      · exact Or.inr (d2 k (by omega) (by omega)).1
      · by_cases hkk : k < kk
        · exact Or.inr (h5 k (by omega) hkk).1
        · exact Or.inl (h6 k (by omega))

theorem removeBody_length (ty : PolisherType) (thr : ℚ) (i e : Nat)
    (ov : List (Option Overlap)) : (removeBody ty thr i e ov).length = ov.length := by
  simp only [removeBody]
  split
  · rfl
  · split
    · simp
    · split
      · exact removeInner_length _ _ _ _
      · rfl

theorem removeBody_nulled (ty : PolisherType) (thr : ℚ) (i e : Nat) (hie : i < e)
    (ov : List (Option Overlap)) (k : Nat) :
    (removeBody ty thr i e ov).getD k none = ov.getD k none ∨
      (removeBody ty thr i e ov).getD k none = none := by
  simp only [removeBody]
  split
  · exact Or.inl rfl
  · rename_i oi hoi
    split
    · rw [getD_set_none]
      by_cases h : k = i
      · exact Or.inr (by rw [if_pos h])
      · exact Or.inl (by rw [if_neg h])
    · split
      · exact removeInner_nulled i e oi (e - (i + 1)) (i + 1) ov (by omega) (by omega) hoi k
      · exact Or.inl rfl

theorem removeBody_frame (ty : PolisherType) (thr : ℚ) (i e : Nat) (hie : i < e)
    (ov : List (Option Overlap)) (k : Nat) (hk : k < i ∨ e ≤ k) :
    (removeBody ty thr i e ov).getD k none = ov.getD k none := by
  simp only [removeBody]
  split
  · rfl
  · rename_i oi hoi
    split
    · rw [getD_set_none, if_neg (by omega)]
    · split
      · exact removeInner_frame i e oi (e - (i + 1)) (i + 1) ov (by omega) (by omega) hoi k hk
      · rfl

theorem removeBody_kept (ty : PolisherType) (thr : ℚ) (i e : Nat)
    (ov : List (Option Overlap)) (o : Overlap)
    (h : (removeBody ty thr i e ov).getD i none = some o) :
    ov.getD i none = some o ∧ o.rejected thr = false := by
  simp only [removeBody] at h
  split at h
  · rename_i hnone; rw [hnone] at h; exact Option.noConfusion h
  · rename_i oi hoi
    split at h
    · rw [getD_set_none, if_pos rfl] at h; exact Option.noConfusion h
    · rename_i hrej
      have hrej2 : oi.rejected thr = false := by simpa using hrej
      split at h
      · by_cases hie : i < e
        · rcases removeInner_nulled i e oi (e - (i + 1)) (i + 1) ov (Nat.lt_succ_self i) (by omega) hoi i with h2 | h2
          · rw [h2, hoi] at h; cases h; exact ⟨hoi, hrej2⟩
          · rw [h2] at h; exact Option.noConfusion h
        · have : e - (i + 1) = 0 := by omega
          rw [this] at h
          simp only [removeInner] at h
          rw [hoi] at h; cases h; exact ⟨hoi, hrej2⟩
      · rw [hoi] at h; cases h; exact ⟨hoi, hrej2⟩

theorem removeOuter_basic (ty : PolisherType) (thr : ℚ) (e : Nat) :
    ∀ (n i : Nat) (ov : List (Option Overlap)), i + n = e →
      (removeOuter ty thr n i e ov).length = ov.length ∧
      (∀ k, (removeOuter ty thr n i e ov).getD k none = ov.getD k none ∨
        (removeOuter ty thr n i e ov).getD k none = none) ∧
      (∀ k, k < i ∨ e ≤ k → (removeOuter ty thr n i e ov).getD k none = ov.getD k none) ∧
      (∀ k o, i ≤ k → k < e → (removeOuter ty thr n i e ov).getD k none = some o →
        ov.getD k none = some o ∧ o.rejected thr = false) := by
  intro n
  induction n with
  | zero =>
    intro i ov hie
    simp only [removeOuter]
    exact ⟨trivial, fun k => Or.inl trivial, fun k _ => trivial, fun k o h1 h2 => by omega⟩
  | succ n ih =>
    intro i ov hie
    simp only [removeOuter]
    obtain ⟨h1, h2, h3, h4⟩ := ih (i + 1) (removeBody ty thr i e ov) (by omega)
    have hlt : i < e := by omega
    refine ⟨by rw [h1, removeBody_length], ?_, ?_, ?_⟩
    · intro k
      rcases h2 k with a | a
      · rw [a]; exact removeBody_nulled ty thr i e hlt ov k
      · exact Or.inr a
    · intro k hk
      rw [h3 k (by omega), removeBody_frame ty thr i e hlt ov k hk]
    · intro k o hk1 hk2 hko
      rcases Nat.eq_or_lt_of_le hk1 with h | h
      · subst h
        rw [h3 i (by omega)] at hko
        exact removeBody_kept ty thr i e ov o hko
      · obtain ⟨a, b⟩ := h4 k o h hk2 hko
        refine ⟨?_, b⟩
        rcases removeBody_nulled ty thr i e hlt ov k with c | c
        · rw [← c]; exact a
        · rw [c] at a; exact Option.noConfusion a

theorem removeBody_F_of_ne (thr : ℚ) (i e : Nat) (ov : List (Option Overlap)) (k : Nat)
    (hk : k ≠ i) :
    (removeBody PolisherType.kF thr i e ov).getD k none = ov.getD k none := by
  simp only [removeBody]
  split
  · rfl
  · split
    · rw [getD_set_none, if_neg hk]
    · rfl

theorem removeBody_F_keep (thr : ℚ) (i e : Nat) (ov : List (Option Overlap)) (o : Overlap)
    (ho : ov.getD i none = some o) (hr : o.rejected thr = false) :
    (removeBody PolisherType.kF thr i e ov).getD i none = some o := by
  simp only [removeBody, ho, hr]
  simpa using ho

theorem removeOuter_F_keeps (thr : ℚ) (e : Nat) :
    ∀ (n i : Nat) (ov : List (Option Overlap)) (k : Nat) (o : Overlap),
      ov.getD k none = some o → o.rejected thr = false →
      (removeOuter PolisherType.kF thr n i e ov).getD k none = some o := by
  intro n
  induction n with
  | zero => intro i ov k o ho _; exact ho
  | succ n ih =>
    intro i ov k o ho hr
    simp only [removeOuter]
    apply ih
    · by_cases hk : k = i
      · subst hk; exact removeBody_F_keep thr k e ov o ho hr
      · rw [removeBody_F_of_ne thr i e ov k hk]; exact ho
    · exact hr

theorem removeBody_C_atMostOne (thr : ℚ) (b i e : Nat) (ov : List (Option Overlap))
    (hie : i < e)
    (J : ∀ k1, b ≤ k1 → k1 < i → ov.getD k1 none ≠ none →
      ∀ k2, b ≤ k2 → k2 < e → k2 ≠ k1 → ov.getD k2 none = none) :
    ∀ k1, b ≤ k1 → k1 < i + 1 → (removeBody PolisherType.kC thr i e ov).getD k1 none ≠ none →
      ∀ k2, b ≤ k2 → k2 < e → k2 ≠ k1 →
        (removeBody PolisherType.kC thr i e ov).getD k2 none = none := by
  intro k1 hb1 hk1 hne k2 hb2 hk2 hk12
  have hnul := removeBody_nulled PolisherType.kC thr i e hie ov
  by_cases hlt : k1 < i
  · have h1 : ov.getD k1 none ≠ none := by
      rcases hnul k1 with a | a
      · rw [← a]; exact hne
      · exact absurd a hne
    have h2 := J k1 hb1 hlt h1 k2 hb2 hk2 hk12
    rcases hnul k2 with a | a
    · rw [a]; exact h2
    · exact a
  · have hki : k1 = i := by omega
    subst hki
    cases hoi : ov.getD k1 none with
    | none =>
      rcases hnul k1 with a | a
      · rw [a] at hne; exact absurd hoi hne
      · exact absurd a hne
    | some oi =>
      have hpre : ∀ k, b ≤ k → k < k1 → ov.getD k none = none := by
        intro k hbk hkk
        by_contra hc
        have := J k hbk hkk hc k1 hb1 hie (by omega)
        rw [this] at hoi; exact Option.noConfusion hoi
      simp only [removeBody, hoi] at hne ⊢
      by_cases hrej : oi.rejected thr = true
      · simp only [hrej, if_true] at hne
        rw [getD_set_none, if_pos rfl] at hne
        exact absurd rfl hne
      · simp only [hrej] at hne ⊢
        simp only [if_true, Bool.false_eq_true, if_false] at hne ⊢
        obtain ⟨f, d⟩ := removeInner_spec k1 e oi (e - (k1 + 1)) (k1 + 1) ov (by omega)
          (by omega) hoi
        rcases d with ⟨_, d2⟩ | ⟨d1, _⟩
        · by_cases h : k2 < k1
          · rw [f k2 (by omega) (by omega)]; exact hpre k2 hb2 h
          · exact (d2 k2 (by omega) hk2).1
        · exact absurd d1 hne

theorem removeOuter_C_atMostOne (thr : ℚ) (b e : Nat) :
    ∀ (n i : Nat) (ov : List (Option Overlap)), i + n = e →
      (∀ k1, b ≤ k1 → k1 < i → ov.getD k1 none ≠ none →
        ∀ k2, b ≤ k2 → k2 < e → k2 ≠ k1 → ov.getD k2 none = none) →
      ∀ k1, b ≤ k1 → k1 < e →
        (removeOuter PolisherType.kC thr n i e ov).getD k1 none ≠ none →
        ∀ k2, b ≤ k2 → k2 < e → k2 ≠ k1 →
          (removeOuter PolisherType.kC thr n i e ov).getD k2 none = none := by
  intro n
  induction n with
  | zero =>
    intro i ov hie J
    have : i = e := by omega
    subst this
    exact J
  | succ n ih =>
    intro i ov hie J
    simp only [removeOuter]
    exact ih (i + 1) _ (by omega) (removeBody_C_atMostOne thr b i e ov (by omega) J)

theorem removeBody_C_dom (thr : ℚ) (b i e : Nat) (ov : List (Option Overlap))
    (hbi : b ≤ i) (hie : i < e)
    (hvalid : ∀ k o, b ≤ k → k < e → ov.getD k none = some o → o.rejected thr = false) :
    ∀ k o, b ≤ k → k < e → ov.getD k none = some o →
      ∃ k2 o2, b ≤ k2 ∧ k2 < e ∧
        (removeBody PolisherType.kC thr i e ov).getD k2 none = some o2 ∧
        o.length ≤ o2.length := by
  intro k o hbk hke hko
  cases hoi : ov.getD i none with
  | none =>
    refine ⟨k, o, hbk, hke, ?_, le_refl _⟩
    simp only [removeBody, hoi]; exact hko
  | some oi =>
    have hrej := hvalid i oi hbi hie hoi
    simp only [removeBody, hoi, hrej]
    simp only [if_true, Bool.false_eq_true, if_false]
    obtain ⟨f, d⟩ := removeInner_spec i e oi (e - (i + 1)) (i + 1) ov (by omega) (by omega) hoi
    rcases d with ⟨d1, d2⟩ | ⟨d1, kk, okk, hk1, hk2, hk3, hk4, hk5, hk6⟩
    · by_cases h : k ≤ i
      · rcases Nat.eq_or_lt_of_le h with h2 | h2
        · subst h2
          have hoo : o = oi := Option.some.inj (hko.symm.trans hoi)
          exact ⟨k, oi, hbk, hke, d1, by rw [hoo]⟩
        · exact ⟨k, o, hbk, hke, by rw [f k (by omega) (by omega)]; exact hko, le_refl _⟩
      · have := (d2 k (by omega) hke).2 o hko
        exact ⟨i, oi, hbi, hie, d1, by omega⟩
    · have hkk : (removeInner i (e - (i + 1)) (i + 1) ov).getD kk none = some okk := by
        rw [hk6 kk (le_refl _)]; exact hk3
      by_cases h : k ≤ i
      · rcases Nat.eq_or_lt_of_le h with h2 | h2
        · subst h2
          have hoo : o = oi := Option.some.inj (hko.symm.trans hoi)
          exact ⟨kk, okk, by omega, hk2, hkk, by rw [hoo]; exact hk4⟩
        · exact ⟨k, o, hbk, hke, by rw [f k (by omega) (by omega)]; exact hko, le_refl _⟩
      · by_cases h2 : k < kk
        · have := (hk5 k (by omega) h2).2 o hko
          exact ⟨kk, okk, by omega, hk2, hkk, by omega⟩
        · exact ⟨k, o, hbk, hke, by rw [hk6 k (by omega)]; exact hko, le_refl _⟩

theorem removeOuter_C_dom (thr : ℚ) (b e : Nat) :
    ∀ (n i : Nat) (ov : List (Option Overlap)), i + n = e → b ≤ i →
      (∀ k o, b ≤ k → k < e → ov.getD k none = some o → o.rejected thr = false) →
      ∀ k o, b ≤ k → k < e → ov.getD k none = some o →
        ∃ k2 o2, b ≤ k2 ∧ k2 < e ∧
          (removeOuter PolisherType.kC thr n i e ov).getD k2 none = some o2 ∧
          o.length ≤ o2.length := by
  intro n
  induction n with
  | zero =>
    intro i ov _ _ _ k o hbk hke hko
    exact ⟨k, o, hbk, hke, hko, le_refl _⟩
  | succ n ih =>
    intro i ov hie hbi hvalid k o hbk hke hko
    simp only [removeOuter]
    have hlt : i < e := by omega
    obtain ⟨k2, o2, a1, a2, a3, a4⟩ := removeBody_C_dom thr b i e ov hbi hlt hvalid k o hbk hke hko
    have hvalid2 : ∀ k o, b ≤ k → k < e →
        (removeBody PolisherType.kC thr i e ov).getD k none = some o → o.rejected thr = false := by
      intro k o h1 h2 h3
      rcases removeBody_nulled PolisherType.kC thr i e hlt ov k with c | c
      · rw [c] at h3; exact hvalid k o h1 h2 h3
      · rw [c] at h3; exact Option.noConfusion h3
    obtain ⟨k3, o3, c1, c2, c3, c4⟩ := ih (i + 1) _ (by omega) (by omega) hvalid2 k2 o2 a1 a2 a3
    exact ⟨k3, o3, c1, c2, c3, by omega⟩

theorem rejected_eq_true_iff (thr : ℚ) (o : Overlap) :
    o.rejected thr = true ↔ (o.error > thr ∨ o.q_id = o.t_id) := by
  simp [Overlap.rejected]

theorem rejected_eq_false_iff (thr : ℚ) (o : Overlap) :
    o.rejected thr = false ↔ (o.error ≤ thr ∧ o.q_id ≠ o.t_id) := by
  simp [Overlap.rejected]

/-- C4: in mode F, `remove_invalid_overlaps(begin, end)` nulls exactly the non-null overlaps
of `[begin, end)` that have `error > error_threshold` or `q_id == t_id`; every other entry of
the vector, inside and outside the range, is left unchanged. -/
theorem remove_invalid_overlaps_kF (thr : ℚ) (ov : List (Option Overlap)) (b e : Nat) :
    (remove_invalid_overlaps PolisherType.kF thr ov b e).length = ov.length ∧
    (∀ k o, b ≤ k → k < e → ov.getD k none = some o → (o.error > thr ∨ o.q_id = o.t_id) →
      (remove_invalid_overlaps PolisherType.kF thr ov b e).getD k none = none) ∧
    (∀ k, ¬ (b ≤ k ∧ k < e ∧ ∃ o, ov.getD k none = some o ∧ (o.error > thr ∨ o.q_id = o.t_id)) →
      (remove_invalid_overlaps PolisherType.kF thr ov b e).getD k none = ov.getD k none) := by
  by_cases hbe : b ≤ e
  · obtain ⟨h1, h2, h3, h4⟩ := removeOuter_basic PolisherType.kF thr e (e - b) b ov (by omega)
    refine ⟨h1, ?_, ?_⟩
    · intro k o hk1 hk2 hko hrej
      cases hr : (remove_invalid_overlaps PolisherType.kF thr ov b e).getD k none with
      | none => rfl
      | some o2 =>
        obtain ⟨a1, a2⟩ := h4 k o2 hk1 hk2 hr
        rw [hko] at a1
        cases a1
        rw [(rejected_eq_true_iff thr o).mpr hrej] at a2
        exact Bool.noConfusion a2
    · intro k hk
      cases hko : ov.getD k none with
      | none =>
        rcases h2 k with a | a
        · exact a.trans hko
        · exact a
      | some o =>
        by_cases hr : o.rejected thr = true
        · have hout : k < b ∨ e ≤ k := by
            by_contra hc
            exact hk ⟨by omega, by omega, o, hko, (rejected_eq_true_iff thr o).mp hr⟩
          exact (h3 k hout).trans hko
        · exact removeOuter_F_keeps thr e (e - b) b ov k o hko (by simpa using hr)
  · have h0 : e - b = 0 := by omega
    simp only [remove_invalid_overlaps, h0, removeOuter]
    exact ⟨trivial, fun k o h1 h2 => by omega, fun k _ => trivial⟩

/-- C2 (as amended): in mode C, `remove_invalid_overlaps(begin, end)` retains at most one
overlap of the whole group `[begin, end)`, whatever the target ids are; a retained overlap is
an unchanged entry with `error <= error_threshold` and `q_id != t_id`; and when every non-null
overlap of the group passes that test, any non-null overlap in the group guarantees that
exactly one overlap is retained and that it is a longest overlap of the group. -/
theorem remove_invalid_overlaps_kC (thr : ℚ) (ov : List (Option Overlap)) (b e : Nat) :
    (∀ k1 k2, b ≤ k1 → k1 < e → b ≤ k2 → k2 < e →
      (remove_invalid_overlaps PolisherType.kC thr ov b e).getD k1 none ≠ none →
      (remove_invalid_overlaps PolisherType.kC thr ov b e).getD k2 none ≠ none → k1 = k2) ∧
    (∀ k o, b ≤ k → k < e →
      (remove_invalid_overlaps PolisherType.kC thr ov b e).getD k none = some o →
      ov.getD k none = some o ∧ o.error ≤ thr ∧ o.q_id ≠ o.t_id) ∧
    ((∀ k o, b ≤ k → k < e → ov.getD k none = some o → o.error ≤ thr ∧ o.q_id ≠ o.t_id) →
      ∀ k o, b ≤ k → k < e → ov.getD k none = some o →
        ∃ k2 o2, b ≤ k2 ∧ k2 < e ∧
          (remove_invalid_overlaps PolisherType.kC thr ov b e).getD k2 none = some o2 ∧
          ov.getD k2 none = some o2 ∧
          (∀ k3 o3, b ≤ k3 → k3 < e → ov.getD k3 none = some o3 → o3.length ≤ o2.length) ∧
          (∀ k3, b ≤ k3 → k3 < e → k3 ≠ k2 →
            (remove_invalid_overlaps PolisherType.kC thr ov b e).getD k3 none = none)) := by
  by_cases hbe : b ≤ e
  · obtain ⟨_, _, _, h4⟩ := removeOuter_basic PolisherType.kC thr e (e - b) b ov (by omega)
    have hone := removeOuter_C_atMostOne thr b e (e - b) b ov (by omega)
      (fun k1 h1 h2 => by omega)
    refine ⟨?_, ?_, ?_⟩
    · intro k1 k2 a1 a2 a3 a4 a5 a6
      by_contra hne
      exact a6 (hone k1 a1 a2 a5 k2 a3 a4 (fun h => hne h.symm))
    · intro k o a1 a2 a3
      obtain ⟨c1, c2⟩ := h4 k o a1 a2 a3
      exact ⟨c1, (rejected_eq_false_iff thr o).mp c2⟩
    · intro hvalid k o a1 a2 a3
      have hdom := removeOuter_C_dom thr b e (e - b) b ov (by omega) (le_refl _)
        (fun k o h1 h2 h3 => (rejected_eq_false_iff thr o).mpr (hvalid k o h1 h2 h3))
      obtain ⟨k2, o2, c1, c2, c3, _⟩ := hdom k o a1 a2 a3
      have hsurv : (remove_invalid_overlaps PolisherType.kC thr ov b e).getD k2 none ≠ none := by
        intro hc
        have hc2 : (removeOuter PolisherType.kC thr (e - b) b e ov).getD k2 none = none := hc
        rw [hc2] at c3
        exact Option.noConfusion c3
      refine ⟨k2, o2, c1, c2, c3, (h4 k2 o2 c1 c2 c3).1, ?_, ?_⟩
      · intro k3 o3 d1 d2 d3
        obtain ⟨k4, o4, e1, e2, e3, e4⟩ := hdom k3 o3 d1 d2 d3
        have hk : k4 = k2 := by
          by_contra hne
          have := hone k2 c1 c2 hsurv k4 e1 e2 hne
          rw [this] at e3
          exact Option.noConfusion e3
        subst hk
        rw [c3] at e3
        cases e3
        exact e4
      · intro k3 d1 d2 d3
        exact hone k2 c1 c2 hsurv k3 d1 d2 d3
  · refine ⟨fun k1 k2 a1 a2 => by omega, fun k o a1 a2 => by omega,
      fun _ k o a1 a2 => by omega⟩

theorem remove_invalid_overlaps_kC_counterexample :
    ¬ (∀ t : Nat,
        (∃ k o, k < 2 ∧
          [some (Overlap.mk 0 1 false 0 500 true []),
            some (Overlap.mk 0 2 false 0 800 true [])].getD k none = some o ∧
          o.error ≤ 1 ∧ o.q_id ≠ o.t_id ∧ o.t_id = t) →
        ∃ k o, k < 2 ∧
          (remove_invalid_overlaps PolisherType.kC 1
            [some (Overlap.mk 0 1 false 0 500 true []),
              some (Overlap.mk 0 2 false 0 800 true [])] 0 2).getD k none = some o ∧
          o.t_id = t) := by
  intro h
  obtain ⟨k, o, hk, hko, ht⟩ := h 1 ⟨0, Overlap.mk 0 1 false 0 500 true [], by decide, rfl,
    by decide, by decide, rfl⟩
  have hres : remove_invalid_overlaps PolisherType.kC 1
      [some (Overlap.mk 0 1 false 0 500 true []),
        some (Overlap.mk 0 2 false 0 800 true [])] 0 2
      = [none, some (Overlap.mk 0 2 false 0 800 true [])] := by decide
  rw [hres] at hko
  have hk2 : k = 0 ∨ k = 1 := by omega
  rcases hk2 with rfl | rfl
  · exact Option.noConfusion hko
  · have : Overlap.mk 0 2 false 0 800 true [] = o := Option.some.inj hko
    rw [← this] at ht
    exact absurd ht (by decide)

/-! ### The overlap intake -/

theorem qAt_eq_some (tr : Overlap → Overlap) (records : List Overlap) (k : Nat) (r : Overlap)
    (hr : records[k]? = some r) (hv : (tr r).is_valid = true) :
    qAt tr records k = some (tr r).q_id := by
  simp [qAt, hr, hv]

theorem contiguous_apply (tr : Overlap → Overlap) (records : List Overlap)
    (hc : QueryContiguous tr records) (k1 k2 k3 : Nat) (r1 r2 r3 : Overlap)
    (h12 : k1 < k2) (h23 : k2 < k3)
    (e1 : records[k1]? = some r1) (e2 : records[k2]? = some r2) (e3 : records[k3]? = some r3)
    (v1 : (tr r1).is_valid = true) (v2 : (tr r2).is_valid = true)
    (v3 : (tr r3).is_valid = true) (hq : (tr r1).q_id = (tr r3).q_id) :
    (tr r2).q_id = (tr r1).q_id := by
  have hk3 : k3 < records.length := by
    by_contra hcon
    rw [List.getElem?_eq_none (Nat.le_of_not_lt hcon)] at e3
    exact Option.noConfusion e3
  have q1 := qAt_eq_some tr records k1 r1 e1 v1
  have q2 := qAt_eq_some tr records k2 r2 e2 v2
  have q3 := qAt_eq_some tr records k3 r3 e3 v3
  have := hc k3 hk3 k2 h23 k1 h12 (by rw [q1]; exact Option.noConfusion)
    (by rw [q2]; exact Option.noConfusion) (by rw [q1, q3, hq])
  rw [q1, q2] at this
  exact Option.some.inj this

theorem rio_length (ty : PolisherType) (thr : ℚ) (ov : List (Option Overlap)) (b e : Nat) :
    (remove_invalid_overlaps ty thr ov b e).length = ov.length := by
  by_cases hbe : b ≤ e
  · exact (removeOuter_basic ty thr e (e - b) b ov (by omega)).1
  · have h0 : e - b = 0 := by omega
    simp only [remove_invalid_overlaps, h0, removeOuter]

theorem rio_nulled (ty : PolisherType) (thr : ℚ) (ov : List (Option Overlap)) (b e k : Nat) :
    (remove_invalid_overlaps ty thr ov b e).getD k none = ov.getD k none ∨
      (remove_invalid_overlaps ty thr ov b e).getD k none = none := by
  by_cases hbe : b ≤ e
  · exact (removeOuter_basic ty thr e (e - b) b ov (by omega)).2.1 k
  · have h0 : e - b = 0 := by omega
    simp only [remove_invalid_overlaps, h0, removeOuter]
    exact Or.inl trivial

theorem rio_some (ty : PolisherType) (thr : ℚ) (ov : List (Option Overlap)) (b e k : Nat)
    (o : Overlap) (h : (remove_invalid_overlaps ty thr ov b e).getD k none = some o) :
    ov.getD k none = some o := by
  rcases rio_nulled ty thr ov b e k with a | a
  · rw [← a]; exact h
  · rw [a] at h; exact Option.noConfusion h

theorem rio_frame (ty : PolisherType) (thr : ℚ) (ov : List (Option Overlap)) (b e k : Nat)
    (hk : k < b ∨ e ≤ k) :
    (remove_invalid_overlaps ty thr ov b e).getD k none = ov.getD k none := by
  by_cases hbe : b ≤ e
  · exact (removeOuter_basic ty thr e (e - b) b ov (by omega)).2.2.1 k hk
  · have h0 : e - b = 0 := by omega
    simp only [remove_invalid_overlaps, h0, removeOuter]

theorem rio_valid (ty : PolisherType) (thr : ℚ) (ov : List (Option Overlap)) (b e k : Nat)
    (o : Overlap) (hb : b ≤ k) (he : k < e)
    (h : (remove_invalid_overlaps ty thr ov b e).getD k none = some o) :
    o.rejected thr = false :=
  ((removeOuter_basic ty thr e (e - b) b ov (by omega)).2.2.2 k o hb he h).2

theorem rio_C_unique (thr : ℚ) (ov : List (Option Overlap)) (b e k1 k2 : Nat)
    (o1 o2 : Overlap) (h1 : b ≤ k1) (h2 : k1 < e) (h3 : b ≤ k2) (h4 : k2 < e)
    (e1 : (remove_invalid_overlaps PolisherType.kC thr ov b e).getD k1 none = some o1)
    (e2 : (remove_invalid_overlaps PolisherType.kC thr ov b e).getD k2 none = some o2) :
    k1 = k2 := by
  by_contra hne
  have := removeOuter_C_atMostOne thr b e (e - b) b ov (by omega) (fun k1 h1 h2 => by omega)
    k1 h1 h2 (by
      intro hc
      have hc2 : (remove_invalid_overlaps PolisherType.kC thr ov b e).getD k1 none = none := hc
      rw [hc2] at e1; exact Option.noConfusion e1) k2 h3 h4 (fun h => hne h.symm)
  have hc2 : (remove_invalid_overlaps PolisherType.kC thr ov b e).getD k2 none = none := this
  rw [hc2] at e2
  exact Option.noConfusion e2

theorem getElem?_lt_length {α : Type} (l : List α) (k : Nat) (a : α) (h : l[k]? = some a) :
    k < l.length := by
  by_contra hcon
  rw [List.getElem?_eq_none (Nat.le_of_not_lt hcon)] at h
  exact Option.noConfusion h

theorem intakeInv_invalid (tr : Overlap → Overlap) (records : List Overlap) (i c : Nat)
    (ov : List (Option Overlap)) (x : Option Overlap)
    (inv : IntakeInv tr records i c ov) :
    IntakeInv tr records (i + 1) c ((ov.set i x).set i none) := by
  have hget : ∀ k, ((ov.set i x).set i none).getD k none
      = if k = i then none else ov.getD k none := by
    intro k
    rw [getD_set_none]
    by_cases h : k = i
    · rw [if_pos h, if_pos h]
    · rw [if_neg h, if_neg h, getD_set_eq_ite, if_neg (fun hc => h hc.1)]
  have hsome : ∀ k o, ((ov.set i x).set i none).getD k none = some o →
      k ≠ i ∧ ov.getD k none = some o := by
    intro k o h
    rw [hget] at h
    by_cases hk : k = i
    · rw [if_pos hk] at h; exact Option.noConfusion h
    · rw [if_neg hk] at h; exact ⟨hk, h⟩
  refine ⟨by simp [inv.len], by have := inv.ci; omega, ?_, ?_, ?_, ?_, ?_⟩
  · intro k r hk hr
    rw [hget, if_neg (by omega)]
    exact inv.fresh k r (by omega) hr
  · intro k o hk ho
    obtain ⟨h1, h2⟩ := hsome k o ho
    exact inv.done k o (by omega) h2
  · intro k1 k2 o1 o2 a1 a2 a3 a4 e1 e2
    obtain ⟨h1, h2⟩ := hsome k1 o1 e1
    obtain ⟨h3, h4⟩ := hsome k2 o2 e2
    exact inv.pending k1 k2 o1 o2 a1 (by omega) a3 (by omega) h2 h4
  · intro k1 k2 o1 o2 a1 a2 e1 e2 hq
    exact inv.uniq k1 k2 o1 o2 a1 a2 (hsome k1 o1 e1).2 (hsome k2 o2 e2).2 hq
  · intro k1 o1 k2 r2 a1 e1 a2 e2 hv
    exact inv.sep k1 o1 k2 r2 a1 (hsome k1 o1 e1).2 a2 e2 hv

theorem getD_set_some_intake (ov : List (Option Overlap)) (i k : Nat) (x : Option Overlap)
    (hi : i < ov.length) :
    (ov.set i x).getD k none = if k = i then x else ov.getD k none := by
  rw [getD_set_eq_ite]
  by_cases h : k = i
  · rw [if_pos ⟨h, hi⟩, if_pos h]
  · rw [if_neg (fun hc => h hc.1), if_neg h]

theorem intakeInv_same (tr : Overlap → Overlap) (records : List Overlap) (i c c1 : Nat)
    (ov : List (Option Overlap)) (r oc : Overlap)
    (inv : IntakeInv tr records i c ov) (hi : records[i]? = some r)
    (hv : (tr r).is_valid = true) (hc1 : c ≤ c1) (hc2 : c1 ≤ i)
    (hnull : ∀ k, c ≤ k → k < c1 → (ov.set i (some (tr r))).getD k none = none)
    (hoc : (ov.set i (some (tr r))).getD c1 none = some oc)
    (hq : oc.q_id = (tr r).q_id) :
    IntakeInv tr records (i + 1) c1 (ov.set i (some (tr r))) := by
  have hil : i < ov.length := by rw [inv.len]; exact getElem?_lt_length _ _ _ hi
  have hget := fun k => getD_set_some_intake ov i k (some (tr r)) hil
  have hold : ∀ k o, k ≠ i → (ov.set i (some (tr r))).getD k none = some o →
      ov.getD k none = some o := by
    intro k o hk h
    rw [hget, if_neg hk] at h; exact h
  have hltc : ∀ k o, k < c1 → (ov.set i (some (tr r))).getD k none = some o → k < c := by
    intro k o hk h
    by_contra hcon
    rw [hnull k (by omega) hk] at h
    exact Option.noConfusion h
  have hqe : ∀ k o, c1 ≤ k → k < i + 1 → (ov.set i (some (tr r))).getD k none = some o →
      o.q_id = oc.q_id := by
    intro k o hk1 hk2 h
    by_cases hki : k = i
    · rw [hget, if_pos hki] at h
      rw [← Option.some.inj h, hq]
    · exact inv.pending k c1 o oc (by omega) (by omega) hc1 (by omega) (hold k o hki h)
        (hold c1 oc (by omega) hoc)
  refine ⟨by simp [inv.len], by omega, ?_, ?_, ?_, ?_, ?_⟩
  · intro k r2 hk hr
    rw [hget, if_neg (by omega)]
    exact inv.fresh k r2 (by omega) hr
  · intro k o hk ho
    by_cases hki : k = i
    · rw [hget, if_pos hki] at ho
      subst hki
      exact ⟨r, hi, (Option.some.inj ho).symm, by rw [← Option.some.inj ho]; exact hv⟩
    · exact inv.done k o (by omega) (hold k o hki ho)
  · intro k1 k2 o1 o2 a1 a2 a3 a4 e1 e2
    rw [hqe k1 o1 a1 a2 e1, hqe k2 o2 a3 a4 e2]
  · intro k1 k2 o1 o2 a1 a2 e1 e2 hqq
    exact inv.uniq k1 k2 o1 o2 (hltc k1 o1 a1 e1) (hltc k2 o2 a2 e2)
      (hold k1 o1 (by omega) e1) (hold k2 o2 (by omega) e2) hqq
  · intro k1 o1 k2 r2 a1 e1 a2 e2 hv2
    exact inv.sep k1 o1 k2 r2 (hltc k1 o1 a1 e1) (hold k1 o1 (by omega) e1) (by omega) e2 hv2

theorem intakeInv_close (thr : ℚ) (tr : Overlap → Overlap) (records : List Overlap)
    (hcont : QueryContiguous tr records) (i c c1 : Nat)
    (ov : List (Option Overlap)) (r oc : Overlap)
    (inv : IntakeInv tr records i c ov) (hi : records[i]? = some r)
    (hv : (tr r).is_valid = true) (hc1 : c ≤ c1) (hc2 : c1 ≤ i)
    (hnull : ∀ k, c ≤ k → k < c1 → (ov.set i (some (tr r))).getD k none = none)
    (hoc : (ov.set i (some (tr r))).getD c1 none = some oc)
    (hq : oc.q_id ≠ (tr r).q_id) :
    IntakeInv tr records (i + 1) i
      (remove_invalid_overlaps PolisherType.kC thr (ov.set i (some (tr r))) c1 i) := by
  have hil : i < ov.length := by rw [inv.len]; exact getElem?_lt_length _ _ _ hi
  have hget := fun k => getD_set_some_intake ov i k (some (tr r)) hil
  have hold : ∀ k o, k ≠ i → (ov.set i (some (tr r))).getD k none = some o →
      ov.getD k none = some o := by
    intro k o hk h
    rw [hget, if_neg hk] at h; exact h
  have hltc : ∀ k o, k < c1 → (ov.set i (some (tr r))).getD k none = some o → k < c := by
    intro k o hk h
    by_contra hcon
    rw [hnull k (by omega) hk] at h
    exact Option.noConfusion h
  have hback : ∀ k o,
      (remove_invalid_overlaps PolisherType.kC thr (ov.set i (some (tr r))) c1 i).getD k none
        = some o → (ov.set i (some (tr r))).getD k none = some o :=
    fun k o h => rio_some _ thr _ c1 i k o h
  have hmix : ∀ k1 k2 o1 o2, k1 < c1 → c1 ≤ k2 → k2 < i →
      (ov.set i (some (tr r))).getD k1 none = some o1 →
      (ov.set i (some (tr r))).getD k2 none = some o2 → o1.q_id ≠ o2.q_id := by
    intro k1 k2 o1 o2 a1 a2 a3 e1 e2 hqq
    obtain ⟨r2, b1, b2, b3⟩ := inv.done k2 o2 a3 (hold k2 o2 (by omega) e2)
    have := inv.sep k1 o1 k2 r2 (hltc k1 o1 a1 e1) (hold k1 o1 (by omega) e1) (by omega) b1
      (by rw [← b2]; exact b3)
    rw [← b2] at this
    exact this hqq.symm
  refine ⟨by rw [rio_length]; simp [inv.len], by omega, ?_, ?_, ?_, ?_, ?_⟩
  · intro k r2 hk hr
    rw [rio_frame _ _ _ _ _ _ (Or.inr (by omega)), hget, if_neg (by omega)]
    exact inv.fresh k r2 (by omega) hr
  · intro k o hk ho
    have ho1 := hback k o ho
    by_cases hki : k = i
    · rw [hget, if_pos hki] at ho1
      subst hki
      exact ⟨r, hi, (Option.some.inj ho1).symm, by rw [← Option.some.inj ho1]; exact hv⟩
    · exact inv.done k o (by omega) (hold k o hki ho1)
  · intro k1 k2 o1 o2 a1 a2 a3 a4 e1 e2
    have h12 : k1 = k2 := by omega
    subst h12
    rw [e1] at e2
    rw [Option.some.inj e2]
  · intro k1 k2 o1 o2 a1 a2 e1 e2 hqq
    have f1 := hback k1 o1 e1
    have f2 := hback k2 o2 e2
    by_cases h1 : k1 < c1
    · by_cases h2 : k2 < c1
      · exact inv.uniq k1 k2 o1 o2 (hltc k1 o1 h1 f1) (hltc k2 o2 h2 f2)
          (hold k1 o1 (by omega) f1) (hold k2 o2 (by omega) f2) hqq
      · exact absurd hqq (hmix k1 k2 o1 o2 h1 (by omega) a2 f1 f2)
    · by_cases h2 : k2 < c1
      · exact absurd hqq.symm (hmix k2 k1 o2 o1 h2 (by omega) a1 f2 f1)
      · exact rio_C_unique thr _ c1 i k1 k2 o1 o2 (by omega) a1 (by omega) a2 e1 e2
  · intro k1 o1 k2 r2 a1 e1 a2 e2 hv2
    have f1 := hback k1 o1 e1
    by_cases h1 : k1 < c1
    · exact inv.sep k1 o1 k2 r2 (hltc k1 o1 h1 f1) (hold k1 o1 (by omega) f1) (by omega) e2 hv2
    · have g1 := hold k1 o1 (by omega) f1
      have hqo : o1.q_id = oc.q_id :=
        inv.pending k1 c1 o1 oc (by omega) a1 hc1 (by omega) g1 (hold c1 oc (by omega) hoc)
      obtain ⟨r1, b1, b2, b3⟩ := inv.done k1 o1 a1 g1
      intro hcon
      by_cases hk2 : k2 = i
      · subst hk2
        rw [hi] at e2
        rw [← Option.some.inj e2] at hcon
        exact hq (by rw [← hqo, ← hcon])
      · have := contiguous_apply tr records hcont k1 i k2 r1 r r2 a1 (by omega) b1 hi e2
          (by rw [← b2]; exact b3) hv hv2 (by rw [← b2, hcon])
        rw [← b2] at this
        exact hq (by rw [← hqo, this])

theorem intakeLoop_inv (thr : ℚ) (tr : Overlap → Overlap) (records : List Overlap)
    (hcont : QueryContiguous tr records) :
    ∀ (n i c : Nat) (ov : List (Option Overlap)), i + n = records.length →
      IntakeInv tr records i c ov →
      IntakeInv tr records records.length (intakeLoop PolisherType.kC thr tr n i c ov).2
        (intakeLoop PolisherType.kC thr tr n i c ov).1 := by
  intro n
  induction n with
  | zero =>
    intro i c ov hn inv
    have : i = records.length := by omega
    subst this
    exact inv
  | succ n ih =>
    intro i c ov hn inv
    have hlt : i < records.length := by omega
    have hi : records[i]? = some records[i] := List.getElem?_eq_getElem hlt
    have hovi : ov.getD i none = some records[i] := inv.fresh i _ (le_refl _) hi
    have hil : i < ov.length := by rw [inv.len]; exact hlt
    simp only [intakeLoop, hovi]
    by_cases hv : (tr records[i]).is_valid = true
    · simp only [hv, Bool.not_true, Bool.false_eq_true, if_false]
      have hget := fun k => getD_set_some_intake ov i k (some (tr records[i])) hil
      have hlen1 : (ov.set i (some (tr records[i]))).length = ov.length := by simp
      obtain ⟨s1, s2, s3, s4⟩ := skipNull_spec (ov.set i (some (tr records[i])))
        ((ov.set i (some (tr records[i]))).length - c) c rfl
        (by rw [hlen1]; have := inv.ci; omega)
      generalize skipNull (ov.set i (some (tr records[i])))
        ((ov.set i (some (tr records[i]))).length - c) c = c1 at s1 s2 s3 s4
      have hc1i : c1 ≤ i := by
        by_contra hcon
        have := s3 i inv.ci (by omega)
        rw [hget, if_pos rfl] at this
        exact Option.noConfusion this
      have hsome := s4 (by rw [hlen1]; omega)
      cases hoc : (ov.set i (some (tr records[i]))).getD c1 none with
      | none => rw [hoc] at hsome; exact Bool.noConfusion hsome
      | some oc =>
        simp only []
        by_cases hq : oc.q_id = (tr records[i]).q_id
        · simp only [hq, ne_eq, not_true_eq_false, if_false]
          exact ih (i + 1) c1 _ (by omega)
            (intakeInv_same tr records i c c1 ov records[i] oc inv hi hv s1 hc1i s3 hoc hq)
        · simp only [ne_eq, hq, not_false_eq_true, if_true]
          exact ih (i + 1) i _ (by omega)
            (intakeInv_close thr tr records hcont i c c1 ov records[i] oc inv hi hv s1 hc1i s3
              hoc hq)
    · have hv2 : (tr records[i]).is_valid = false := by simpa using hv
      simp only [hv2, Bool.not_false, if_true]
      exact ih (i + 1) c _ (by omega) (intakeInv_invalid tr records i c ov _ inv)

theorem intakeInv_init (tr : Overlap → Overlap) (records : List Overlap) :
    IntakeInv tr records 0 0 (records.map some) := by
  refine ⟨by simp, le_refl _, ?_, ?_, ?_, ?_, ?_⟩
  · intro k r _ hr
    simp [List.getD_eq_getElem?_getD, hr]
  · intro k o hk; omega
  · intro k1 k2 o1 o2 _ hk; omega
  · intro k1 k2 o1 o2 hk; omega
  · intro k1 o1 k2 r2 hk; omega

theorem intake_unique_query (thr : ℚ) (tr : Overlap → Overlap) (records : List Overlap)
    (hcont : QueryContiguous tr records) (k1 k2 : Nat) (o1 o2 : Overlap)
    (e1 : (remove_invalid_overlaps PolisherType.kC thr
        (intakeLoop PolisherType.kC thr tr records.length 0 0 (records.map some)).1
        (intakeLoop PolisherType.kC thr tr records.length 0 0 (records.map some)).2
        records.length).getD k1 none = some o1)
    (e2 : (remove_invalid_overlaps PolisherType.kC thr
        (intakeLoop PolisherType.kC thr tr records.length 0 0 (records.map some)).1
        (intakeLoop PolisherType.kC thr tr records.length 0 0 (records.map some)).2
        records.length).getD k2 none = some o2)
    (hq : o1.q_id = o2.q_id) : k1 = k2 := by
  have inv := intakeLoop_inv thr tr records hcont records.length 0 0 (records.map some)
    (by omega) (intakeInv_init tr records)
  generalize (intakeLoop PolisherType.kC thr tr records.length 0 0 (records.map some)).1 = ov
    at inv e1 e2
  generalize (intakeLoop PolisherType.kC thr tr records.length 0 0 (records.map some)).2 = c
    at inv e1 e2
  have f1 := rio_some _ thr ov c records.length k1 o1 e1
  have f2 := rio_some _ thr ov c records.length k2 o2 e2
  have l1 : k1 < records.length := by
    rw [← inv.len]; exact lt_length_of_getD_eq_some ov k1 o1 f1
  have l2 : k2 < records.length := by
    rw [← inv.len]; exact lt_length_of_getD_eq_some ov k2 o2 f2
  have hmix : ∀ k1 k2 o1 o2, k1 < c → c ≤ k2 → k2 < records.length →
      ov.getD k1 none = some o1 → ov.getD k2 none = some o2 → o1.q_id ≠ o2.q_id := by
    intro k1 k2 o1 o2 a1 a2 a3 e1 e2 hqq
    obtain ⟨r2, b1, b2, b3⟩ := inv.done k2 o2 a3 e2
    have := inv.sep k1 o1 k2 r2 a1 e1 a2 b1 (by rw [← b2]; exact b3)
    rw [← b2] at this
    exact this hqq.symm
  by_cases h1 : k1 < c
  · by_cases h2 : k2 < c
    · exact inv.uniq k1 k2 o1 o2 h1 h2 f1 f2 hq
    · exact absurd hq (hmix k1 k2 o1 o2 h1 (by omega) l2 f1 f2)
  · by_cases h2 : k2 < c
    · exact absurd hq.symm (hmix k2 k1 o2 o1 h2 (by omega) l1 f2 f1)
    · exact rio_C_unique thr ov c records.length k1 k2 o1 o2 (by omega) l1 (by omega) l2 e1 e2

theorem pairwise_of_index_unique {α : Type} (l : List (Option α)) (S : α → α → Prop)
    (h : ∀ k1 k2 a1 a2, l.getD k1 none = some a1 → l.getD k2 none = some a2 → S a1 a2 →
      k1 = k2) :
    l.Pairwise (fun x y => ∀ a1 a2, x = some a1 → y = some a2 → ¬ S a1 a2) := by
  rw [List.pairwise_iff_getElem]
  intro i j hi hj hij a1 a2 e1 e2 hs
  have := h i j a1 a2 (by rw [List.getD_eq_getElem _ _ hi]; exact e1)
    (by rw [List.getD_eq_getElem _ _ hj]; exact e2) hs
  omega

theorem shrinkToFit_zero {α : Type} (src : List (Option α)) :
    (shrinkToFit src 0).1 = src.filter (fun x => x.isSome) := by
  rw [shrinkToFit_fst_eq src 0 (Nat.zero_le _)]
  simp

/-- C3 (as amended): in mode C, when the producer reports the end of the stream
(`status == false`) and the valid records of each query are contiguous in the input, the
overlap vector left by the intake holds at most one overlap per query id, hence at most one
overlap for every pair `(q_id, t_id)`; and no entry of it is null. -/
theorem overlapIntake_kC_unique (thr : ℚ) (tr : Overlap → Overlap) (records : List Overlap)
    (hcont : QueryContiguous tr records) :
    (overlapIntake PolisherType.kC thr tr records false).Pairwise
      (fun x y => ∀ o1 o2, x = some o1 → y = some o2 →
        ¬ (o1.q_id = o2.q_id ∧ o1.t_id = o2.t_id)) ∧
    (overlapIntake PolisherType.kC thr tr records false).Pairwise
      (fun x y => ∀ o1 o2, x = some o1 → y = some o2 → ¬ o1.q_id = o2.q_id) ∧
    ∀ x ∈ overlapIntake PolisherType.kC thr tr records false, x.isSome = true := by
  have inv := intakeLoop_inv thr tr records hcont records.length 0 0 (records.map some)
    (by omega) (intakeInv_init tr records)
  have hres : overlapIntake PolisherType.kC thr tr records false
      = (remove_invalid_overlaps PolisherType.kC thr
          (intakeLoop PolisherType.kC thr tr records.length 0 0 (records.map some)).1
          (intakeLoop PolisherType.kC thr tr records.length 0 0 (records.map some)).2
          records.length).filter (fun x => x.isSome) := by
    simp only [overlapIntake, List.length_map, Nat.sub_zero, Bool.not_false, if_true]
    rw [shrinkToFit_zero, inv.len]
  have hq : (overlapIntake PolisherType.kC thr tr records false).Pairwise
      (fun x y => ∀ o1 o2, x = some o1 → y = some o2 → ¬ o1.q_id = o2.q_id) := by
    rw [hres]
    apply List.Pairwise.filter
    exact pairwise_of_index_unique _ (fun a b => a.q_id = b.q_id)
      (fun k1 k2 a1 a2 e1 e2 hs => intake_unique_query thr tr records hcont k1 k2 a1 a2 e1 e2 hs)
  refine ⟨?_, hq, ?_⟩
  · exact hq.imp (fun h o1 o2 e1 e2 hc => h o1 o2 e1 e2 hc.1)
  · intro x hx
    rw [hres] at hx
    exact (List.mem_filter.mp hx).2

theorem overlapIntake_kC_unique_witness :
    QueryContiguous id
      [Overlap.mk 0 5 false 0 500 true [], Overlap.mk 0 5 false 0 800 true [],
        Overlap.mk 1 5 false 0 800 true []] ∧
    (overlapIntake PolisherType.kC 1 id
      [Overlap.mk 0 5 false 0 500 true [], Overlap.mk 0 5 false 0 800 true [],
        Overlap.mk 1 5 false 0 800 true []] false).Pairwise
      (fun x y => ∀ o1 o2, x = some o1 → y = some o2 →
        ¬ (o1.q_id = o2.q_id ∧ o1.t_id = o2.t_id)) :=
  ⟨by decide, (overlapIntake_kC_unique 1 id
      [Overlap.mk 0 5 false 0 500 true [], Overlap.mk 0 5 false 0 800 true [],
        Overlap.mk 1 5 false 0 800 true []] (by decide)).1⟩

theorem overlapIntake_kC_order_counterexample :
    ¬ (overlapIntake PolisherType.kC 1 id
      [Overlap.mk 0 5 false 0 500 true [], Overlap.mk 1 5 false 0 800 true [],
        Overlap.mk 0 5 false 0 800 true []] false).Pairwise
      (fun x y => ∀ o1 o2, x = some o1 → y = some o2 →
        ¬ (o1.q_id = o2.q_id ∧ o1.t_id = o2.t_id)) := by
  have hres : overlapIntake PolisherType.kC 1 id
      [Overlap.mk 0 5 false 0 500 true [], Overlap.mk 1 5 false 0 800 true [],
        Overlap.mk 0 5 false 0 800 true []] false
      = [some (Overlap.mk 0 5 false 0 500 true []), some (Overlap.mk 1 5 false 0 800 true []),
          some (Overlap.mk 0 5 false 0 800 true [])] := by decide
  rw [hres]
  intro h
  rw [List.pairwise_iff_getElem] at h
  exact h 0 2 (by decide) (by decide) (by decide) _ _ rfl rfl ⟨rfl, rfl⟩

/-- C5: the claim fails on the code when the producer returns `true`: the last group is
never passed to `remove_invalid_overlaps`, and an overlap whose error (1/2) exceeds the
threshold (3/10) is left in the vector; with status `false` the same record is dropped. -/
theorem overlapIntake_status_true_keeps_rejected :
    ∀ ty : PolisherType,
      overlapIntake ty (mkRat 3 10) id [Overlap.mk 0 5 false (mkRat 1 2) 500 true []] true
        = [some (Overlap.mk 0 5 false (mkRat 1 2) 500 true [])] ∧
      (Overlap.mk 0 5 false (mkRat 1 2) 500 true []).error > mkRat 3 10 ∧
      overlapIntake ty (mkRat 3 10) id [Overlap.mk 0 5 false (mkRat 1 2) 500 true []] false
        = [] := by
  intro ty
  cases ty <;> decide

theorem intakeLoop_filtered (ty : PolisherType) (thr : ℚ) (tr : Overlap → Overlap)
    (records : List Overlap) :
    ∀ (n i c : Nat) (ov : List (Option Overlap)), i + n = records.length →
      ov.length = records.length → c ≤ i →
      (∀ k r, i ≤ k → records[k]? = some r → ov.getD k none = some r) →
      (∀ k o, k < c → ov.getD k none = some o → o.rejected thr = false) →
      (intakeLoop ty thr tr n i c ov).1.length = records.length ∧
      (intakeLoop ty thr tr n i c ov).2 ≤ records.length ∧
      (∀ k o, k < (intakeLoop ty thr tr n i c ov).2 →
        (intakeLoop ty thr tr n i c ov).1.getD k none = some o → o.rejected thr = false) := by
  intro n
  induction n with
  | zero =>
    intro i c ov hn hlen hci _ hok
    simp only [intakeLoop]
    exact ⟨hlen, by omega, hok⟩
  | succ n ih =>
    intro i c ov hn hlen hci hfresh hok
    have hlt : i < records.length := by omega
    have hi : records[i]? = some records[i] := List.getElem?_eq_getElem hlt
    have hovi : ov.getD i none = some records[i] := hfresh i _ (le_refl _) hi
    have hil : i < ov.length := by rw [hlen]; exact hlt
    simp only [intakeLoop, hovi]
    have hget := fun k => getD_set_some_intake ov i k (some (tr records[i])) hil
    by_cases hv : (tr records[i]).is_valid = true
    · simp only [hv, Bool.not_true, Bool.false_eq_true, if_false]
      have hlen1 : (ov.set i (some (tr records[i]))).length = ov.length := by simp
      obtain ⟨s1, s2, s3, s4⟩ := skipNull_spec (ov.set i (some (tr records[i])))
        ((ov.set i (some (tr records[i]))).length - c) c rfl (by rw [hlen1]; omega)
      generalize skipNull (ov.set i (some (tr records[i])))
        ((ov.set i (some (tr records[i]))).length - c) c = c1 at s1 s2 s3 s4
      have hc1i : c1 ≤ i := by
        by_contra hcon
        have := s3 i hci (by omega)
        rw [hget, if_pos rfl] at this
        exact Option.noConfusion this
      have hsome := s4 (by rw [hlen1]; omega)
      have hok1 : ∀ k o, k < c1 → (ov.set i (some (tr records[i]))).getD k none = some o →
          o.rejected thr = false := by
        intro k o hk ho
        have hkc : k < c := by
          by_contra hcon
          rw [s3 k (by omega) hk] at ho
          exact Option.noConfusion ho
        rw [hget, if_neg (by omega)] at ho
        exact hok k o hkc ho
      cases hoc : (ov.set i (some (tr records[i]))).getD c1 none with
      | none => rw [hoc] at hsome; exact Bool.noConfusion hsome
      | some oc =>
        simp only []
        split
        · apply ih (i + 1) i _ (by omega) (by rw [rio_length, hlen1, hlen]) (by omega)
          · intro k r hk hr
            rw [rio_frame _ _ _ _ _ _ (Or.inr (by omega)), hget, if_neg (by omega)]
            exact hfresh k r (by omega) hr
          · intro k o hk ho
            by_cases hkc : k < c1
            · rw [rio_frame _ _ _ _ _ _ (Or.inl hkc)] at ho
              exact hok1 k o hkc ho
            · exact rio_valid ty thr _ c1 i k o (by omega) hk ho
        · apply ih (i + 1) c1 _ (by omega) (by rw [hlen1, hlen]) (by omega)
          · intro k r hk hr
            rw [hget, if_neg (by omega)]
            exact hfresh k r (by omega) hr
          · exact hok1
    · have hv2 : (tr records[i]).is_valid = false := by simpa using hv
      simp only [hv2, Bool.not_false, if_true]
      have hget2 : ∀ k, ((ov.set i (some (tr records[i]))).set i none).getD k none
          = if k = i then none else ov.getD k none := by
        intro k
        rw [getD_set_none]
        by_cases h : k = i
        · rw [if_pos h, if_pos h]
        · rw [if_neg h, if_neg h, hget, if_neg h]
      apply ih (i + 1) c _ (by omega) (by simp [hlen]) (by omega)
      · intro k r hk hr
        rw [hget2, if_neg (by omega)]
        exact hfresh k r (by omega) hr
      · intro k o hk ho
        rw [hget2, if_neg (by omega)] at ho
        exact hok k o hk ho

theorem overlapIntake_status_false_filtered (ty : PolisherType) (thr : ℚ)
    (tr : Overlap → Overlap) (records : List Overlap) (o : Overlap)
    (h : some o ∈ overlapIntake ty thr tr records false) :
    o.error ≤ thr ∧ o.q_id ≠ o.t_id := by
  obtain ⟨h1, h2, h3⟩ := intakeLoop_filtered ty thr tr records records.length 0 0
    (records.map some) (by omega) (by simp) (le_refl _)
    (fun k r _ hr => by simp [List.getD_eq_getElem?_getD, hr]) (fun k o hk => by omega)
  simp only [overlapIntake, List.length_map, Nat.sub_zero, Bool.not_false, if_true] at h
  rw [shrinkToFit_zero, h1] at h
  generalize (intakeLoop ty thr tr records.length 0 0 (records.map some)).1 = ov at h h1 h3
  generalize (intakeLoop ty thr tr records.length 0 0 (records.map some)).2 = c at h h2 h3
  have hmem := (List.mem_filter.mp h).1
  obtain ⟨k, hk, hko⟩ := List.getElem_of_mem hmem
  have hk2 : k < records.length := by rw [rio_length] at hk; omega
  have hgd : (remove_invalid_overlaps ty thr ov c records.length).getD k none = some o := by
    rw [List.getD_eq_getElem _ _ hk]; exact hko
  apply (rejected_eq_false_iff thr o).mp
  by_cases hkc : k < c
  · rw [rio_frame _ _ _ _ _ _ (Or.inl hkc)] at hgd
    exact h3 k o hkc hgd
  · exact rio_valid ty thr ov c records.length k o (by omega) hk2 hgd

/-! ### Window construction -/

theorem windowSliceLength_eq (w L j : Nat) (hj : j < L) (h : L + w < 2 ^ 32) :
    windowSliceLength w L j = min (j + w) L - j := by
  simp only [windowSliceLength]
  have h1 : (j + w) % 2 ^ 32 = j + w := Nat.mod_eq_of_lt (by omega)
  have h2 : L % 2 ^ 32 = L := Nat.mod_eq_of_lt (by omega)
  rw [h1, h2]
  have h3 : min (j + w) L + 2 ^ 32 - j = (min (j + w) L - j) + 2 ^ 32 := by omega
  rw [h3, Nat.add_mod_right]
  exact Nat.mod_eq_of_lt (by omega)

theorem lt_ceilDiv_iff (w L r : Nat) (hw : 0 < w) : r < (L + w - 1) / w ↔ r * w < L := by
  rw [Nat.lt_iff_add_one_le, Nat.le_div_iff_mul_le hw, Nat.add_mul, Nat.one_mul]
  omega

theorem ceilDiv_le (w L : Nat) (hw : 0 < w) : (L + w - 1) / w ≤ L := by
  have h : (L + w - 1) / w < L + 1 := by
    rw [Nat.div_lt_iff_lt_mul hw, Nat.add_mul, Nat.one_mul]
    have := Nat.le_mul_of_pos_right L hw
    omega
  omega

theorem windowLoop_spec (w : Nat) (wt : WindowType) (dummy : List Char) (i : Nat) (s : Sequence)
    (hw : 0 < w) (hL : s.data.length + w < 2 ^ 32) :
    ∀ (m r0 fuel : Nat) (acc : List Window), m = (s.data.length + w - 1) / w - r0 →
      r0 ≤ (s.data.length + w - 1) / w → m < fuel →
      windowLoop w wt dummy i s fuel (r0 * w) r0 acc =
        some (acc ++ (List.range' r0 m).map (fun r => windowAt w wt dummy i s (r * w) r),
          (s.data.length + w - 1) / w) := by
  intro m
  induction m with
  | zero =>
    intro r0 fuel acc hm hr hf
    obtain ⟨f, rfl⟩ : ∃ f, fuel = f + 1 := ⟨fuel - 1, by omega⟩
    have hr0 : r0 = (s.data.length + w - 1) / w := by omega
    have hnot : ¬ r0 * w < s.data.length := by
      rw [← lt_ceilDiv_iff w _ r0 hw]; omega
    simp only [windowLoop, if_neg hnot, List.range'_zero, List.map_nil, List.append_nil]
    rw [← hr0]
  | succ m ih =>
    intro r0 fuel acc hm hr hf
    obtain ⟨f, rfl⟩ : ∃ f, fuel = f + 1 := ⟨fuel - 1, by omega⟩
    have hlt : r0 < (s.data.length + w - 1) / w := by omega
    have hjl : r0 * w < s.data.length := (lt_ceilDiv_iff w _ r0 hw).mp hlt
    have hcl := ceilDiv_le w s.data.length hw
    have hj : (r0 * w + w) % 2 ^ 32 = (r0 + 1) * w := by
      rw [Nat.add_mul, Nat.one_mul]
      exact Nat.mod_eq_of_lt (by omega)
    have hk : (r0 + 1) % 2 ^ 32 = r0 + 1 := Nat.mod_eq_of_lt (by omega)
    simp only [windowLoop, if_pos hjl, hj, hk]
    rw [ih (r0 + 1) f _ (by omega) (by omega) (by omega)]
    simp [List.range'_succ]

theorem windowAt_backbone_length (w : Nat) (wt : WindowType) (dummy : List Char) (i : Nat)
    (s : Sequence) (r : Nat) (hL : s.data.length + w < 2 ^ 32)
    (hr : r * w < s.data.length) :
    (windowAt w wt dummy i s (r * w) r).backbone.length = min (r * w + w) s.data.length - r * w := by
  simp only [windowAt, createWindow, windowSliceLength_eq w _ _ hr hL, List.length_take,
    List.length_drop]
  omega

theorem windowLengths_sum (w L : Nat) (hw : 0 < w) :
    ∀ (m r0 : Nat), m = (L + w - 1) / w - r0 → r0 ≤ (L + w - 1) / w →
      ((List.range' r0 m).map (fun r => min (r * w + w) L - r * w)).sum = L - r0 * w := by
  intro m
  induction m with
  | zero =>
    intro r0 hm hr
    have hr0 : ¬ r0 < (L + w - 1) / w := by omega
    rw [lt_ceilDiv_iff w L r0 hw] at hr0
    simp only [List.range'_zero, List.map_nil, List.sum_nil]
    omega
  | succ m ih =>
    intro r0 hm hr
    have hlt : r0 < (L + w - 1) / w := by omega
    have hjl : r0 * w < L := (lt_ceilDiv_iff w L r0 hw).mp hlt
    rw [List.range'_succ, List.map_cons, List.sum_cons, ih (r0 + 1) (by omega) (by omega),
      Nat.add_mul, Nat.one_mul]
    omega

/-- C6: for a target with data length `L`, `window_length = w > 0` and `L + w < 2 ^ 32`, the
window loop terminates and appends exactly `ceil(L / w)` windows, of ranks `0, 1, 2, ...` in
creation order; the window of rank `r` is created from offset `r * w` with the length
`min((r+1)*w, L) - r*w` of lines 399-400, so its backbone is `target[r*w .. min((r+1)*w, L))`;
that length lies in `[1, w]`, equals `w` for every window but the last, and the lengths sum to
`L`. -/
theorem windowLoop_ceil_windows (w : Nat) (wt : WindowType) (dummy : List Char) (i : Nat)
    (s : Sequence) (fuel : Nat) (acc : List Window)
    (hw : 0 < w) (hL : s.data.length + w < 2 ^ 32) (hf : s.data.length < fuel) :
    windowLoop w wt dummy i s fuel 0 0 acc =
      some (acc ++ (List.range ((s.data.length + w - 1) / w)).map
          (fun r => windowAt w wt dummy i s (r * w) r),
        (s.data.length + w - 1) / w) ∧
    (∀ r, r < (s.data.length + w - 1) / w →
      (windowAt w wt dummy i s (r * w) r).id = i ∧
      (windowAt w wt dummy i s (r * w) r).rank = r ∧
      (windowAt w wt dummy i s (r * w) r).backbone =
        (s.data.drop (r * w)).take (min ((r + 1) * w) s.data.length - r * w) ∧
      1 ≤ (windowAt w wt dummy i s (r * w) r).backbone.length ∧
      (windowAt w wt dummy i s (r * w) r).backbone.length ≤ w ∧
      (r + 1 < (s.data.length + w - 1) / w →
        (windowAt w wt dummy i s (r * w) r).backbone.length = w)) ∧
    ((List.range ((s.data.length + w - 1) / w)).map
      (fun r => (windowAt w wt dummy i s (r * w) r).backbone.length)).sum = s.data.length ∧
    (∀ r, r < (s.data.length + w - 1) / w →
      windowSliceLength w s.data.length (r * w) =
        min ((r + 1) * w) s.data.length - r * w ∧
      (windowAt w wt dummy i s (r * w) r).backbone.length =
        windowSliceLength w s.data.length (r * w) ∧
      1 ≤ windowSliceLength w s.data.length (r * w) ∧
      windowSliceLength w s.data.length (r * w) ≤ w ∧
      (r + 1 < (s.data.length + w - 1) / w →
        windowSliceLength w s.data.length (r * w) = w)) ∧
    ((List.range ((s.data.length + w - 1) / w)).map
      (fun r => windowSliceLength w s.data.length (r * w))).sum = s.data.length := by
  have hcl := ceilDiv_le w s.data.length hw
  have hsum := windowLengths_sum w s.data.length hw ((s.data.length + w - 1) / w) 0
    (Nat.sub_zero _).symm (Nat.zero_le _)
  rw [Nat.zero_mul, Nat.sub_zero, ← List.range_eq_range'] at hsum
  refine ⟨?_, ?_, ?_, ?_, ?_⟩
  · have := windowLoop_spec w wt dummy i s hw hL ((s.data.length + w - 1) / w) 0 fuel acc
      (Nat.sub_zero _).symm (Nat.zero_le _) (lt_of_le_of_lt hcl hf)
    rw [Nat.zero_mul] at this
    rw [this, List.range_eq_range']
  · intro r hr
    have hjl : r * w < s.data.length := (lt_ceilDiv_iff w _ r hw).mp hr
    have hlen := windowAt_backbone_length w wt dummy i s r hL hjl
    refine ⟨rfl, rfl, ?_, by rw [hlen]; omega, by rw [hlen]; omega, ?_⟩
    · simp only [windowAt, createWindow, windowSliceLength_eq w _ _ hjl hL, Nat.add_mul,
        Nat.one_mul]
    · intro hr2
      have := (lt_ceilDiv_iff w _ (r + 1) hw).mp hr2
      rw [Nat.add_mul, Nat.one_mul] at this
      rw [hlen]; omega
  · refine Eq.trans ?_ hsum
    congr 1
    apply List.map_congr_left
    intro r hr
    have hjl : r * w < s.data.length := (lt_ceilDiv_iff w _ r hw).mp (List.mem_range.mp hr)
    exact windowAt_backbone_length w wt dummy i s r hL hjl
  · intro r hr
    have hjl : r * w < s.data.length := (lt_ceilDiv_iff w _ r hw).mp hr
    have hlen := windowAt_backbone_length w wt dummy i s r hL hjl
    have hsl := windowSliceLength_eq w s.data.length (r * w) hjl hL
    have hmul : (r + 1) * w = r * w + w := by rw [Nat.add_mul, Nat.one_mul]
    refine ⟨by rw [hsl, hmul], by rw [hlen, hsl], by rw [hsl]; omega, by rw [hsl]; omega, ?_⟩
    intro hr2
    have := (lt_ceilDiv_iff w _ (r + 1) hw).mp hr2
    rw [hmul] at this
    rw [hsl]; omega
  · refine Eq.trans ?_ hsum
    congr 1
    apply List.map_congr_left
    intro r hr
    have hjl : r * w < s.data.length := (lt_ceilDiv_iff w _ r hw).mp (List.mem_range.mp hr)
    exact windowSliceLength_eq w s.data.length (r * w) hjl hL

theorem windowLoop_ceil_windows_witness :
    (0 < 4 ∧ (Sequence.mk [] "ACGTACGTAC".toList [] [] []).data.length + 4 < 2 ^ 32 ∧
      (Sequence.mk [] "ACGTACGTAC".toList [] [] []).data.length < 11) ∧
    windowLoop 4 WindowType.kTGS [] 0 (Sequence.mk [] "ACGTACGTAC".toList [] [] []) 11 0 0 [] =
      some ([] ++ (List.range (((Sequence.mk [] "ACGTACGTAC".toList [] [] []).data.length
            + 4 - 1) / 4)).map
          (fun r => windowAt 4 WindowType.kTGS [] 0
            (Sequence.mk [] "ACGTACGTAC".toList [] [] []) (r * 4) r),
        ((Sequence.mk [] "ACGTACGTAC".toList [] [] []).data.length + 4 - 1) / 4) ∧
    ((List.range (((Sequence.mk [] "ACGTACGTAC".toList [] [] []).data.length + 4 - 1) / 4)).map
      (fun r => windowSliceLength 4
        (Sequence.mk [] "ACGTACGTAC".toList [] [] []).data.length (r * 4))).sum =
      (Sequence.mk [] "ACGTACGTAC".toList [] [] []).data.length ∧
    (List.range 3).map (fun r => windowSliceLength 4 10 (r * 4)) = [4, 4, 2] ∧
    (windowLoop 4 WindowType.kTGS [] 0 (Sequence.mk [] "ACGTACGTAC".toList [] [] [])
        11 0 0 []).map (fun p => (p.1.map (fun x => (x.rank, x.backbone)), p.2)) =
      some ([(0, "ACGT".toList), (1, "ACGT".toList), (2, "AC".toList)], 3) :=
  ⟨⟨by decide, by decide, by decide⟩,
    (windowLoop_ceil_windows 4 WindowType.kTGS [] 0
      (Sequence.mk [] "ACGTACGTAC".toList [] [] []) 11 [] (by decide) (by decide)
      (by decide)).1,
    (windowLoop_ceil_windows 4 WindowType.kTGS [] 0
      (Sequence.mk [] "ACGTACGTAC".toList [] [] []) 11 [] (by decide) (by decide)
      (by decide)).2.2.2.2,
    by decide, by decide⟩

/-! ### Window table and layer routing -/

theorem getD_set_ite {α : Type} (l : List α) (i k : Nat) (a d : α) :
    (l.set i a).getD k d = if k = i ∧ i < l.length then a else l.getD k d := by
  simp only [List.getD_eq_getElem?_getD, List.getElem?_set]
  by_cases h : i = k
  · subst h
    by_cases h2 : i < l.length
    · simp [h2]
    · simp [h2, List.getElem?_eq_none (Nat.le_of_not_lt h2)]
  · have : ¬ k = i := fun h3 => h h3.symm
    simp [h, this]

theorem windowLoop_run (w : Nat) (wt : WindowType) (dummy : List Char) (i : Nat)
    (s : Sequence) (fuel : Nat) (acc : List Window)
    (hw : 0 < w) (hL : s.data.length + w < 2 ^ 32) (hf : s.data.length < fuel) :
    windowLoop w wt dummy i s fuel 0 0 acc =
      some (acc ++ (List.range ((s.data.length + w - 1) / w)).map
          (fun r => windowAt w wt dummy i s (r * w) r),
        (s.data.length + w - 1) / w) := by
  have hcl := ceilDiv_le w s.data.length hw
  have := windowLoop_spec w wt dummy i s hw hL ((s.data.length + w - 1) / w) 0 fuel acc
    (Nat.sub_zero _).symm (Nat.zero_le _) (lt_of_le_of_lt hcl hf)
  rw [Nat.zero_mul] at this
  rw [this, List.range_eq_range']

set_option maxHeartbeats 1000000 in
theorem buildWindows_spec (w : Nat) (wt : WindowType) (dummy : List Char)
    (sequences_ : List Sequence) (fuel T : Nat) (hw : 0 < w) (hT : T ≤ sequences_.length)
    (hlen : ∀ t s, t < T → sequences_[t]? = some s →
      s.data.length + w < 2 ^ 32 ∧ s.data.length < fuel) :
    ∀ (n i : Nat) (W : List Window) (F : List Nat), i + n = T →
      F.length = T + 1 → F.getD i 0 = W.length →
      (∀ t s r, t < i → sequences_[t]? = some s → r < (s.data.length + w - 1) / w →
        W[F.getD t 0 + r]? = some (windowAt w wt dummy t s (r * w) r)) →
      ∃ W2 F2, buildWindows w wt dummy sequences_ fuel n i W F = some (W2, F2) ∧
        ∀ t s r, t < T → sequences_[t]? = some s → r < (s.data.length + w - 1) / w →
          W2[F2.getD t 0 + r]? = some (windowAt w wt dummy t s (r * w) r) := by
  intro n
  induction n with
  | zero =>
    intro i W F hn _ _ hP
    have : i = T := by omega
    subst this
    exact ⟨W, F, rfl, hP⟩
  | succ n ih =>
    intro i W F hn hF hFi hP
    have hiT : i < T := by omega
    have hs : sequences_[i]? = some sequences_[i] := List.getElem?_eq_getElem (by omega)
    obtain ⟨h1, h2⟩ := hlen i _ hiT hs
    have hloop := windowLoop_run w wt dummy i sequences_[i] fuel W hw h1 h2
    simp only [buildWindows, hs, hloop]
    have hn2 : i + 1 + n = T := by omega
    have hF2 : (F.set (i + 1) (F.getD i 0 + (sequences_[i].data.length + w - 1) / w)).length
        = T + 1 := by rw [List.length_set]; exact hF
    apply ih (i + 1) _ _ hn2 hF2
    · have hcond : i + 1 = i + 1 ∧ i + 1 < F.length := ⟨rfl, by omega⟩
      rw [getD_set_ite, if_pos hcond]
      simp only [List.length_append, List.length_map, List.length_range]
      exact congrArg (fun z => z + (sequences_[i].data.length + w - 1) / w) hFi
    · intro t s r ht hts hr
      have hFt : (F.set (i + 1) (F.getD i 0 + (sequences_[i].data.length + w - 1) / w)).getD t 0
          = F.getD t 0 := by
        rw [getD_set_ite, if_neg (fun hc => by omega)]
      simp only [hFt]
      by_cases hti : t < i
      · have hold := hP t s r hti hts hr
        have hidx : F.getD t 0 + r < W.length := by
          by_contra hcon
          rw [List.getElem?_eq_none (Nat.le_of_not_lt hcon)] at hold
          exact Option.noConfusion hold
        rw [List.getElem?_append_left hidx]
        exact hold
      · have hti2 : t = i := by omega
        subst hti2
        rw [hs] at hts
        have hss := Option.some.inj hts
        subst hss
        rw [hFi, List.getElem?_append_right (by omega), Nat.add_sub_cancel_left,
          List.getElem?_map, List.getElem?_range hr]
        rfl

theorem constructWindows_spec (w : Nat) (wt : WindowType) (sequences_ : List Sequence)
    (T fuel : Nat) (hw : 0 < w) (hT : T ≤ sequences_.length)
    (hlen : ∀ t s, t < T → sequences_[t]? = some s →
      s.data.length + w < 2 ^ 32 ∧ s.data.length < fuel) :
    ∃ W F, constructWindows w wt sequences_ T fuel = some (W, F) ∧
      ∀ t s r, t < T → sequences_[t]? = some s → r < (s.data.length + w - 1) / w →
        W[F.getD t 0 + r]? =
          some (windowAt w wt (List.replicate w '!') t s (r * w) r) := by
  apply buildWindows_spec w wt (List.replicate w '!') sequences_ fuel T hw hT hlen T 0 []
    (List.replicate (T + 1) 0) (Nat.zero_add T) (List.length_replicate _ _)
  · simp [List.getD_eq_getElem?_getD]
  · intro t s r ht
    omega

theorem getElem?_of_map_eq {α β : Type} (f : α → β) (l1 l2 : List α) (k : Nat) (y : α)
    (h : l1.map f = l2.map f) (hy : l2[k]? = some y) :
    ∃ x, l1[k]? = some x ∧ f x = f y := by
  have h2 : (l1.map f)[k]? = (l2.map f)[k]? := by rw [h]
  rw [List.getElem?_map, List.getElem?_map, hy] at h2
  cases hx : l1[k]? with
  | none => rw [hx] at h2; exact Option.noConfusion h2
  | some x =>
    rw [hx] at h2
    exact ⟨x, rfl, Option.some.inj h2⟩

/-- C7: when `window_length > 0` and no target reaches the 32-bit limit
(`length + window_length < 2 ^ 32`), the window construction succeeds and, whatever layers
were added in between, a break-point pair of an overlap with target id `t` that starts at
target position `p < length(target t)` and passes the span and quality tests appends its
layer to the window at index `id_to_first_window_id[t] + p / window_length`, which is the
window with id `t` and rank `p / window_length`. -/
theorem layer_routed_to_window (w : Nat) (wt : WindowType) (sequences_ : List Sequence)
    (T fuel : Nat) (quality_threshold : ℚ) (hw : 0 < w) (hT : T ≤ sequences_.length)
    (hlen : ∀ t s, t < T → sequences_[t]? = some s →
      s.data.length + w < 2 ^ 32 ∧ s.data.length < fuel) :
    ∃ W F, constructWindows w wt sequences_ T fuel = some (W, F) ∧
      ∀ (ws : List Window),
        ws.map (fun x => (x.id, x.rank)) = W.map (fun x => (x.id, x.rank)) →
        ∀ (o : Overlap) (sequence target : Sequence) (s e : Nat × Nat),
          o.t_id < T → sequences_[o.t_id]? = some target → s.1 < target.data.length →
          layerPasses w quality_threshold sequence o.strand s e = true →
          ∃ x, ws[F.getD o.t_id 0 + s.1 / w]? = some x ∧ x.id = o.t_id ∧ x.rank = s.1 / w ∧
            layerStep w quality_threshold F sequence o s e ws =
              ws.set (F.getD o.t_id 0 + s.1 / w)
                (x.add_layer (layerOf w sequence o.strand s e).data
                  (layerOf w sequence o.strand s e).quality
                  (layerOf w sequence o.strand s e).begin_
                  (layerOf w sequence o.strand s e).end_) := by
  obtain ⟨W, F, hc, hW⟩ := constructWindows_spec w wt sequences_ T fuel hw hT hlen
  refine ⟨W, F, hc, ?_⟩
  intro ws hws o sequence target s e ht htarget hp hpass
  have hr : s.1 / w < (target.data.length + w - 1) / w := by
    rw [lt_ceilDiv_iff w _ _ hw]
    exact lt_of_le_of_lt (Nat.div_mul_le_self _ _) hp
  have hWx := hW o.t_id target (s.1 / w) ht htarget hr
  obtain ⟨x, hx, hkey⟩ := getElem?_of_map_eq (fun x : Window => (x.id, x.rank)) ws W _ _ hws hWx
  have hid : x.id = o.t_id := congrArg Prod.fst hkey
  have hrank : x.rank = s.1 / w := congrArg Prod.snd hkey
  refine ⟨x, hx, hid, hrank, ?_⟩
  simp only [layerStep, hpass, if_true, layerWindowId, hx]

theorem layer_routed_to_window_witness :
    ∃ W F, constructWindows 4 WindowType.kTGS
        [Sequence.mk "t".toList "ACGTACGTAC".toList [] [] [],
          Sequence.mk "q".toList "ACGTACGTAC".toList [] [] []] 1 11 = some (W, F) ∧
      ∀ (ws : List Window),
        ws.map (fun x => (x.id, x.rank)) = W.map (fun x => (x.id, x.rank)) →
        ∀ (o : Overlap) (sequence target : Sequence) (s e : Nat × Nat),
          o.t_id < 1 →
          [Sequence.mk "t".toList "ACGTACGTAC".toList [] [] [],
            Sequence.mk "q".toList "ACGTACGTAC".toList [] [] []][o.t_id]? = some target →
          s.1 < target.data.length →
          layerPasses 4 10 sequence o.strand s e = true →
          ∃ x, ws[F.getD o.t_id 0 + s.1 / 4]? = some x ∧ x.id = o.t_id ∧ x.rank = s.1 / 4 ∧
            layerStep 4 10 F sequence o s e ws =
              ws.set (F.getD o.t_id 0 + s.1 / 4)
                (x.add_layer (layerOf 4 sequence o.strand s e).data
                  (layerOf 4 sequence o.strand s e).quality
                  (layerOf 4 sequence o.strand s e).begin_
                  (layerOf 4 sequence o.strand s e).end_) :=
  layer_routed_to_window 4 WindowType.kTGS
    [Sequence.mk "t".toList "ACGTACGTAC".toList [] [] [],
      Sequence.mk "q".toList "ACGTACGTAC".toList [] [] []] 1 11 10 (by decide) (by decide)
    (by
      intro t s ht hs
      have ht0 : t = 0 := by omega
      subst ht0
      have hs2 : s = Sequence.mk "t".toList "ACGTACGTAC".toList [] [] [] :=
        (Option.some.inj hs).symm
      subst hs2
      exact ⟨by decide, by decide⟩)

/-! ### The layer filter -/

theorem polishedCount_cons (consensus : Window → Bool × List Char) (w : Window)
    (g : List Window) :
    polishedCount consensus (w :: g) =
      (if (consensus w).1 then 1 else 0) + polishedCount consensus g := by
  simp only [polishedCount, List.filter_cons]
  split
  · simp; omega
  · simp

theorem polishedCount_le (consensus : Window → Bool × List Char) (g : List Window) :
    polishedCount consensus g ≤ g.length := by
  simp only [polishedCount]
  exact List.length_filter_le _ _

theorem polishLoop_group (consensus : Window → Bool × List Char) (drop : Bool) :
    ∀ (pre : List Window) (last : Window) (rest : List Window) (pd : List Char) (num : Nat)
      (dst : List Polished),
      (∀ w ∈ (pre ++ [last]).tail, w.rank ≠ 0) →
      (rest = [] ∨ ∃ n tl, rest = n :: tl ∧ n.rank = 0) →
      num + pre.length + 1 < 2 ^ 32 →
      polishLoop consensus drop (pre ++ last :: rest) pd num dst =
        polishLoop consensus drop rest [] 0
          (if !drop ||
              decide ((((num + polishedCount consensus (pre ++ [last]) : Nat) : ℚ)
                / (((last.rank + 1) % 2 ^ 32 : Nat) : ℚ)) > 0) then
            dst ++ [Polished.mk last.id
              (pd ++ ((pre ++ [last]).map (fun w => (consensus w).2)).flatten)
              (((num + polishedCount consensus (pre ++ [last]) : Nat) : ℚ)
                / (((last.rank + 1) % 2 ^ 32 : Nat) : ℚ))]
          else dst) := by
  intro pre
  induction pre with
  | nil =>
    intro last rest pd num dst _ hrest hnum
    have hcond : targetEnds rest = true := by
      rcases hrest with h | ⟨n, tl, h, hn⟩
      · subst h; rfl
      · subst h; simp [targetEnds, hn]
    have hmod : (num + (if (consensus last).1 then 1 else 0)) % 2 ^ 32
        = num + polishedCount consensus [last] := by
      rw [polishedCount_cons]
      simp only [polishedCount, List.filter_nil, List.length_nil, Nat.add_zero]
      apply Nat.mod_eq_of_lt
      split <;> omega
    simp only [List.nil_append, polishLoop, hcond, if_true, hmod, List.map_cons, List.map_nil,
      List.flatten_cons, List.flatten_nil, List.append_nil]
  | cons w0 pre ih =>
    intro last rest pd num dst htail hrest hnum
    have hhead : ∃ n tl, pre ++ last :: rest = n :: tl ∧ n.rank ≠ 0 := by
      cases pre with
      | nil => exact ⟨last, rest, rfl, htail last (by simp)⟩
      | cons a tl => exact ⟨a, tl ++ last :: rest, rfl, htail a (by simp)⟩
    obtain ⟨n, tl, hnt, hn⟩ := hhead
    have hmod : (num + (if (consensus w0).1 then 1 else 0)) % 2 ^ 32
        = num + (if (consensus w0).1 then 1 else 0) := by
      apply Nat.mod_eq_of_lt
      simp only [List.length_cons] at hnum
      split <;> omega
    have hstep : polishLoop consensus drop (w0 :: pre ++ last :: rest) pd num dst
        = polishLoop consensus drop (pre ++ last :: rest) (pd ++ (consensus w0).2)
            (num + (if (consensus w0).1 then 1 else 0)) dst := by
      show polishLoop consensus drop (w0 :: (pre ++ last :: rest)) pd num dst = _
      rw [hnt]
      simp only [polishLoop, targetEnds, hn, decide_False, Bool.false_eq_true, if_false, hmod]
    rw [hstep, ih last rest _ _ dst
      (fun w hw => htail w (by
        simp only [List.cons_append, List.tail_cons]
        exact List.mem_of_mem_tail hw))
      hrest (by simp only [List.length_cons] at hnum; split <;> omega)]
    have hcount : num + (if (consensus w0).1 then 1 else 0) + polishedCount consensus (pre ++ [last])
        = num + polishedCount consensus (w0 :: pre ++ [last]) := by
      show _ = num + polishedCount consensus (w0 :: (pre ++ [last]))
      rw [polishedCount_cons]; omega
    simp only [hcount, List.cons_append, List.map_cons, List.flatten_cons, List.append_assoc]

theorem windowGroups_shift (b : Nat) (g0 : List Window) (gs : List (List Window))
    (hwf : ∀ (j : Nat) (g : List Window), (g0 :: gs)[j]? = some g →
      g.length < 2 ^ 32 ∧ ∀ (r : Nat) (w : Window), g[r]? = some w → w.id = b + j ∧ w.rank = r) :
    ∀ (j : Nat) (g : List Window), gs[j]? = some g →
      g.length < 2 ^ 32 ∧
        ∀ (r : Nat) (w : Window), g[r]? = some w → w.id = b + 1 + j ∧ w.rank = r := by
  intro j g hg
  obtain ⟨h1, h2⟩ := hwf (j + 1) g (by rw [List.getElem?_cons_succ]; exact hg)
  refine ⟨h1, fun r w hw => ?_⟩
  obtain ⟨a, c⟩ := h2 r w hw
  exact ⟨by omega, c⟩

theorem flatten_head_rank (b : Nat) :
    ∀ (groups : List (List Window)),
      (∀ (j : Nat) (g : List Window), groups[j]? = some g →
        g.length < 2 ^ 32 ∧
          ∀ (r : Nat) (w : Window), g[r]? = some w → w.id = b + j ∧ w.rank = r) →
      groups.flatten = [] ∨ ∃ n tl, groups.flatten = n :: tl ∧ n.rank = 0 := by
  intro groups
  induction groups generalizing b with
  | nil => intro _; exact Or.inl rfl
  | cons g gs ih =>
    intro hwf
    cases g with
    | nil =>
      simp only [List.flatten_cons, List.nil_append]
      exact ih (b + 1) (windowGroups_shift b [] gs hwf)
    | cons a tl =>
      refine Or.inr ⟨a, tl ++ gs.flatten, by simp, ?_⟩
      exact ((hwf 0 (a :: tl) List.getElem?_cons_zero).2 0 a List.getElem?_cons_zero).2

theorem polishSpec_cons_nil (consensus : Window → Bool × List Char) (drop : Bool) (b : Nat)
    (gs : List (List Window)) :
    polishSpec consensus drop b ([] :: gs) = polishSpec consensus drop (b + 1) gs := by
  simp [polishSpec]

theorem polishSpec_cons (consensus : Window → Bool × List Char) (drop : Bool) (b : Nat)
    (g : List Window) (gs : List (List Window)) (hg : g ≠ []) :
    polishSpec consensus drop b (g :: gs) =
      (if !drop || decide ((groupSummary consensus b g).xc > 0) then
        [groupSummary consensus b g] else []) ++ polishSpec consensus drop (b + 1) gs := by
  have hne : (!g.isEmpty) = true := by
    cases g with
    | nil => exact absurd rfl hg
    | cons a tl => rfl
  simp only [polishSpec, List.enumFrom_cons, List.filter_cons, hne, if_true, List.map_cons]
  split <;> simp

theorem polishLoop_groups (consensus : Window → Bool × List Char) (drop : Bool) :
    ∀ (groups : List (List Window)) (b : Nat) (dst : List Polished),
      (∀ (j : Nat) (g : List Window), groups[j]? = some g →
        g.length < 2 ^ 32 ∧
          ∀ (r : Nat) (w : Window), g[r]? = some w → w.id = b + j ∧ w.rank = r) →
      polishLoop consensus drop groups.flatten [] 0 dst =
        dst ++ polishSpec consensus drop b groups := by
  intro groups
  induction groups with
  | nil =>
    intro b dst _
    simp [polishLoop, polishSpec]
  | cons g gs ih =>
    intro b dst hwf
    have hshift := windowGroups_shift b g gs hwf
    by_cases hg : g = []
    · subst hg
      rw [polishSpec_cons_nil]
      simp only [List.flatten_cons, List.nil_append]
      exact ih (b + 1) dst hshift
    · obtain ⟨hlen, hw⟩ := hwf 0 g List.getElem?_cons_zero
      have hsplit := List.dropLast_append_getLast hg
      have hpos : 0 < g.length := List.length_pos.mpr hg
      have hlast : g[g.length - 1]? = some (g.getLast hg) := by
        rw [List.getLast_eq_getElem, List.getElem?_eq_getElem]
      obtain ⟨hid, hrank⟩ := hw _ _ hlast
      have hpre : g.dropLast.length = g.length - 1 := List.length_dropLast g
      have htail : ∀ w ∈ (g.dropLast ++ [g.getLast hg]).tail, w.rank ≠ 0 := by
        rw [hsplit]
        intro w hmem
        cases g with
        | nil => exact absurd rfl hg
        | cons a tl =>
          simp only [List.tail_cons] at hmem
          obtain ⟨r, hr⟩ := List.mem_iff_getElem?.mp hmem
          have := (hw (r + 1) w (by rw [List.getElem?_cons_succ]; exact hr)).2
          omega
      have hflat : (g :: gs).flatten = g.dropLast ++ g.getLast hg :: gs.flatten := by
        rw [List.flatten_cons]
        conv_lhs => rw [← hsplit]
        simp
      rw [hflat, polishLoop_group consensus drop g.dropLast (g.getLast hg) gs.flatten [] 0 dst
        htail (flatten_head_rank (b + 1) gs hshift) (by omega), hsplit,
        ih (b + 1) _ hshift, polishSpec_cons consensus drop b g gs hg]
      have hmod : (((g.getLast hg).rank + 1) % 2 ^ 32) = g.length := by
        rw [hrank, Nat.sub_add_cancel hpos]
        exact Nat.mod_eq_of_lt hlen
      have hsum : Polished.mk (g.getLast hg).id
          ([] ++ (g.map (fun w => (consensus w).2)).flatten)
          (((0 + polishedCount consensus g : Nat) : ℚ)
            / ((((g.getLast hg).rank + 1) % 2 ^ 32 : Nat) : ℚ))
          = groupSummary consensus b g := by
        simp only [groupSummary, hmod, hid, Nat.add_zero, Nat.zero_add, List.nil_append]
      have hxc : ((0 + polishedCount consensus g : Nat) : ℚ)
            / ((((g.getLast hg).rank + 1) % 2 ^ 32 : Nat) : ℚ)
          = (groupSummary consensus b g).xc := by
        simp only [groupSummary, hmod, Nat.zero_add]
      rw [hsum, hxc]
      split <;> simp

theorem mem_polishSpec (consensus : Window → Bool × List Char) (drop : Bool)
    (groups : List (List Window)) (p : Polished) :
    p ∈ polishSpec consensus drop 0 groups ↔
      ∃ t g, groups[t]? = some g ∧ g ≠ [] ∧
        (drop = false ∨ (groupSummary consensus t g).xc > 0) ∧
        p = groupSummary consensus t g := by
  simp only [polishSpec, List.mem_filter, List.mem_map, Bool.or_eq_true, Bool.not_eq_true',
    decide_eq_true_eq]
  constructor
  · rintro ⟨⟨⟨t, g⟩, ⟨hmem, hne⟩, rfl⟩, hkeep⟩
    have hmem2 : (t, g) ∈ groups.enum := hmem
    rw [List.mk_mem_enum_iff_getElem?] at hmem2
    refine ⟨t, g, hmem2, ?_, hkeep, rfl⟩
    intro hg
    subst hg
    simp at hne
  · rintro ⟨t, g, hg, hne, hkeep, rfl⟩
    refine ⟨⟨(t, g), ⟨?_, ?_⟩, rfl⟩, hkeep⟩
    · show (t, g) ∈ groups.enum
      rw [List.mk_mem_enum_iff_getElem?]
      exact hg
    · cases g with
      | nil => exact absurd rfl hne
      | cons a tl => rfl

theorem windowGroups_base (groups : List (List Window)) (hwf : WindowGroups groups) :
    ∀ (j : Nat) (g : List Window), groups[j]? = some g →
      g.length < 2 ^ 32 ∧ ∀ (r : Nat) (w : Window), g[r]? = some w → w.id = 0 + j ∧ w.rank = r := by
  intro j g hg
  obtain ⟨h1, h2⟩ := hwf j g hg
  exact ⟨h1, fun r w hw => by rw [Nat.zero_add]; exact h2 r w hw⟩

theorem polishLoop_eq_spec (consensus : Window → Bool × List Char) (drop : Bool)
    (groups : List (List Window)) (hwf : WindowGroups groups) :
    polishLoop consensus drop groups.flatten [] 0 [] = polishSpec consensus drop 0 groups := by
  rw [polishLoop_groups consensus drop groups 0 [] (windowGroups_base groups hwf)]
  rfl

theorem filter_id_flatten (b : Nat) :
    ∀ (groups : List (List Window)),
      (∀ (j : Nat) (g : List Window), groups[j]? = some g →
        g.length < 2 ^ 32 ∧
          ∀ (r : Nat) (w : Window), g[r]? = some w → w.id = b + j ∧ w.rank = r) →
      (∀ w ∈ groups.flatten, b ≤ w.id) ∧
      ∀ (j : Nat) (g : List Window), groups[j]? = some g →
        groups.flatten.filter (fun w => decide (w.id = b + j)) = g := by
  intro groups
  induction groups generalizing b with
  | nil =>
    intro _
    refine ⟨fun w hw => by simp at hw, fun j g hg => by simp at hg⟩
  | cons g0 gs ih =>
    intro hwf
    obtain ⟨ih1, ih2⟩ := ih (b + 1) (windowGroups_shift b g0 gs hwf)
    have h0 : ∀ w ∈ g0, w.id = b := by
      intro w hw
      obtain ⟨r, hr⟩ := List.mem_iff_getElem?.mp hw
      exact ((hwf 0 g0 List.getElem?_cons_zero).2 r w hr).1
    refine ⟨?_, ?_⟩
    · intro w hw
      rw [List.flatten_cons, List.mem_append] at hw
      rcases hw with h | h
      · rw [h0 w h]
      · have := ih1 w h; omega
    · intro j g hg
      rw [List.flatten_cons, List.filter_append]
      cases j with
      | zero =>
        rw [List.getElem?_cons_zero] at hg
        have hgg := Option.some.inj hg
        subst hgg
        have e1 : g0.filter (fun w => decide (w.id = b + 0)) = g0 := by
          rw [List.filter_eq_self]
          intro w hw
          simp [h0 w hw]
        have e2 : gs.flatten.filter (fun w => decide (w.id = b + 0)) = [] := by
          rw [List.filter_eq_nil_iff]
          intro w hw
          have := ih1 w hw
          simp
          omega
        rw [e1, e2, List.append_nil]
      | succ j =>
        rw [List.getElem?_cons_succ] at hg
        have e1 : g0.filter (fun w => decide (w.id = b + (j + 1))) = [] := by
          rw [List.filter_eq_nil_iff]
          intro w hw
          simp [h0 w hw]
        have e2 := ih2 j g hg
        have e3 : b + 1 + j = b + (j + 1) := by omega
        rw [e3] at e2
        rw [e1, e2, List.nil_append]

/-- C9: every sequence emitted by `polish` belongs to a target `t` with at least one window;
its data is the concatenation of the consensus strings of all windows of `t`, taken in the
order of the window table, which is the order of increasing rank; and the number written
after `LN:i:` in its name is the length of that data, the sum of the consensus lengths. -/
theorem polish_data_is_concatenation (ty : PolisherType) (sequences_ : List Sequence)
    (cov : List Nat) (to_string : ℚ → List Char) (consensus : Window → Bool × List Char)
    (drop : Bool) (groups : List (List Window)) (hwf : WindowGroups groups) :
    ∀ sq ∈ polish ty sequences_ cov to_string consensus drop groups.flatten,
      ∃ t g, groups[t]? = some g ∧ g ≠ [] ∧
        g = groups.flatten.filter (fun w => decide (w.id = t)) ∧
        (∀ (r : Nat) (w : Window), g[r]? = some w → w.rank = r) ∧
        sq.data = (g.map (fun w => (consensus w).2)).flatten ∧
        sq.data.length = (g.map (fun w => (consensus w).2.length)).sum ∧
        sq.name =
          (match sequences_[t]? with
            | some s => s.name
            | none => []) ++
          polishTags ty sq.data.length (cov.getD t 0)
            (to_string ((polishedCount consensus g : ℚ) / (g.length : ℚ))) := by
  intro sq hsq
  simp only [polish, polishLoop_eq_spec consensus drop groups hwf, List.mem_map] at hsq
  obtain ⟨p, hp, rfl⟩ := hsq
  obtain ⟨t, g, hg, hne, _, rfl⟩ := (mem_polishSpec consensus drop groups p).mp hp
  have hfilt := (filter_id_flatten 0 groups (windowGroups_base groups hwf)).2 t g hg
  rw [Nat.zero_add] at hfilt
  refine ⟨t, g, hg, hne, hfilt.symm, fun r w hw => ((hwf t g hg).2 r w hw).2, rfl, ?_, rfl⟩
  simp only [polishedSequence, createSequence, groupSummary, List.length_flatten, List.map_map]
  rfl

theorem polish_data_is_concatenation_witness :
    WindowGroups [[createWindow 0 0 WindowType.kTGS ['A'] [],
      createWindow 0 1 WindowType.kTGS ['C'] []]] ∧
    ∀ sq ∈ polish PolisherType.kC [Sequence.mk ['t'] ['A', 'C'] [] [] []] [1]
        (fun _ => []) (fun w => (true, w.backbone)) false
        [[createWindow 0 0 WindowType.kTGS ['A'] [],
          createWindow 0 1 WindowType.kTGS ['C'] []]].flatten,
      ∃ t g, [[createWindow 0 0 WindowType.kTGS ['A'] [],
          createWindow 0 1 WindowType.kTGS ['C'] []]][t]? = some g ∧ g ≠ [] ∧
        g = [[createWindow 0 0 WindowType.kTGS ['A'] [],
          createWindow 0 1 WindowType.kTGS ['C'] []]].flatten.filter
            (fun w => decide (w.id = t)) ∧
        (∀ (r : Nat) (w : Window), g[r]? = some w → w.rank = r) ∧
        sq.data = (g.map (fun w => ((fun w : Window => (true, w.backbone)) w).2)).flatten ∧
        sq.data.length =
          (g.map (fun w => ((fun w : Window => (true, w.backbone)) w).2.length)).sum ∧
        sq.name =
          (match [Sequence.mk ['t'] ['A', 'C'] [] [] []][t]? with
            | some s => s.name
            | none => []) ++
          polishTags PolisherType.kC sq.data.length ([1].getD t 0)
            ((fun _ => []) ((polishedCount (fun w : Window => (true, w.backbone)) g : ℚ)
              / (g.length : ℚ))) := by
  have hwf : WindowGroups [[createWindow 0 0 WindowType.kTGS ['A'] [],
      createWindow 0 1 WindowType.kTGS ['C'] []]] := by
    intro t g hg
    cases t with
    | zero =>
      simp only [List.getElem?_cons_zero, Option.some.injEq] at hg
      subst hg
      refine ⟨by decide, ?_⟩
      intro r w hw
      cases r with
      | zero =>
        simp only [List.getElem?_cons_zero, Option.some.injEq] at hw
        subst hw
        exact ⟨rfl, rfl⟩
      | succ r =>
        cases r with
        | zero =>
          simp only [List.getElem?_cons_succ, List.getElem?_cons_zero, Option.some.injEq] at hw
          subst hw
          exact ⟨rfl, rfl⟩
        | succ r => simp at hw
    | succ t => simp at hg
  exact ⟨hwf, polish_data_is_concatenation PolisherType.kC
    [Sequence.mk ['t'] ['A', 'C'] [] [] []] [1] (fun _ => [])
    (fun w => (true, w.backbone)) false _ hwf⟩

theorem xc_bounds (consensus : Window → Bool × List Char) (g : List Window) (hne : g ≠ []) :
    0 ≤ (polishedCount consensus g : ℚ) / (g.length : ℚ) ∧
    (polishedCount consensus g : ℚ) / (g.length : ℚ) ≤ 1 ∧
    ((polishedCount consensus g : ℚ) / (g.length : ℚ) = 1 ↔
      ∀ w ∈ g, (consensus w).1 = true) := by
  have hpos : 0 < g.length := List.length_pos.mpr hne
  have hposq : (0 : ℚ) < (g.length : ℚ) := by exact_mod_cast hpos
  have hle : (polishedCount consensus g : ℚ) ≤ (g.length : ℚ) := by
    exact_mod_cast polishedCount_le consensus g
  refine ⟨div_nonneg (by exact_mod_cast Nat.zero_le _) (le_of_lt hposq),
    (div_le_one hposq).mpr hle, ?_⟩
  rw [div_eq_one_iff_eq (ne_of_gt hposq)]
  constructor
  · intro h
    have h2 : polishedCount consensus g = g.length := by exact_mod_cast h
    exact List.filter_length_eq_length.mp h2
  · intro h
    have h2 : polishedCount consensus g = g.length := List.filter_length_eq_length.mpr h
    exact_mod_cast h2

/-- C10: for every target with at least one window, the polished ratio that `polish`
computes (seen in the run that drops nothing) is the number of the target's windows whose
`generate_consensus` returned `true` divided by the number of its windows; it lies in
`[0, 1]` and equals 1 iff every window of the target returned `true`. Whatever the drop flag
is, every emitted record carries that same ratio. -/
theorem polish_ratio_is_fraction (consensus : Window → Bool × List Char)
    (groups : List (List Window)) (hwf : WindowGroups groups) :
    (∀ (t : Nat) (g : List Window), groups[t]? = some g → g ≠ [] →
      (∃ p ∈ polishLoop consensus false groups.flatten [] 0 [],
        p.id = t ∧ p.xc = (polishedCount consensus g : ℚ) / (g.length : ℚ)) ∧
      0 ≤ (polishedCount consensus g : ℚ) / (g.length : ℚ) ∧
      (polishedCount consensus g : ℚ) / (g.length : ℚ) ≤ 1 ∧
      ((polishedCount consensus g : ℚ) / (g.length : ℚ) = 1 ↔
        ∀ w ∈ g, (consensus w).1 = true)) ∧
    (∀ (drop : Bool), ∀ p ∈ polishLoop consensus drop groups.flatten [] 0 [],
      ∃ g, groups[p.id]? = some g ∧ g ≠ [] ∧
        p.xc = (polishedCount consensus g : ℚ) / (g.length : ℚ)) := by
  constructor
  · intro t g hg hne
    refine ⟨⟨groupSummary consensus t g, ?_, rfl, rfl⟩, xc_bounds consensus g hne⟩
    rw [polishLoop_eq_spec consensus false groups hwf, mem_polishSpec]
    exact ⟨t, g, hg, hne, Or.inl rfl, rfl⟩
  · intro drop p hp
    rw [polishLoop_eq_spec consensus drop groups hwf, mem_polishSpec] at hp
    obtain ⟨t, g, hg, hne, _, rfl⟩ := hp
    exact ⟨g, hg, hne, rfl⟩

theorem windowGroups_example :
    WindowGroups [[createWindow 0 0 WindowType.kTGS ['A'] [],
      createWindow 0 1 WindowType.kTGS ['C'] []], [createWindow 1 0 WindowType.kTGS ['G'] []]] := by
  intro t g hg
  cases t with
  | zero =>
    simp only [List.getElem?_cons_zero, Option.some.injEq] at hg
    subst hg
    refine ⟨by decide, ?_⟩
    intro r w hw
    cases r with
    | zero =>
      simp only [List.getElem?_cons_zero, Option.some.injEq] at hw
      subst hw
      exact ⟨rfl, rfl⟩
    | succ r =>
      cases r with
      | zero =>
        simp only [List.getElem?_cons_succ, List.getElem?_cons_zero, Option.some.injEq] at hw
        subst hw
        exact ⟨rfl, rfl⟩
      | succ r => simp at hw
  | succ t =>
    cases t with
    | zero =>
      simp only [List.getElem?_cons_succ, List.getElem?_cons_zero, Option.some.injEq] at hg
      subst hg
      refine ⟨by decide, ?_⟩
      intro r w hw
      cases r with
      | zero =>
        simp only [List.getElem?_cons_zero, Option.some.injEq] at hw
        subst hw
        exact ⟨rfl, rfl⟩
      | succ r => simp at hw
    | succ t => simp at hg

theorem polish_ratio_is_fraction_witness :
    WindowGroups [[createWindow 0 0 WindowType.kTGS ['A'] [],
      createWindow 0 1 WindowType.kTGS ['C'] []], [createWindow 1 0 WindowType.kTGS ['G'] []]] ∧
    ∀ (drop : Bool), ∀ p ∈ polishLoop (fun w => (decide (w.rank = 0), w.backbone)) drop
        [[createWindow 0 0 WindowType.kTGS ['A'] [],
          createWindow 0 1 WindowType.kTGS ['C'] []],
          [createWindow 1 0 WindowType.kTGS ['G'] []]].flatten [] 0 [],
      ∃ g, [[createWindow 0 0 WindowType.kTGS ['A'] [],
          createWindow 0 1 WindowType.kTGS ['C'] []],
          [createWindow 1 0 WindowType.kTGS ['G'] []]][p.id]? = some g ∧ g ≠ [] ∧
        p.xc = (polishedCount (fun w : Window => (decide (w.rank = 0), w.backbone)) g : ℚ)
          / (g.length : ℚ) :=
  ⟨windowGroups_example,
    (polish_ratio_is_fraction (fun w => (decide (w.rank = 0), w.backbone)) _
      windowGroups_example).2⟩

/-! ### One emitted sequence per target -/

set_option maxHeartbeats 1000000 in
theorem buildWindows_list (w : Nat) (wt : WindowType) (dummy : List Char)
    (sequences_ : List Sequence) (fuel T : Nat) (hw : 0 < w) (hT : T ≤ sequences_.length)
    (hlen : ∀ t s, t < T → sequences_[t]? = some s →
      s.data.length + w < 2 ^ 32 ∧ s.data.length < fuel) :
    ∀ (n i : Nat) (W : List Window) (F : List Nat), i + n = T →
      ∃ F2, buildWindows w wt dummy sequences_ fuel n i W F =
        some (W ++ ((List.range' i n).map (targetWindows w wt dummy sequences_)).flatten, F2) := by
  intro n
  induction n with
  | zero =>
    intro i W F _
    exact ⟨F, by simp [buildWindows]⟩
  | succ n ih =>
    intro i W F hn
    have hiT : i < T := by omega
    have hs : sequences_[i]? = some sequences_[i] := List.getElem?_eq_getElem (by omega)
    obtain ⟨h1, h2⟩ := hlen i _ hiT hs
    have hloop := windowLoop_run w wt dummy i sequences_[i] fuel W hw h1 h2
    have hn2 : i + 1 + n = T := by omega
    obtain ⟨F2, hF2⟩ := ih (i + 1)
      (W ++ (List.range ((sequences_[i].data.length + w - 1) / w)).map
        (fun r => windowAt w wt dummy i sequences_[i] (r * w) r))
      (F.set (i + 1) (F.getD i 0 + (sequences_[i].data.length + w - 1) / w)) hn2
    refine ⟨F2, ?_⟩
    simp only [buildWindows, hs, hloop]
    rw [hF2]
    have htw : targetWindows w wt dummy sequences_ i
        = (List.range ((sequences_[i].data.length + w - 1) / w)).map
          (fun r => windowAt w wt dummy i sequences_[i] (r * w) r) := by
      simp only [targetWindows, hs]
    simp only [List.range'_succ, List.map_cons, List.flatten_cons, htw, List.append_assoc]

theorem constructWindows_list (w : Nat) (wt : WindowType) (sequences_ : List Sequence)
    (T fuel : Nat) (hw : 0 < w) (hT : T ≤ sequences_.length)
    (hlen : ∀ t s, t < T → sequences_[t]? = some s →
      s.data.length + w < 2 ^ 32 ∧ s.data.length < fuel) :
    ∃ F, constructWindows w wt sequences_ T fuel =
      some (((List.range T).map
        (targetWindows w wt (List.replicate w '!') sequences_)).flatten, F) := by
  obtain ⟨F, hF⟩ := buildWindows_list w wt (List.replicate w '!') sequences_ fuel T hw hT hlen
    T 0 [] (List.replicate (T + 1) 0) (Nat.zero_add T)
  refine ⟨F, ?_⟩
  simp only [constructWindows, hF, List.nil_append, List.range_eq_range']

theorem targetWindows_groups (w : Nat) (wt : WindowType) (dummy : List Char)
    (sequences_ : List Sequence) (T : Nat) (hw : 0 < w)
    (hlen : ∀ t s, t < T → sequences_[t]? = some s → s.data.length + w < 2 ^ 32) :
    WindowGroups ((List.range T).map (targetWindows w wt dummy sequences_)) := by
  intro t g hg
  rw [List.getElem?_map] at hg
  cases hr : (List.range T)[t]? with
  | none => rw [hr] at hg; exact Option.noConfusion hg
  | some t2 =>
    have htT : t < T := by
      have := getElem?_lt_length _ _ _ hr
      simpa using this
    rw [List.getElem?_range htT] at hr
    have ht2 : t = t2 := Option.some.inj hr
    subst ht2
    rw [List.getElem?_range htT] at hg
    have hgg : targetWindows w wt dummy sequences_ t = g := Option.some.inj hg
    subst hgg
    simp only [targetWindows]
    cases hs : sequences_[t]? with
    | none =>
      simp only []
      exact ⟨by simp, fun r x hx => by simp at hx⟩
    | some s =>
      simp only []
      have hL := hlen t s htT hs
      have hcl := ceilDiv_le w s.data.length hw
      refine ⟨by simp only [List.length_map, List.length_range]; omega, ?_⟩
      intro r x hx
      rw [List.getElem?_map] at hx
      cases hrr : (List.range ((s.data.length + w - 1) / w))[r]? with
      | none => rw [hrr] at hx; exact Option.noConfusion hx
      | some r2 =>
        have hrlt : r < (s.data.length + w - 1) / w := by
          have := getElem?_lt_length _ _ _ hrr
          simpa using this
        rw [List.getElem?_range hrlt] at hrr
        have hr2 : r = r2 := Option.some.inj hrr
        subst hr2
        rw [List.getElem?_range hrlt] at hx
        have hxx := Option.some.inj hx
        rw [← hxx]
        exact ⟨rfl, rfl⟩

theorem split_by_keys :
    ∀ (gs : List (List Window)) (ws : List Window),
      ws.map Window.key = gs.flatten.map Window.key →
      ∃ gs2 : List (List Window), ws = gs2.flatten ∧
        gs2.map (List.map Window.key) = gs.map (List.map Window.key) := by
  intro gs
  induction gs with
  | nil =>
    intro ws h
    simp only [List.flatten_nil, List.map_nil, List.map_eq_nil_iff] at h
    exact ⟨[], by simp [h], rfl⟩
  | cons g gs ih =>
    intro ws h
    rw [List.flatten_cons, List.map_append] at h
    have hlen : (g.map Window.key).length = g.length := List.length_map _ _
    have h1 : (ws.take g.length).map Window.key = g.map Window.key := by
      rw [List.map_take, h, List.take_left' hlen]
    have h2 : (ws.drop g.length).map Window.key = gs.flatten.map Window.key := by
      rw [List.map_drop, h, List.drop_left' hlen]
    obtain ⟨gs2, e1, e2⟩ := ih (ws.drop g.length) h2
    refine ⟨ws.take g.length :: gs2, ?_, ?_⟩
    · rw [List.flatten_cons, ← e1, List.take_append_drop]
    · rw [List.map_cons, List.map_cons, h1, e2]

theorem windowGroups_of_keys (gs gs2 : List (List Window)) (hwf : WindowGroups gs)
    (hk : gs2.map (List.map Window.key) = gs.map (List.map Window.key)) :
    WindowGroups gs2 ∧ gs2.length = gs.length ∧
      ∀ (t : Nat) (g g2 : List Window), gs[t]? = some g → gs2[t]? = some g2 →
        g2.length = g.length := by
  have hget : ∀ (t : Nat) (g2 : List Window), gs2[t]? = some g2 →
      ∃ g, gs[t]? = some g ∧ g.map Window.key = g2.map Window.key := by
    intro t g2 hg2
    exact getElem?_of_map_eq (List.map Window.key) gs gs2 t g2 hk.symm hg2
  refine ⟨?_, ?_, ?_⟩
  · intro t g2 hg2
    obtain ⟨g, hg, hkk⟩ := hget t g2 hg2
    obtain ⟨h1, h2⟩ := hwf t g hg
    have hl : g2.length = g.length := by
      have := congrArg List.length hkk
      simpa using this.symm
    refine ⟨by omega, ?_⟩
    intro r x hx
    obtain ⟨y, hy, hyk⟩ := getElem?_of_map_eq Window.key g g2 r x hkk hx
    obtain ⟨a, b⟩ := h2 r y hy
    have e1 : y.id = x.id := congrArg Prod.fst hyk
    have e2 : y.rank = x.rank := congrArg Prod.snd hyk
    exact ⟨by omega, by omega⟩
  · have := congrArg List.length hk
    simpa using this
  · intro t g g2 hg hg2
    obtain ⟨g3, hg3, hkk⟩ := hget t g2 hg2
    rw [hg] at hg3
    have := Option.some.inj hg3
    subst this
    have := congrArg List.length hkk
    simpa using this.symm

theorem layerStep_keys (w : Nat) (thr : ℚ) (F : List Nat) (sequence : Sequence) (o : Overlap)
    (s e : Nat × Nat) (ws : List Window) :
    (layerStep w thr F sequence o s e ws).map Window.key = ws.map Window.key := by
  simp only [layerStep]
  split
  · split
    · rfl
    · rename_i x hx
      rw [List.map_set]
      apply List.ext_getElem?
      intro k
      rw [List.getElem?_set]
      split
      · rename_i hk
        subst hk
        rw [List.getElem?_map, hx]
        simp [Window.key, Window.add_layer, getElem?_lt_length _ _ _ hx]
      · rfl
  · rfl

theorem layersOfOverlap_keys (w : Nat) (thr : ℚ) (F : List Nat) (sequence : Sequence)
    (o : Overlap) :
    ∀ (n : Nat) (bps : List (Nat × Nat)) (ws : List Window), bps.length ≤ n →
      (layersOfOverlap w thr F sequence o bps ws).map Window.key = ws.map Window.key := by
  intro n
  induction n with
  | zero =>
    intro bps ws h
    have : bps = [] := List.length_eq_zero.mp (by omega)
    subst this
    simp [layersOfOverlap]
  | succ n ih =>
    intro bps ws h
    match bps with
    | [] => simp [layersOfOverlap]
    | [_] => simp [layersOfOverlap]
    | s :: e :: rest =>
      simp only [layersOfOverlap]
      rw [ih rest _ (by simp only [List.length_cons] at h; omega), layerStep_keys]

theorem distributeLayers_keys (w : Nat) (thr : ℚ) (F : List Nat) (sequences_ : List Sequence) :
    ∀ (ovs : List (Option Overlap)) (st : List Window × List Nat),
      (distributeLayers w thr F sequences_ ovs st).1.map Window.key = st.1.map Window.key := by
  intro ovs
  induction ovs with
  | nil => intro st; rfl
  | cons a rest ih =>
    intro st
    cases a with
    | none => rfl
    | some o =>
      simp only [distributeLayers]
      split
      · rfl
      · rw [ih]
        exact layersOfOverlap_keys w thr F _ o _ _ _ (le_refl _)

theorem polishSpec_nodrop_all (consensus : Window → Bool × List Char) :
    ∀ (gs : List (List Window)) (b : Nat), (∀ g ∈ gs, g ≠ []) →
      polishSpec consensus false b gs =
        (gs.enumFrom b).map (fun p => groupSummary consensus p.1 p.2) := by
  intro gs
  induction gs with
  | nil => intro b _; simp [polishSpec]
  | cons g gs ih =>
    intro b h
    rw [polishSpec_cons consensus false b g gs (h g (List.mem_cons_self _ _)),
      ih (b + 1) (fun g2 hg2 => h g2 (List.mem_cons_of_mem _ hg2))]
    simp

theorem targetWindows_ne_nil (w : Nat) (wt : WindowType) (dummy : List Char)
    (sequences_ : List Sequence) (t : Nat) (s : Sequence) (hw : 0 < w)
    (hs : sequences_[t]? = some s) (hne : s.data ≠ []) :
    targetWindows w wt dummy sequences_ t ≠ [] := by
  have hpos : 0 < (s.data.length + w - 1) / w := by
    rw [lt_ceilDiv_iff w _ 0 hw, Nat.zero_mul]
    exact List.length_pos.mpr hne
  simp only [targetWindows, hs]
  intro hc
  have := congrArg List.length hc
  simp only [List.length_map, List.length_range, List.length_nil] at this
  omega

theorem targetWindows_length (w : Nat) (wt : WindowType) (dummy : List Char)
    (sequences_ : List Sequence) (t : Nat) (s : Sequence) (hs : sequences_[t]? = some s) :
    (targetWindows w wt dummy sequences_ t).length = (s.data.length + w - 1) / w := by
  simp only [targetWindows, hs, List.length_map, List.length_range]

theorem polishSpec_nodrop_filter (consensus : Window → Bool × List Char) :
    ∀ (gs : List (List Window)) (b : Nat) (P : Nat → Bool) (G : Nat → List Window),
      (∀ (j : Nat) (g : List Window), gs[j]? = some g →
        P (b + j) = !g.isEmpty ∧ G (b + j) = g) →
      polishSpec consensus false b gs =
        ((List.range' b gs.length).filter P).map (fun t => groupSummary consensus t (G t)) := by
  intro gs
  induction gs with
  | nil => intro b P G _; simp [polishSpec]
  | cons g gs ih =>
    intro b P G h
    obtain ⟨hP, hG⟩ := h 0 g List.getElem?_cons_zero
    rw [Nat.add_zero] at hP hG
    have hrest := ih (b + 1) P G (fun j g2 hg2 => by
      have := h (j + 1) g2 (by rw [List.getElem?_cons_succ]; exact hg2)
      rw [show b + (j + 1) = b + 1 + j by omega] at this
      exact this)
    rw [List.length_cons, List.range'_succ, List.filter_cons]
    cases g with
    | nil =>
      have hPb : P b = false := by rw [hP]; rfl
      rw [polishSpec_cons_nil, hrest, hPb]
      rfl
    | cons a tl =>
      have hPb : P b = true := by rw [hP]; rfl
      rw [polishSpec_cons consensus false b (a :: tl) gs (List.cons_ne_nil _ _), hrest, hPb]
      simp only [Bool.not_false, Bool.true_or, if_true, List.map_cons, hG]
      rfl

/-- C11 (as amended): with `drop_unpolished_sequences = false` and `window_length > 0` (target
lengths below the 32-bit limit), `polish` appends exactly one sequence for every target whose
data is non-empty and none for a target with empty data, in target input order: the emitted
list is the list of the targets with non-empty data, in input order, each replaced by the
sequence built from its windows, whatever layers the windows received. -/
theorem polish_one_per_target (w : Nat) (wt : WindowType) (sequences_ : List Sequence)
    (T fuel : Nat) (ty : PolisherType) (cov : List Nat) (to_string : ℚ → List Char)
    (consensus : Window → Bool × List Char)
    (hw : 0 < w) (hT : T ≤ sequences_.length)
    (hlen : ∀ t s, t < T → sequences_[t]? = some s →
      s.data.length + w < 2 ^ 32 ∧ s.data.length < fuel) :
    ∃ W F, constructWindows w wt sequences_ T fuel = some (W, F) ∧
      ∀ (ws : List Window), ws.map Window.key = W.map Window.key →
        polish ty sequences_ cov to_string consensus false ws =
          ((List.range T).filter (targetHasData sequences_)).map
            (fun t => polishedSequence ty sequences_ cov to_string
              (groupSummary consensus t (ws.filter (fun x => decide (x.id = t))))) ∧
        (∀ t, t < T → targetHasData sequences_ t = true →
          ws.filter (fun x => decide (x.id = t)) ≠ []) ∧
        ((∀ t, t < T → targetHasData sequences_ t = true) →
          (polish ty sequences_ cov to_string consensus false ws).length = T ∧
          ∀ t, t < T →
            (polish ty sequences_ cov to_string consensus false ws)[t]? =
              some (polishedSequence ty sequences_ cov to_string
                (groupSummary consensus t (ws.filter (fun x => decide (x.id = t)))))) := by
  obtain ⟨F, hF⟩ := constructWindows_list w wt sequences_ T fuel hw hT hlen
  refine ⟨_, F, hF, ?_⟩
  intro ws hws
  have hwf0 := targetWindows_groups w wt (List.replicate w '!') sequences_ T hw
    (fun t s ht hs => (hlen t s ht hs).1)
  obtain ⟨gs2, e1, e2⟩ := split_by_keys _ ws hws
  obtain ⟨hwf, hl, hlens⟩ := windowGroups_of_keys _ gs2 hwf0 e2
  have hl2 : gs2.length = T := by simpa using hl
  have hfilt : ∀ (t : Nat) (g : List Window), gs2[t]? = some g →
      ws.filter (fun x => decide (x.id = t)) = g := by
    intro t g hg
    have := (filter_id_flatten 0 gs2 (windowGroups_base gs2 hwf)).2 t g hg
    rw [Nat.zero_add, ← e1] at this
    exact this
  have hdata : ∀ (t : Nat) (g : List Window), gs2[t]? = some g →
      targetHasData sequences_ t = !g.isEmpty := by
    intro t g hg
    have htT : t < T := by
      have := getElem?_lt_length _ _ _ hg
      omega
    have hs : sequences_[t]? = some sequences_[t] := List.getElem?_eq_getElem (by omega)
    have hg0 : ((List.range T).map (targetWindows w wt (List.replicate w '!') sequences_))[t]?
        = some (targetWindows w wt (List.replicate w '!') sequences_ t) := by
      rw [List.getElem?_map, List.getElem?_range htT]; rfl
    have hlen2 := hlens t _ g hg0 hg
    rw [targetWindows_length w wt _ sequences_ t _ hs] at hlen2
    have hiff := lt_ceilDiv_iff w sequences_[t].data.length 0 hw
    rw [Nat.zero_mul] at hiff
    simp only [targetHasData, hs]
    cases hd : sequences_[t].data with
    | nil =>
      rw [hd] at hiff hlen2
      have h0 : g.length = 0 := by
        have : ¬ 0 < ([] : List Char).length := by simp
        have := mt hiff.mp this
        omega
      rw [List.length_eq_zero.mp h0]
      rfl
    | cons c tl =>
      rw [hd] at hiff hlen2
      have hpos : 0 < g.length := by
        rw [hlen2]
        exact hiff.mpr (by simp)
      cases g with
      | nil => exact absurd hpos (by simp)
      | cons x xs => rfl
  have hpol : polish ty sequences_ cov to_string consensus false ws =
      ((List.range T).filter (targetHasData sequences_)).map
        (fun t => polishedSequence ty sequences_ cov to_string
          (groupSummary consensus t (ws.filter (fun x => decide (x.id = t))))) := by
    have hspec := polishSpec_nodrop_filter consensus gs2 0 (targetHasData sequences_)
      (fun t => ws.filter (fun x => decide (x.id = t)))
      (fun j g hg => by
        rw [Nat.zero_add]
        exact ⟨hdata j g hg, hfilt j g hg⟩)
    simp only [polish]
    rw [e1, polishLoop_eq_spec consensus false gs2 hwf, hspec, hl2, ← List.range_eq_range',
      List.map_map, ← e1]
    rfl
  refine ⟨hpol, ?_, ?_⟩
  · intro t ht hd
    have hgt : gs2[t]? = some gs2[t] := List.getElem?_eq_getElem (by omega)
    rw [hfilt t _ hgt]
    intro hc
    have := hdata t _ hgt
    rw [hc, hd] at this
    exact absurd this (by decide)
  · intro hall
    have hf : (List.range T).filter (targetHasData sequences_) = List.range T := by
      apply List.filter_eq_self.mpr
      intro t ht
      exact hall t (List.mem_range.mp ht)
    rw [hpol, hf]
    refine ⟨by simp, ?_⟩
    intro t ht
    rw [List.getElem?_map, List.getElem?_range ht]
    rfl

theorem polish_one_per_target_witness :
    (∃ W F, constructWindows 4 WindowType.kTGS
        [Sequence.mk "a".toList [] [] [] [], Sequence.mk "b".toList "ACGTACGTAC".toList [] [] [],
          Sequence.mk "c".toList "ACG".toList [] [] []] 3 11 = some (W, F) ∧
      ∀ (ws : List Window), ws.map Window.key = W.map Window.key →
        polish PolisherType.kC
            [Sequence.mk "a".toList [] [] [] [],
              Sequence.mk "b".toList "ACGTACGTAC".toList [] [] [],
              Sequence.mk "c".toList "ACG".toList [] [] []] [0, 0, 0]
            (fun _ => []) (fun x => (true, x.backbone)) false ws =
          ((List.range 3).filter (targetHasData
            [Sequence.mk "a".toList [] [] [] [],
              Sequence.mk "b".toList "ACGTACGTAC".toList [] [] [],
              Sequence.mk "c".toList "ACG".toList [] [] []])).map
            (fun t => polishedSequence PolisherType.kC
              [Sequence.mk "a".toList [] [] [] [],
                Sequence.mk "b".toList "ACGTACGTAC".toList [] [] [],
                Sequence.mk "c".toList "ACG".toList [] [] []] [0, 0, 0] (fun _ => [])
              (groupSummary (fun x => (true, x.backbone)) t
                (ws.filter (fun x => decide (x.id = t)))))) ∧
    (List.range 3).filter (targetHasData
        [Sequence.mk "a".toList [] [] [] [],
          Sequence.mk "b".toList "ACGTACGTAC".toList [] [] [],
          Sequence.mk "c".toList "ACG".toList [] [] []]) = [1, 2] ∧
    (constructWindows 4 WindowType.kTGS
        [Sequence.mk "a".toList [] [] [] [], Sequence.mk "b".toList "ACGTACGTAC".toList [] [] [],
          Sequence.mk "c".toList "ACG".toList [] [] []] 3 11).map
      (fun r => ((polish PolisherType.kC
        [Sequence.mk "a".toList [] [] [] [],
          Sequence.mk "b".toList "ACGTACGTAC".toList [] [] [],
          Sequence.mk "c".toList "ACG".toList [] [] []]
        [0, 0, 0] (fun _ => []) (fun x => (true, x.backbone)) false r.1).map
          (fun sq => sq.data)))
      = some ["ACGTACGTAC".toList, "ACG".toList] := by
  refine ⟨?_, by decide, by decide⟩
  obtain ⟨W, F, h1, h2⟩ := polish_one_per_target 4 WindowType.kTGS
    [Sequence.mk "a".toList [] [] [] [], Sequence.mk "b".toList "ACGTACGTAC".toList [] [] [],
      Sequence.mk "c".toList "ACG".toList [] [] []] 3 11 PolisherType.kC [0, 0, 0]
    (fun _ => []) (fun x => (true, x.backbone)) (by decide) (by decide)
    (by
      intro t s ht hs
      interval_cases t
      · rw [← Option.some.inj hs]; exact ⟨by decide, by decide⟩
      · rw [← Option.some.inj hs]; exact ⟨by decide, by decide⟩
      · rw [← Option.some.inj hs]; exact ⟨by decide, by decide⟩)
  exact ⟨W, F, h1, fun ws hws => (h2 ws hws).1⟩

theorem polish_empty_target_counterexample :
    (constructWindows 4 WindowType.kTGS
        [Sequence.mk "a".toList [] [] [] [], Sequence.mk "b".toList "ACGT".toList [] [] []]
        2 11).map
      (fun r => ((polish PolisherType.kC
        [Sequence.mk "a".toList [] [] [] [], Sequence.mk "b".toList "ACGT".toList [] [] []]
        [0, 0] (fun _ => []) (fun x => (true, x.backbone)) false r.1).map
          (fun sq => sq.data)))
      = some ["ACGT".toList] := by
  decide

theorem polishedCount_pos_iff (consensus : Window → Bool × List Char) (g : List Window) :
    0 < polishedCount consensus g ↔ ∃ x ∈ g, (consensus x).1 = true := by
  simp only [polishedCount, List.length_pos]
  constructor
  · intro h
    obtain ⟨x, hx⟩ := List.exists_mem_of_ne_nil _ h
    exact ⟨x, (List.mem_filter.mp hx).1, (List.mem_filter.mp hx).2⟩
  · rintro ⟨x, hx, hf⟩
    exact List.ne_nil_of_mem (List.mem_filter.mpr ⟨hx, hf⟩)

theorem xc_pos_iff (consensus : Window → Bool × List Char) (t : Nat) (g : List Window)
    (hne : g ≠ []) :
    (groupSummary consensus t g).xc > 0 ↔ ∃ x ∈ g, (consensus x).1 = true := by
  have hpos : 0 < g.length := List.length_pos.mpr hne
  have hposq : (0 : ℚ) < (g.length : ℚ) := by exact_mod_cast hpos
  rw [← polishedCount_pos_iff]
  simp only [groupSummary, gt_iff_lt]
  rw [div_pos_iff_of_pos_right hposq]
  exact_mod_cast Iff.rfl

/-- C13: for a target `t` with at least one window, `polish` emits a sequence for `t` iff
`drop_unpolished_sequences` is false or at least one window of `t` returned true; that is,
the target is skipped exactly when the flag is set and its polished fraction is 0. -/
theorem polish_emits_iff (consensus : Window → Bool × List Char) (drop : Bool)
    (groups : List (List Window)) (hwf : WindowGroups groups) (t : Nat) (g : List Window)
    (hg : groups[t]? = some g) (hne : g ≠ []) :
    ((∃ p ∈ polishLoop consensus drop groups.flatten [] 0 [], p.id = t) ↔
      (drop = false ∨ ∃ x ∈ g, (consensus x).1 = true)) ∧
    ((¬ ∃ p ∈ polishLoop consensus drop groups.flatten [] 0 [], p.id = t) ↔
      (drop = true ∧ (polishedCount consensus g : ℚ) / (g.length : ℚ) = 0)) := by
  have hmain : (∃ p ∈ polishLoop consensus drop groups.flatten [] 0 [], p.id = t) ↔
      (drop = false ∨ ∃ x ∈ g, (consensus x).1 = true) := by
    rw [polishLoop_eq_spec consensus drop groups hwf]
    constructor
    · rintro ⟨p, hp, hid⟩
      obtain ⟨t2, g2, hg2, _, hkeep, rfl⟩ := (mem_polishSpec consensus drop groups p).mp hp
      have ht : t2 = t := hid
      subst ht
      rw [hg] at hg2
      have hgg := Option.some.inj hg2
      subst hgg
      rcases hkeep with h | h
      · exact Or.inl h
      · exact Or.inr ((xc_pos_iff consensus t2 g hne).mp h)
    · intro h
      refine ⟨groupSummary consensus t g, ?_, rfl⟩
      rw [mem_polishSpec]
      refine ⟨t, g, hg, hne, ?_, rfl⟩
      rcases h with h | h
      · exact Or.inl h
      · exact Or.inr ((xc_pos_iff consensus t g hne).mpr h)
  refine ⟨hmain, ?_⟩
  rw [hmain]
  have hb := (xc_bounds consensus g hne).1
  have hx := xc_pos_iff consensus t g hne
  simp only [groupSummary, gt_iff_lt] at hx
  constructor
  · intro h
    push_neg at h
    refine ⟨by cases drop <;> simp_all, ?_⟩
    by_contra hc
    have hpos : 0 < (polishedCount consensus g : ℚ) / (g.length : ℚ) :=
      lt_of_le_of_ne hb (Ne.symm hc)
    obtain ⟨x, hx1, hx2⟩ := hx.mp hpos
    exact h.2 x hx1 hx2
  · rintro ⟨hd, hz⟩ h
    rcases h with h | h
    · rw [hd] at h; exact Bool.noConfusion h
    · have := hx.mpr h
      rw [hz] at this
      exact lt_irrefl _ this

theorem polish_emits_iff_witness :
    (WindowGroups [[createWindow 0 0 WindowType.kTGS ['A'] [],
        createWindow 0 1 WindowType.kTGS ['C'] []],
        [createWindow 1 0 WindowType.kTGS ['G'] []]] ∧
      [[createWindow 0 0 WindowType.kTGS ['A'] [],
        createWindow 0 1 WindowType.kTGS ['C'] []],
        [createWindow 1 0 WindowType.kTGS ['G'] []]][1]? =
          some [createWindow 1 0 WindowType.kTGS ['G'] []] ∧
      [createWindow 1 0 WindowType.kTGS ['G'] []] ≠ []) ∧
    ((∃ p ∈ polishLoop (fun x => (false, x.backbone)) true
        [[createWindow 0 0 WindowType.kTGS ['A'] [],
          createWindow 0 1 WindowType.kTGS ['C'] []],
          [createWindow 1 0 WindowType.kTGS ['G'] []]].flatten [] 0 [], p.id = 1) ↔
      (true = false ∨ ∃ x ∈ [createWindow 1 0 WindowType.kTGS ['G'] []],
        ((fun x : Window => (false, x.backbone)) x).1 = true)) :=
  ⟨⟨windowGroups_example, rfl, by decide⟩,
    (polish_emits_iff (fun x => (false, x.backbone)) true _ windowGroups_example 1
      [createWindow 1 0 WindowType.kTGS ['G'] []] rfl (by decide)).1⟩

/-! ### The name of an emitted sequence -/

theorem digitChar_ne_space (n : Nat) : Nat.digitChar n ≠ ' ' := by
  by_cases h : n < 16
  · interval_cases n <;> decide
  · have hstar : Nat.digitChar n = '*' := by
      unfold Nat.digitChar
      iterate 16 rw [if_neg (by omega)]
    rw [hstar]
    decide

theorem toDigitsCore_no_space (b : Nat) :
    ∀ (fuel n : Nat) (ds : List Char), ' ' ∉ ds → ' ' ∉ Nat.toDigitsCore b fuel n ds := by
  intro fuel
  induction fuel with
  | zero => intro n ds h; simpa [Nat.toDigitsCore] using h
  | succ fuel ih =>
    intro n ds h
    simp only [Nat.toDigitsCore]
    have hcons : ' ' ∉ Nat.digitChar (n % b) :: ds := by
      intro hc
      rcases List.mem_cons.mp hc with h1 | h1
      · exact digitChar_ne_space _ h1.symm
      · exact h h1
    split
    · exact hcons
    · exact ih _ _ hcons

theorem toDigits_no_space (n : Nat) : ' ' ∉ Nat.toDigits 10 n := by
  unfold Nat.toDigits
  exact toDigitsCore_no_space 10 _ _ _ (by simp)

theorem polishedSequence_name (ty : PolisherType) (sequences_ : List Sequence)
    (cov : List Nat) (to_string : ℚ → List Char) (p : Polished) :
    (polishedSequence ty sequences_ cov to_string p).name =
      [' '].intercalate
        [(match sequences_[p.id]? with
            | some s => s.name
            | none => []) ++ (if ty = PolisherType.kF then ['r'] else []),
          "LN:i:".toList ++ Nat.toDigits 10 p.data.length,
          "RC:i:".toList ++ Nat.toDigits 10 (cov.getD p.id 0),
          "XC:f:".toList ++ to_string p.xc] := by
  simp [polishedSequence, createSequence, polishTags, List.intercalate, List.intersperse]

/-- C12 (as amended): for every emitted sequence whose target name contains no space, the
output name split on single spaces has four tokens: in mode C the target name, in mode F the
target name immediately followed by the letter `r` (no space separates them), and then
`LN:i:<length>`, `RC:i:<target_coverage>` and `XC:f:<polished_ratio>`. The text of the ratio,
made by `std::to_string`, contains no space. -/
theorem polish_name_tokens (ty : PolisherType) (sequences_ : List Sequence)
    (cov : List Nat) (to_string : ℚ → List Char) (consensus : Window → Bool × List Char)
    (drop : Bool) (ws : List Window) (hts : ∀ q, ' ' ∉ to_string q) :
    ∀ sq ∈ polish ty sequences_ cov to_string consensus drop ws,
      ∃ p ∈ polishLoop consensus drop ws [] 0 [],
        sq = polishedSequence ty sequences_ cov to_string p ∧
        (' ' ∉ (match sequences_[p.id]? with
            | some s => s.name
            | none => []) →
          sq.name.splitOn ' ' =
            [(match sequences_[p.id]? with
                | some s => s.name
                | none => []) ++ (if ty = PolisherType.kF then ['r'] else []),
              "LN:i:".toList ++ Nat.toDigits 10 sq.data.length,
              "RC:i:".toList ++ Nat.toDigits 10 (cov.getD p.id 0),
              "XC:f:".toList ++ to_string p.xc]) := by
  intro sq hsq
  simp only [polish, List.mem_map] at hsq
  obtain ⟨p, hp, rfl⟩ := hsq
  refine ⟨p, hp, rfl, ?_⟩
  intro hname
  rw [polishedSequence_name]
  have hdata : (polishedSequence ty sequences_ cov to_string p).data = p.data := rfl
  rw [hdata]
  apply List.splitOn_intercalate
  · intro l hl
    simp only [List.mem_cons, List.mem_singleton, List.not_mem_nil, or_false] at hl
    rcases hl with rfl | rfl | rfl | rfl
    · intro hc
      rcases List.mem_append.mp hc with h | h
      · exact hname h
      · split at h
        · simp at h
        · simp at h
    · intro hc
      rcases List.mem_append.mp hc with h | h
      · revert h; decide
      · exact toDigits_no_space _ h
    · intro hc
      rcases List.mem_append.mp hc with h | h
      · revert h; decide
      · exact toDigits_no_space _ h
    · intro hc
      rcases List.mem_append.mp hc with h | h
      · revert h; decide
      · exact hts _ h
  · exact List.cons_ne_nil _ _

theorem polish_name_tokens_modeF_counterexample :
    (polishedSequence PolisherType.kF [Sequence.mk ['t'] ['A', 'C'] [] [] []] [1]
        (fun _ => "1.000000".toList) (Polished.mk 0 ['A', 'C'] 1)).name.splitOn ' ' =
      ["tr".toList, "LN:i:2".toList, "RC:i:1".toList, "XC:f:1.000000".toList] ∧
    (polishedSequence PolisherType.kF [Sequence.mk ['t'] ['A', 'C'] [] [] []] [1]
        (fun _ => "1.000000".toList) (Polished.mk 0 ['A', 'C'] 1)).name.splitOn ' ' ≠
      ["t".toList, "r".toList, "LN:i:2".toList, "RC:i:1".toList, "XC:f:1.000000".toList] := by
  decide

theorem polish_name_tokens_witness :
    (∀ q : ℚ, ' ' ∉ (fun _ : ℚ => "1.000000".toList) q) ∧
    ∀ sq ∈ polish PolisherType.kF [Sequence.mk ['t'] ['A', 'C'] [] [] []] [1]
        (fun _ => "1.000000".toList) (fun x => (true, x.backbone)) false
        [createWindow 0 0 WindowType.kTGS ['A', 'C'] []],
      ∃ p ∈ polishLoop (fun x => (true, x.backbone)) false
          [createWindow 0 0 WindowType.kTGS ['A', 'C'] []] [] 0 [],
        sq = polishedSequence PolisherType.kF [Sequence.mk ['t'] ['A', 'C'] [] [] []] [1]
          (fun _ => "1.000000".toList) p ∧
        (' ' ∉ (match [Sequence.mk ['t'] ['A', 'C'] [] [] []][p.id]? with
            | some s => s.name
            | none => []) →
          sq.name.splitOn ' ' =
            [(match [Sequence.mk ['t'] ['A', 'C'] [] [] []][p.id]? with
                | some s => s.name
                | none => []) ++ (if PolisherType.kF = PolisherType.kF then ['r'] else []),
              "LN:i:".toList ++ Nat.toDigits 10 sq.data.length,
              "RC:i:".toList ++ Nat.toDigits 10 ([1].getD p.id 0),
              "XC:f:".toList ++ (fun _ : ℚ => "1.000000".toList) p.xc]) :=
  ⟨fun _ => (by decide : ' ' ∉ "1.000000".toList),
    polish_name_tokens PolisherType.kF [Sequence.mk ['t'] ['A', 'C'] [] [] []] [1]
      (fun _ => "1.000000".toList) (fun x => (true, x.backbone)) false
      [createWindow 0 0 WindowType.kTGS ['A', 'C'] []]
      (fun _ => (by decide : ' ' ∉ "1.000000".toList))⟩

/-! ### Target coverages -/

theorem distributeLayers_coverage (w : Nat) (thr : ℚ) (F : List Nat)
    (sequences_ : List Sequence) (T : Nat) :
    ∀ (ovs : List Overlap) (ws : List Window) (cov : List Nat),
      (∀ o ∈ ovs, o.q_id < sequences_.length ∧ o.t_id < T) → cov.length = T →
      (∀ t, cov.getD t 0 + ovs.length < 2 ^ 32) →
      ∀ t, (distributeLayers w thr F sequences_ (ovs.map some) (ws, cov)).2.getD t 0 =
        cov.getD t 0 + (ovs.filter (fun o => decide (o.t_id = t))).length := by
  intro ovs
  induction ovs with
  | nil => intro ws cov _ _ _ t; simp [distributeLayers]
  | cons o rest ih =>
    intro ws cov hov hlen hbound t
    obtain ⟨hq, ht⟩ := hov o (List.mem_cons_self _ _)
    have hs : sequences_[o.q_id]? = some sequences_[o.q_id] := List.getElem?_eq_getElem hq
    have hb := hbound o.t_id
    simp only [List.length_cons] at hb
    have hmod : (cov.getD o.t_id 0 + 1) % 2 ^ 32 = cov.getD o.t_id 0 + 1 :=
      Nat.mod_eq_of_lt (by omega)
    simp only [List.map_cons, distributeLayers, hs, hmod]
    have hget : ∀ k, (cov.set o.t_id (cov.getD o.t_id 0 + 1)).getD k 0
        = if k = o.t_id then cov.getD o.t_id 0 + 1 else cov.getD k 0 := by
      intro k
      rw [getD_set_ite]
      by_cases hk : k = o.t_id
      · rw [if_pos ⟨hk, by omega⟩, if_pos hk]
      · rw [if_neg (fun hc => hk hc.1), if_neg hk]
    rw [ih _ _ (fun o2 ho2 => hov o2 (List.mem_cons_of_mem _ ho2)) (by simp [hlen])
      (fun k => by
        rw [hget]
        have := hbound k
        simp only [List.length_cons] at this
        split
        · omega
        · omega) t, hget, List.filter_cons]
    by_cases hk : o.t_id = t
    · subst hk
      simp
      omega
    · have hk2 : ¬ t = o.t_id := fun h => hk h.symm
      simp [hk, hk2]

/-- C14: when every surviving overlap has a query id inside the sequence table and a target
id below `targets_size`, and there are fewer than `2 ^ 32` overlaps, `targets_coverages_[t]`
after the layer loop is the number of surviving overlaps with target id `t`, whatever their
break-points are and whether or not a segment produced a layer; `polish` writes that number
after `RC:i:` in the name of the sequence emitted for `t`. -/
theorem target_coverage_counts_overlaps (w : Nat) (thr : ℚ) (F : List Nat)
    (sequences_ : List Sequence) (T : Nat) (ovs : List Overlap) (ws : List Window)
    (ty : PolisherType) (to_string : ℚ → List Char)
    (hov : ∀ o ∈ ovs, o.q_id < sequences_.length ∧ o.t_id < T)
    (hlen : ovs.length < 2 ^ 32) :
    (∀ t, (distributeLayers w thr F sequences_ (ovs.map some)
        (ws, List.replicate T 0)).2.getD t 0 =
      (ovs.filter (fun o => decide (o.t_id = t))).length) ∧
    ∀ p : Polished,
      (polishedSequence ty sequences_
        (distributeLayers w thr F sequences_ (ovs.map some) (ws, List.replicate T 0)).2
        to_string p).name =
      (match sequences_[p.id]? with
        | some s => s.name
        | none => []) ++
      polishTags ty p.data.length (ovs.filter (fun o => decide (o.t_id = p.id))).length
        (to_string p.xc) := by
  have hzero : ∀ t, (List.replicate T 0).getD t 0 = 0 := by
    intro t
    simp only [List.getD_eq_getElem?_getD]
    by_cases h : t < T
    · simp [List.getElem?_replicate, h]
    · simp [List.getElem?_replicate, h]
  have hmain : ∀ t, (distributeLayers w thr F sequences_ (ovs.map some)
        (ws, List.replicate T 0)).2.getD t 0 =
      (ovs.filter (fun o => decide (o.t_id = t))).length := by
    intro t
    rw [distributeLayers_coverage w thr F sequences_ T ovs ws (List.replicate T 0) hov
      (List.length_replicate _ _) (fun k => by rw [hzero]; omega) t, hzero, Nat.zero_add]
  refine ⟨hmain, ?_⟩
  intro p
  simp only [polishedSequence, createSequence, hmain]

theorem target_coverage_counts_overlaps_witness :
    [Overlap.mk 1 0 false 0 10 true [],
      Overlap.mk 1 0 true 0 8 true [(0, 0), (4, 4)]].length < 2 ^ 32 ∧
    (∀ t, (distributeLayers 4 10 [0, 3] [Sequence.mk ['t'] "ACGTACGTAC".toList [] [] [],
          Sequence.mk ['q'] "ACGTACGTAC".toList [] [] []]
        ([Overlap.mk 1 0 false 0 10 true [], Overlap.mk 1 0 true 0 8 true [(0, 0), (4, 4)]].map
          some)
        ([], List.replicate 1 0)).2.getD t 0 =
      ([Overlap.mk 1 0 false 0 10 true [],
        Overlap.mk 1 0 true 0 8 true [(0, 0), (4, 4)]].filter
          (fun o => decide (o.t_id = t))).length) :=
  ⟨by decide,
    (target_coverage_counts_overlaps 4 10 [0, 3]
      [Sequence.mk ['t'] "ACGTACGTAC".toList [] [] [],
        Sequence.mk ['q'] "ACGTACGTAC".toList [] [] []] 1
      [Overlap.mk 1 0 false 0 10 true [], Overlap.mk 1 0 true 0 8 true [(0, 0), (4, 4)]] []
      PolisherType.kC (fun _ => [])
      (by
        intro o ho
        simp only [List.mem_cons, List.mem_singleton, List.not_mem_nil, or_false] at ho
        rcases ho with rfl | rfl
        · exact ⟨by decide, by decide⟩
        · exact ⟨by decide, by decide⟩)
      (by decide)).1⟩

/-! ### Sequence intake: the loop over the queries -/

theorem lookup_cons_ite {α β : Type} [BEq α] [LawfulBEq α] [DecidableEq α] (k a : α) (b : β)
    (es : List (α × β)) :
    ((k, b) :: es).lookup a = if a = k then some b else es.lookup a := by
  rw [List.lookup_cons]
  by_cases h : a = k
  · simp [h]
  · have hb : (a == k) = false := by simpa using h
    rw [hb, if_neg h]

theorem append_t_ne_append_q (a b : List Char) : a ++ ['t'] ≠ b ++ ['q'] := by
  intro h
  have h2 := congrArg List.getLast? h
  simp at h2

theorem append_q_inj (a b : List Char) (h : a ++ ['q'] = b ++ ['q']) : a = b :=
  (List.append_left_inj _).mp h

theorem registerTargets_lookup_some :
    ∀ (ts : List Sequence) (i : Nat) (maps : List (List Char × Nat) × List (Nat × Nat))
      (key : List Char) (id : Nat),
      (registerTargets ts i maps).1.lookup key = some id →
      (∃ tg, ts[id - i]? = some tg ∧ i ≤ id ∧ tg.name ++ ['t'] = key) ∨
        maps.1.lookup key = some id := by
  intro ts
  induction ts with
  | nil => intro i maps key id h; exact Or.inr h
  | cons s rest ih =>
    intro i maps key id h
    simp only [registerTargets] at h
    rcases ih (i + 1) _ key id h with ⟨tg, h1, h2, h3⟩ | h1
    · left
      refine ⟨tg, ?_, by omega, h3⟩
      have : id - i = (id - (i + 1)) + 1 := by omega
      rw [this, List.getElem?_cons_succ]
      exact h1
    · simp only [lookup_cons_ite] at h1
      by_cases hk : key = s.name ++ ['t']
      · rw [if_pos hk] at h1
        left
        have hid : id = i := (Option.some.inj h1).symm
        subst hid
        exact ⟨s, by simp, le_refl _, hk.symm⟩
      · rw [if_neg hk] at h1
        exact Or.inr h1

theorem registerTargets_lookup_isSome :
    ∀ (ts : List Sequence) (i : Nat) (maps : List (List Char × Nat) × List (Nat × Nat))
      (key : List Char),
      ((∃ tg ∈ ts, tg.name ++ ['t'] = key) ∨ (maps.1.lookup key).isSome = true) →
      ((registerTargets ts i maps).1.lookup key).isSome = true := by
  intro ts
  induction ts with
  | nil =>
    intro i maps key h
    rcases h with ⟨tg, h1, _⟩ | h
    · cases h1
    · exact h
  | cons s rest ih =>
    intro i maps key h
    simp only [registerTargets]
    apply ih
    rcases h with ⟨tg, h1, h2⟩ | h
    · rcases List.mem_cons.mp h1 with h3 | h3
      · right
        subst h3
        simp only [lookup_cons_ite, if_pos h2.symm, Option.isSome_some]
      · exact Or.inl ⟨tg, h3, h2⟩
    · right
      simp only [lookup_cons_ite]
      split
      · rfl
      · exact h

theorem foldTarget_some (targets : List Sequence) (q : Sequence) (id : Nat)
    (h : foldTarget targets q = some id) :
    ∃ tg, targets[id]? = some tg ∧ tg.name = q.name := by
  rcases registerTargets_lookup_some targets 0 ([], []) _ id h with ⟨tg, h1, _, h3⟩ | h1
  · exact ⟨tg, h1, (List.append_left_inj _).mp h3⟩
  · simp at h1

theorem foldTarget_isSome (targets : List Sequence) (q tg : Sequence) (h1 : tg ∈ targets)
    (h2 : tg.name = q.name) : (foldTarget targets q).isSome = true :=
  registerTargets_lookup_isSome targets 0 ([], []) _ (Or.inl ⟨tg, h1, by rw [h2]⟩)

theorem foldedCount_cons (targets : List Sequence) (q : Sequence) (qs : List Sequence) :
    foldedCount targets (q :: qs) = foldedCount targets [q] + foldedCount targets qs := by
  simp only [foldedCount, List.filter_cons]
  split
  · simp; omega
  · simp

theorem recordedId_succ (targets : List Sequence) (base n j : Nat) (q0 q : Sequence)
    (rest : List Sequence) :
    recordedId targets base n (q0 :: rest) (j + 1) q =
      recordedId targets (base + 1) (n + foldedCount targets [q0]) rest j q := by
  simp only [recordedId, List.take_succ_cons]
  rw [foldedCount_cons]
  split
  · rfl
  · omega
theorem foldedCount_single (targets : List Sequence) (q : Sequence) :
    foldedCount targets [q] = if (foldTarget targets q).isSome then 1 else 0 := by
  simp only [foldedCount, List.filter_cons, List.filter_nil]
  split <;> rfl

theorem getD_targets_prefix (targets : List Sequence) (tail : List (Option Sequence))
    (id : Nat) (tg : Sequence) (h : targets[id]? = some tg) :
    (targets.map some ++ tail).getD id none = some tg := by
  have hlt : id < targets.length := getElem?_lt_length targets id tg h
  rw [List.getD_eq_getElem?_getD, List.getElem?_append_left (by simpa using hlt),
    List.getElem?_map, h]
  rfl

theorem getD_intake_current (targets : List Sequence) (done : List (Option Sequence))
    (x : Option Sequence) (tail : List (Option Sequence)) :
    (targets.map some ++ done ++ x :: tail).getD (targets.length + done.length) none = x := by
  rw [List.getD_eq_getElem?_getD, List.getElem?_append_right (by simp)]
  simp

theorem set_intake_current (targets : List Sequence) (done : List (Option Sequence))
    (x y : Option Sequence) (tail : List (Option Sequence)) :
    (targets.map some ++ done ++ x :: tail).set (targets.length + done.length) y =
      targets.map some ++ (done ++ [y]) ++ tail := by
  rw [List.set_append_right _ _ (by simp)]
  simp

/-- One iteration of the intake loop on the state reached before the query `q`. -/
theorem sequenceIntakeBody_eq (targets : List Sequence) (q : Sequence) (rest : List Sequence)
    (done : List (Option Sequence)) (nm : List (List Char × Nat)) (im : List (Nat × Nat))
    (n ssize total : Nat)
    (hnm : ∀ name, nm.lookup (name ++ ['t']) =
      (registerTargets targets 0 ([], [])).1.lookup (name ++ ['t']))
    (hfold : ∀ id tg, foldTarget targets q = some id → targets[id]? = some tg →
      q.data.length = tg.data.length ∧ q.quality.length = tg.quality.length)
    (hs : ssize < 2 ^ 63) :
    sequenceIntakeBody (targets.length + done.length)
        (IntakeState.mk (targets.map some ++ done ++ (q :: rest).map some) nm im n ssize total) =
      some (IntakeState.mk (targets.map some ++ (done ++ [intakeMark targets q]) ++ rest.map some)
        ((q.name ++ ['q'], recordedId targets (targets.length + done.length) n (q :: rest) 0 q)
          :: nm)
        ((2 * ssize, recordedId targets (targets.length + done.length) n (q :: rest) 0 q) :: im)
        (n + foldedCount targets [q]) (ssize + 1) (total + q.data.length)) := by
  have hmod : (2 * ssize) % 2 ^ 64 = 2 * ssize := Nat.mod_eq_of_lt (by omega)
  have hlk : nm.lookup (q.name ++ ['t']) = foldTarget targets q := hnm q.name
  simp only [sequenceIntakeBody, List.map_cons, getD_intake_current, hlk, hmod]
  cases hf : foldTarget targets q with
  | none =>
    simp only [recordedId, hf, intakeMark, foldedCount_single, Option.isSome_none,
      List.take_zero, foldedCount, List.filter_nil, List.length_nil]
    simp [hf]
  | some id =>
    obtain ⟨tg, htg, _⟩ := foldTarget_some targets q id hf
    obtain ⟨h1, h2⟩ := hfold id tg hf htg
    have hget : (targets.map some ++ done ++ some q :: rest.map some).getD id none = some tg := by
      rw [List.append_assoc]
      exact getD_targets_prefix targets _ id tg htg
    simp only [hget, recordedId, hf, intakeMark, foldedCount_single, Option.isSome_some,
      set_intake_current]
    simp [h1, h2]
/-- The intake loop returns, and does what `IntakeOutcome` says, when no folded query has
lengths different from its target and the external keys stay below `2 ^ 64`. -/
theorem sequenceIntakeLoop_spec (targets : List Sequence) :
    ∀ (rest : List Sequence) (done : List (Option Sequence)) (nm : List (List Char × Nat))
      (im : List (Nat × Nat)) (n ssize total : Nat),
      (∀ name, nm.lookup (name ++ ['t']) =
        (registerTargets targets 0 ([], [])).1.lookup (name ++ ['t'])) →
      (∀ q ∈ rest, ∀ id tg, foldTarget targets q = some id → targets[id]? = some tg →
        q.data.length = tg.data.length ∧ q.quality.length = tg.quality.length) →
      ssize + rest.length ≤ 2 ^ 63 →
      ∃ st, sequenceIntakeLoop rest.length (targets.length + done.length)
          (IntakeState.mk (targets.map some ++ done ++ rest.map some) nm im n ssize total)
            = some st ∧
        IntakeOutcome targets rest done nm im n ssize st := by
  intro rest
  induction rest with
  | nil =>
    intro done nm im n ssize total _ _ _
    refine ⟨_, rfl, ?_⟩
    refine ⟨by simp, by simp [foldedCount], by simp, fun _ _ => rfl, fun _ _ => rfl, ?_, ?_,
      fun e he => he, ?_, ?_⟩
    · intro j q h; simp at h
    · intro j q h; simp at h
    · intro name id _ h
      rcases h with h | ⟨q, hq, _⟩
      · exact h
      · cases hq
    · intro j q h; simp at h
  | cons q rest ih =>
    intro done nm im n ssize total hnm hfold hsz
    have hlen : (q :: rest).length = rest.length + 1 := rfl
    rw [hlen] at hsz
    have hbody := sequenceIntakeBody_eq targets q rest done nm im n ssize total hnm
      (hfold q (List.mem_cons_self _ _)) (by omega)
    have hnm1 : ∀ name, List.lookup (name ++ ['t'])
        ((q.name ++ ['q'],
          recordedId targets (targets.length + done.length) n (q :: rest) 0 q) :: nm) =
        (registerTargets targets 0 ([], [])).1.lookup (name ++ ['t']) := by
      intro name
      rw [lookup_cons_ite, if_neg (append_t_ne_append_q _ _)]
      exact hnm name
    obtain ⟨st, hrun, ho⟩ := ih (done ++ [intakeMark targets q]) _
      ((2 * ssize, recordedId targets (targets.length + done.length) n (q :: rest) 0 q) :: im)
      (n + foldedCount targets [q]) (ssize + 1) (total + q.data.length) hnm1
      (fun q2 hq2 => hfold q2 (List.mem_cons_of_mem _ hq2)) (by omega)
    have hidx : targets.length + (done ++ [intakeMark targets q]).length =
        targets.length + done.length + 1 := by simp; omega
    rw [hidx] at hrun
    have hoIdAt := ho.idAt
    have hoNameLog := ho.nameLog
    have hoNameLast := ho.nameLast
    rw [hidx] at hoIdAt hoNameLog hoNameLast
    refine ⟨st, ?_, ?_⟩
    · rw [hlen]
      simp only [sequenceIntakeLoop, hbody]
      exact hrun
    · refine ⟨?_, ?_, ?_, ?_, ?_, ?_, ?_, ?_, ?_, ?_⟩
      · rw [ho.seqs]; simp
      · rw [ho.count, foldedCount_cons targets q rest]; omega
      · rw [ho.size, hlen]; omega
      · intro key hkey
        rw [ho.nameFrame key (fun q2 hq2 => hkey q2 (List.mem_cons_of_mem _ hq2)),
          lookup_cons_ite, if_neg (hkey q (List.mem_cons_self _ _))]
      · intro key hkey
        rw [hlen] at hkey
        rw [ho.idFrame key (by omega), lookup_cons_ite, if_neg (by omega)]
      · intro j q2 hj
        cases j with
        | zero =>
          have hq2 : q = q2 := by simpa using hj
          subst hq2
          rw [Nat.add_zero, ho.idFrame (2 * ssize) (by omega), lookup_cons_ite, if_pos rfl]
        | succ j =>
          rw [List.getElem?_cons_succ] at hj
          have := hoIdAt j q2 hj
          rw [recordedId_succ]
          rw [← this]
          congr 1
          omega
      · intro j q2 hj
        cases j with
        | zero =>
          have hq2 : q = q2 := by simpa using hj
          subst hq2
          exact ho.nameKeep _ (List.mem_cons_self _ _)
        | succ j =>
          rw [List.getElem?_cons_succ] at hj
          rw [recordedId_succ]
          exact hoNameLog j q2 hj
      · intro e he
        exact ho.nameKeep e (List.mem_cons_of_mem _ he)
      · intro name id hid h
        apply ho.nameFolded name id hid
        by_cases hname : q.name = name
        · left
          have hf : foldTarget targets q = some id := by
            rw [← hname] at hid
            exact hid
          rw [hname, lookup_cons_ite, if_pos rfl]
          simp only [recordedId, hf]
        · rcases h with h | ⟨q2, hq2, hq2n⟩
          · left
            rw [lookup_cons_ite, if_neg (fun hc => hname (append_q_inj _ _ hc).symm)]
            exact h
          · right
            rcases List.mem_cons.mp hq2 with h3 | h3
            · exact absurd (h3 ▸ hq2n) hname
            · exact ⟨q2, h3, hq2n⟩
      · intro j q2 hj hlast
        cases j with
        | zero =>
          have hq2 : q = q2 := by simpa using hj
          subst hq2
          rw [ho.nameFrame, lookup_cons_ite, if_pos rfl]
          intro q3 hq3 hc
          obtain ⟨j3, hj3, hget⟩ := List.getElem_of_mem hq3
          exact hlast (j3 + 1) q3 (by omega)
            (by rw [List.getElem?_cons_succ, List.getElem?_eq_getElem hj3, hget])
            (append_q_inj _ _ hc).symm
        | succ j =>
          rw [List.getElem?_cons_succ] at hj
          rw [recordedId_succ]
          exact hoNameLast j q2 hj (fun j2 q3 hlt hq3 =>
            hlast (j2 + 1) q3 (by omega) (by rw [List.getElem?_cons_succ]; exact hq3))
theorem intakeMark_filter (targets : List Sequence) (xs : List Sequence) :
    (xs.map (intakeMark targets)).filter (fun x => x.isSome) =
      (xs.filter (fun q => (foldTarget targets q).isNone)).map some := by
  induction xs with
  | nil => rfl
  | cons x xs ih =>
    simp only [List.map_cons, List.filter_cons, intakeMark]
    cases h : foldTarget targets x with
    | none => simp [ih]
    | some id => simp [ih]

theorem unfolded_length (targets : List Sequence) (xs : List Sequence) :
    (xs.filter (fun q => (foldTarget targets q).isNone)).length + foldedCount targets xs =
      xs.length := by
  induction xs with
  | nil => rfl
  | cons x xs ih =>
    rw [foldedCount_cons, foldedCount_single, List.filter_cons]
    cases h : foldTarget targets x with
    | none => simp; omega
    | some id => simp; omega

/-- The record of a query that is not folded sits, in the compacted table, behind the targets
and the earlier queries that were not folded. -/
theorem unfolded_index (targets queries : List Sequence) (j : Nat) (q : Sequence)
    (hq : queries[j]? = some q) (hnf : foldTarget targets q = none) :
    (targets.map some ++ (queries.filter (fun q => (foldTarget targets q).isNone)).map some)[
      targets.length + j - foldedCount targets (queries.take j)]? = some (some q) := by
  have hj : j < queries.length := getElem?_lt_length queries j q hq
  have hsplit : queries = queries.take j ++ q :: queries.drop (j + 1) := by
    have hq2 : queries[j] = q := by
      rw [List.getElem?_eq_getElem hj] at hq
      exact Option.some.inj hq
    rw [← hq2]
    exact (List.take_append_drop j queries).symm.trans (by rw [List.drop_eq_getElem_cons hj])
  have hcount := unfolded_length targets (queries.take j)
  rw [List.length_take, Nat.min_eq_left (le_of_lt hj)] at hcount
  have hfil : queries.filter (fun q => (foldTarget targets q).isNone) =
      (queries.take j).filter (fun q => (foldTarget targets q).isNone) ++
        q :: (queries.drop (j + 1)).filter (fun q => (foldTarget targets q).isNone) := by
    conv_lhs => rw [hsplit]
    rw [List.filter_append, List.filter_cons]
    simp [hnf]
  rw [hfil, List.getElem?_append_right (by simp; omega), List.map_append,
    List.getElem?_append_right (by simp; omega)]
  have hz : targets.length + j - foldedCount targets (List.take j queries) -
      (List.map some targets).length -
      (List.map some (List.filter (fun q => (foldTarget targets q).isNone)
        (List.take j queries))).length = 0 := by
    simp only [List.length_map]
    omega
  rw [hz]
  simp

/-- The sequence intake returns when every query has the data and quality lengths of the
targets that bear its name; the table it leaves holds the targets and then the queries that
were not folded. -/
theorem sequenceIntake_spec (targets queries : List Sequence)
    (hfold : ∀ q ∈ queries, ∀ tg ∈ targets, tg.name = q.name →
      q.data.length = tg.data.length ∧ q.quality.length = tg.quality.length)
    (hlen : queries.length ≤ 2 ^ 63) :
    ∃ st0, IntakeOutcome targets queries [] (registerTargets targets 0 ([], [])).1
        (registerTargets targets 0 ([], [])).2 0 0 st0 ∧
      sequenceIntake targets queries = some (IntakeState.mk
        (targets.map some ++ (queries.filter (fun q => (foldTarget targets q).isNone)).map some)
        st0.name_to_id st0.id_to_id st0.n st0.sequences_size st0.total_sequences_length) := by
  obtain ⟨st0, hrun, ho⟩ := sequenceIntakeLoop_spec targets queries []
    (registerTargets targets 0 ([], [])).1 (registerTargets targets 0 ([], [])).2 0 0 0
    (fun _ => rfl)
    (fun q hq id tg hf htg => by
      obtain ⟨tg2, h1, h2⟩ := foldTarget_some targets q id hf
      have h3 : tg2 = tg := Option.some.inj (h1.symm.trans htg)
      subst h3
      exact hfold q hq tg2 (List.getElem?_mem h1) h2)
    (by omega)
  refine ⟨st0, ho, ?_⟩
  simp only [List.append_nil, List.length_nil, Nat.add_zero] at hrun
  simp only [sequenceIntake, hrun]
  have hseq := ho.seqs
  simp only [List.append_nil] at hseq
  rw [hseq, shrinkToFit_fst_eq _ _ (by simp)]
  have h1 : (targets.map some ++ queries.map (intakeMark targets)).take targets.length =
      targets.map some := by
    rw [List.take_append_of_le_length (by simp)]
    exact List.take_of_length_le (by simp)
  have h2 : (targets.map some ++ queries.map (intakeMark targets)).drop targets.length =
      queries.map (intakeMark targets) := by
    rw [List.drop_append_of_le_length (by simp)]
    rw [List.drop_of_length_le (by simp)]
    rfl
  rw [h1, h2, intakeMark_filter]
/-- C15: in the sequence intake, a query whose name is the name of a target (every query
having the data and quality lengths of the targets that bear its name, so that the intake does
not stop with an error) is folded into a target `id` of that name: `name_to_id` maps both
`name + "t"` and `name + "q"` to `id`, `id_to_id` maps the query's external key `2 * j` to
`id`, and after `shrinkToFit` the table holds the targets followed by the queries that were not
folded, so the query's own record is not among the entries behind the targets. -/
theorem intake_folds_duplicate_name (targets queries : List Sequence)
    (hfold : ∀ q ∈ queries, ∀ tg ∈ targets, tg.name = q.name →
      q.data.length = tg.data.length ∧ q.quality.length = tg.quality.length)
    (hlen : queries.length ≤ 2 ^ 63)
    (j : Nat) (q : Sequence) (hq : queries[j]? = some q)
    (hname : ∃ tg ∈ targets, tg.name = q.name) :
    ∃ st id tg, sequenceIntake targets queries = some st ∧
      targets[id]? = some tg ∧ tg.name = q.name ∧
      st.name_to_id.lookup (q.name ++ ['t']) = some id ∧
      st.name_to_id.lookup (q.name ++ ['q']) = some id ∧
      st.id_to_id.lookup (2 * j) = some id ∧
      st.sequences_ = targets.map some ++
        (queries.filter (fun x => (foldTarget targets x).isNone)).map some ∧
      some q ∉ st.sequences_.drop targets.length := by
  obtain ⟨tg0, htg0, hn0⟩ := hname
  have hsome := foldTarget_isSome targets q tg0 htg0 hn0
  obtain ⟨id, hf⟩ := Option.isSome_iff_exists.mp hsome
  obtain ⟨tg, htg, hn⟩ := foldTarget_some targets q id hf
  obtain ⟨st0, ho, hres⟩ := sequenceIntake_spec targets queries hfold hlen
  refine ⟨_, id, tg, hres, htg, hn, ?_, ?_, ?_, rfl, ?_⟩
  · show st0.name_to_id.lookup (q.name ++ ['t']) = some id
    rw [ho.nameFrame _ (fun q2 _ => append_t_ne_append_q _ _)]
    exact hf
  · exact ho.nameFolded q.name id hf (Or.inr ⟨q, List.getElem?_mem hq, rfl⟩)
  · have h := ho.idAt j q hq
    simp only [recordedId, hf, Nat.zero_add] at h
    exact h
  · show some q ∉ (targets.map some ++
      (queries.filter (fun x => (foldTarget targets x).isNone)).map some).drop targets.length
    rw [List.drop_append_of_le_length (by simp), List.drop_of_length_le (by simp),
      List.nil_append]
    intro hmem
    obtain ⟨x, hx, hxq⟩ := List.mem_map.mp hmem
    have hxq2 : x = q := Option.some.inj hxq
    subst hxq2
    have := (List.mem_filter.mp hx).2
    rw [hf] at this
    simp at this

theorem intake_folds_duplicate_name_witness :
    ∃ st id tg,
      sequenceIntake [Sequence.mk ['a'] ['A', 'C'] [] [] [], Sequence.mk ['b'] ['G'] [] [] []]
        [Sequence.mk ['x'] ['T'] [] [] [], Sequence.mk ['a'] ['A', 'C'] [] [] [],
          Sequence.mk ['y'] ['T', 'T'] [] [] []] = some st ∧
      [Sequence.mk ['a'] ['A', 'C'] [] [] [], Sequence.mk ['b'] ['G'] [] [] []][id]? = some tg ∧
      tg.name = (Sequence.mk ['a'] ['A', 'C'] [] [] []).name ∧
      st.name_to_id.lookup ((Sequence.mk ['a'] ['A', 'C'] [] [] []).name ++ ['t']) = some id ∧
      st.name_to_id.lookup ((Sequence.mk ['a'] ['A', 'C'] [] [] []).name ++ ['q']) = some id ∧
      st.id_to_id.lookup (2 * 1) = some id ∧
      st.sequences_ =
        [Sequence.mk ['a'] ['A', 'C'] [] [] [], Sequence.mk ['b'] ['G'] [] [] []].map some ++
        ([Sequence.mk ['x'] ['T'] [] [] [], Sequence.mk ['a'] ['A', 'C'] [] [] [],
          Sequence.mk ['y'] ['T', 'T'] [] [] []].filter (fun x =>
            (foldTarget [Sequence.mk ['a'] ['A', 'C'] [] [] [], Sequence.mk ['b'] ['G'] [] [] []]
              x).isNone)).map some ∧
      some (Sequence.mk ['a'] ['A', 'C'] [] [] []) ∉ st.sequences_.drop
        [Sequence.mk ['a'] ['A', 'C'] [] [] [], Sequence.mk ['b'] ['G'] [] [] []].length :=
  intake_folds_duplicate_name
    [Sequence.mk ['a'] ['A', 'C'] [] [] [], Sequence.mk ['b'] ['G'] [] [] []]
    [Sequence.mk ['x'] ['T'] [] [] [], Sequence.mk ['a'] ['A', 'C'] [] [] [],
      Sequence.mk ['y'] ['T', 'T'] [] [] []]
    (by decide) (by norm_num) 1 (Sequence.mk ['a'] ['A', 'C'] [] [] []) (by decide) (by decide)

/-- C16: in the sequence intake (every query having the data and quality lengths of the
targets that bear its name, so that the intake does not stop with an error), a query at
position `j` of the chunk whose `name + "t"` is absent from `name_to_id` gets the internal id
`l + j - n`, with `l` the number of targets and `n` the number of queries folded before it: the
entry `(name + "q", l + j - n)` is written to `name_to_id` (and is what `name_to_id` returns
when no later query has the same name), `id_to_id` maps the external key `2 * j` to it, and
after `shrinkToFit(sequences_, l)` the record of the query sits at that index. -/
theorem intake_unfolded_id_is_index (targets queries : List Sequence)
    (hfold : ∀ q ∈ queries, ∀ tg ∈ targets, tg.name = q.name →
      q.data.length = tg.data.length ∧ q.quality.length = tg.quality.length)
    (hlen : queries.length ≤ 2 ^ 63)
    (j : Nat) (q : Sequence) (hq : queries[j]? = some q)
    (hnf : foldTarget targets q = none) :
    ∃ st, sequenceIntake targets queries = some st ∧
      st.name_to_id.lookup (q.name ++ ['t']) = none ∧
      st.sequences_[targets.length + j - foldedCount targets (queries.take j)]? =
        some (some q) ∧
      st.id_to_id.lookup (2 * j) =
        some (targets.length + j - foldedCount targets (queries.take j)) ∧
      (q.name ++ ['q'], targets.length + j - foldedCount targets (queries.take j))
        ∈ st.name_to_id ∧
      ((∀ j2 q2, j < j2 → queries[j2]? = some q2 → q2.name ≠ q.name) →
        st.name_to_id.lookup (q.name ++ ['q']) =
          some (targets.length + j - foldedCount targets (queries.take j))) := by
  obtain ⟨st0, ho, hres⟩ := sequenceIntake_spec targets queries hfold hlen
  refine ⟨_, hres, ?_, unfolded_index targets queries j q hq hnf, ?_, ?_, ?_⟩
  · show st0.name_to_id.lookup (q.name ++ ['t']) = none
    rw [ho.nameFrame _ (fun q2 _ => append_t_ne_append_q _ _)]
    exact hnf
  · have h := ho.idAt j q hq
    simp only [recordedId, hnf, Nat.zero_add, List.length_nil, Nat.add_zero] at h
    exact h
  · have h := ho.nameLog j q hq
    simp only [recordedId, hnf, Nat.zero_add, List.length_nil, Nat.add_zero] at h
    exact h
  · intro hlast
    have h := ho.nameLast j q hq hlast
    simp only [recordedId, hnf, Nat.zero_add, List.length_nil, Nat.add_zero] at h
    exact h

theorem intake_unfolded_id_is_index_witness :
    ∃ st,
      sequenceIntake [Sequence.mk ['a'] ['A', 'C'] [] [] [], Sequence.mk ['b'] ['G'] [] [] []]
        [Sequence.mk ['x'] ['T'] [] [] [], Sequence.mk ['a'] ['A', 'C'] [] [] [],
          Sequence.mk ['y'] ['T', 'T'] [] [] []] = some st ∧
      st.name_to_id.lookup ((Sequence.mk ['y'] ['T', 'T'] [] [] []).name ++ ['t']) = none ∧
      st.sequences_[[Sequence.mk ['a'] ['A', 'C'] [] [] [],
          Sequence.mk ['b'] ['G'] [] [] []].length + 2 -
        foldedCount [Sequence.mk ['a'] ['A', 'C'] [] [] [], Sequence.mk ['b'] ['G'] [] [] []]
          ([Sequence.mk ['x'] ['T'] [] [] [], Sequence.mk ['a'] ['A', 'C'] [] [] [],
            Sequence.mk ['y'] ['T', 'T'] [] [] []].take 2)]? =
        some (some (Sequence.mk ['y'] ['T', 'T'] [] [] [])) ∧
      st.id_to_id.lookup (2 * 2) =
        some ([Sequence.mk ['a'] ['A', 'C'] [] [] [], Sequence.mk ['b'] ['G'] [] [] []].length
          + 2 -
          foldedCount [Sequence.mk ['a'] ['A', 'C'] [] [] [], Sequence.mk ['b'] ['G'] [] [] []]
            ([Sequence.mk ['x'] ['T'] [] [] [], Sequence.mk ['a'] ['A', 'C'] [] [] [],
              Sequence.mk ['y'] ['T', 'T'] [] [] []].take 2)) ∧
      ((Sequence.mk ['y'] ['T', 'T'] [] [] []).name ++ ['q'],
        [Sequence.mk ['a'] ['A', 'C'] [] [] [], Sequence.mk ['b'] ['G'] [] [] []].length + 2 -
          foldedCount [Sequence.mk ['a'] ['A', 'C'] [] [] [], Sequence.mk ['b'] ['G'] [] [] []]
            ([Sequence.mk ['x'] ['T'] [] [] [], Sequence.mk ['a'] ['A', 'C'] [] [] [],
              Sequence.mk ['y'] ['T', 'T'] [] [] []].take 2)) ∈ st.name_to_id ∧
      ((∀ j2 q2, 2 < j2 →
          [Sequence.mk ['x'] ['T'] [] [] [], Sequence.mk ['a'] ['A', 'C'] [] [] [],
            Sequence.mk ['y'] ['T', 'T'] [] [] []][j2]? = some q2 →
          q2.name ≠ (Sequence.mk ['y'] ['T', 'T'] [] [] []).name) →
        st.name_to_id.lookup ((Sequence.mk ['y'] ['T', 'T'] [] [] []).name ++ ['q']) =
          some ([Sequence.mk ['a'] ['A', 'C'] [] [] [],
              Sequence.mk ['b'] ['G'] [] [] []].length + 2 -
            foldedCount [Sequence.mk ['a'] ['A', 'C'] [] [] [], Sequence.mk ['b'] ['G'] [] [] []]
              ([Sequence.mk ['x'] ['T'] [] [] [], Sequence.mk ['a'] ['A', 'C'] [] [] [],
                Sequence.mk ['y'] ['T', 'T'] [] [] []].take 2))) :=
  intake_unfolded_id_is_index
    [Sequence.mk ['a'] ['A', 'C'] [] [] [], Sequence.mk ['b'] ['G'] [] [] []]
    [Sequence.mk ['x'] ['T'] [] [] [], Sequence.mk ['a'] ['A', 'C'] [] [] [],
      Sequence.mk ['y'] ['T', 'T'] [] [] []]
    (by decide) (by norm_num) 2 (Sequence.mk ['y'] ['T', 'T'] [] [] []) (by decide) (by decide)
/-! ### createPolisher -/

theorem is_suffix_iff (src suffix : List Char) :
    is_suffix src suffix = true ↔ suffix <:+ src := by
  unfold is_suffix
  constructor
  · intro h
    split at h
    · cases h
    · rename_i hlt
      have h2 := of_decide_eq_true h
      have hlen : (src.drop (src.length - suffix.length)).length = suffix.length := by
        rw [List.length_drop]; omega
      rw [List.take_of_length_le (le_of_eq hlen)] at h2
      have h3 := List.take_append_drop (src.length - suffix.length) src
      rw [h2] at h3
      exact ⟨_, h3⟩
  · rintro ⟨t, rfl⟩
    have h1 : ¬ (t ++ suffix).length < suffix.length := by
      rw [List.length_append]; omega
    rw [if_neg h1]
    apply decide_eq_true
    have h2 : (t ++ suffix).length - suffix.length = t.length := by
      rw [List.length_append]; omega
    rw [h2, List.drop_left, List.take_length]

theorem sequenceReaderFor_isSome_iff (path : List Char) :
    (sequenceReaderFor path).isSome = true ↔
      SpecEndsWith path [".fasta", ".fa", ".fastq", ".fq"] := by
  unfold sequenceReaderFor SpecEndsWith
  simp only [Bool.or_eq_true, is_suffix_iff, List.mem_cons, List.mem_singleton,
    List.not_mem_nil, or_false, exists_eq_or_imp, exists_eq_left]
  constructor
  · intro h
    split at h
    · rename_i h1
      rcases h1 with ((h1 | h1) | h1) | h1
      · exact Or.inl (Or.inl h1)
      · exact Or.inr (Or.inl (Or.inl h1))
      · exact Or.inl (Or.inr h1)
      · exact Or.inr (Or.inl (Or.inr h1))
    · split at h
      · rename_i _ h1
        rcases h1 with ((h1 | h1) | h1) | h1
        · exact Or.inr (Or.inr (Or.inl (Or.inl h1)))
        · exact Or.inr (Or.inr (Or.inr (Or.inl h1)))
        · exact Or.inr (Or.inr (Or.inl (Or.inr h1)))
        · exact Or.inr (Or.inr (Or.inr (Or.inr h1)))
      · cases h
  · intro h
    split
    · rfl
    · rename_i h1
      split
      · rfl
      · rename_i h2
        exfalso
        rcases h with (h | h) | (h | h) | (h | h) | (h | h)
        · exact h1 (Or.inl (Or.inl (Or.inl h)))
        · exact h1 (Or.inl (Or.inr h))
        · exact h1 (Or.inl (Or.inl (Or.inr h)))
        · exact h1 (Or.inr h)
        · exact h2 (Or.inl (Or.inl (Or.inl h)))
        · exact h2 (Or.inl (Or.inr h))
        · exact h2 (Or.inl (Or.inl (Or.inr h)))
        · exact h2 (Or.inr h)

theorem overlapReaderFor_isSome_iff (path : List Char) :
    (overlapReaderFor path).isSome = true ↔ SpecEndsWith path [".mhap", ".paf", ".sam"] := by
  unfold overlapReaderFor SpecEndsWith
  simp only [Bool.or_eq_true, is_suffix_iff, List.mem_cons, List.mem_singleton,
    List.not_mem_nil, or_false, exists_eq_or_imp, exists_eq_left]
  constructor
  · intro h
    split at h
    · rename_i h1
      exact Or.inl h1
    · split at h
      · rename_i _ h1
        exact Or.inr (Or.inl h1)
      · split at h
        · rename_i _ _ h1
          exact Or.inr (Or.inr h1)
        · cases h
  · intro h
    split
    · rfl
    · rename_i h1
      split
      · rfl
      · rename_i h2
        split
        · rfl
        · rename_i h3
          exfalso
          rcases h with h | h | h
          · exact h1 h
          · exact h2 h
          · exact h3 h

/-- C17: `createPolisher` returns a polisher exactly when the type is `kC` or `kF`, the window
length is positive, the sequences path and the target path each end with one of `.fasta`,
`.fa`, `.fastq`, `.fq` (optionally followed by `.gz`) and the overlaps path ends with one of
`.mhap`, `.paf`, `.sam` (optionally followed by `.gz`); for every other input it stops with
`exit(1)` and constructs nothing. -/
theorem createPolisher_returns_iff (sequences_path overlaps_path target_path : List Char)
    (type : Option PolisherType) (window_length : Nat) (quality_threshold error_threshold : ℚ)
    (match_ mismatch gap : Int) (num_threads : Nat) :
    ((∃ p, createPolisher sequences_path overlaps_path target_path type window_length
        quality_threshold error_threshold match_ mismatch gap num_threads = some p) ↔
      ((type = some PolisherType.kC ∨ type = some PolisherType.kF) ∧ 0 < window_length ∧
        SpecEndsWith sequences_path [".fasta", ".fa", ".fastq", ".fq"] ∧
        SpecEndsWith target_path [".fasta", ".fa", ".fastq", ".fq"] ∧
        SpecEndsWith overlaps_path [".mhap", ".paf", ".sam"])) ∧
    (¬ ((type = some PolisherType.kC ∨ type = some PolisherType.kF) ∧ 0 < window_length ∧
        SpecEndsWith sequences_path [".fasta", ".fa", ".fastq", ".fq"] ∧
        SpecEndsWith target_path [".fasta", ".fa", ".fastq", ".fq"] ∧
        SpecEndsWith overlaps_path [".mhap", ".paf", ".sam"]) →
      createPolisher sequences_path overlaps_path target_path type window_length
        quality_threshold error_threshold match_ mismatch gap num_threads = none) := by
  have key : (createPolisher sequences_path overlaps_path target_path type window_length
        quality_threshold error_threshold match_ mismatch gap num_threads).isSome = true ↔
      ((type = some PolisherType.kC ∨ type = some PolisherType.kF) ∧ 0 < window_length ∧
        SpecEndsWith sequences_path [".fasta", ".fa", ".fastq", ".fq"] ∧
        SpecEndsWith target_path [".fasta", ".fa", ".fastq", ".fq"] ∧
        SpecEndsWith overlaps_path [".mhap", ".paf", ".sam"]) := by
    rw [← sequenceReaderFor_isSome_iff, ← sequenceReaderFor_isSome_iff,
      ← overlapReaderFor_isSome_iff]
    unfold createPolisher
    cases type with
    | none => simp
    | some ty =>
      have hty : ¬ (ty ≠ PolisherType.kC ∧ ty ≠ PolisherType.kF) := by
        cases ty <;> simp
      have hty2 : some ty = some PolisherType.kC ∨ some ty = some PolisherType.kF := by
        cases ty <;> simp
      simp only [hty, if_false, hty2, true_and]
      by_cases hw : window_length = 0
      · simp [hw]
      · rw [if_neg hw]
        cases sequenceReaderFor sequences_path <;> cases overlapReaderFor overlaps_path <;>
          cases sequenceReaderFor target_path <;> simp [Nat.pos_of_ne_zero hw]
  refine ⟨?_, ?_⟩
  · rw [← key]
    exact Option.isSome_iff_exists.symm
  · intro h
    rw [← key] at h
    simpa using h
/-! ### Mode C keeps the last of the longest overlaps -/

theorem removeBody_C_lex (thr : ℚ) (b i e : Nat) (ov : List (Option Overlap))
    (hbi : b ≤ i) (hie : i < e)
    (hvalid : ∀ k o, b ≤ k → k < e → ov.getD k none = some o → o.rejected thr = false) :
    ∀ k o, b ≤ k → k < e → ov.getD k none = some o →
      ∃ k2 o2, b ≤ k2 ∧ k2 < e ∧
        (removeBody PolisherType.kC thr i e ov).getD k2 none = some o2 ∧
        (o.length < o2.length ∨ (o.length = o2.length ∧ k ≤ k2)) := by
  intro k o hbk hke hko
  cases hoi : ov.getD i none with
  | none =>
    refine ⟨k, o, hbk, hke, ?_, Or.inr ⟨rfl, le_refl _⟩⟩
    simp only [removeBody, hoi]; exact hko
  | some oi =>
    have hrej := hvalid i oi hbi hie hoi
    simp only [removeBody, hoi, hrej]
    simp only [if_true, Bool.false_eq_true, if_false]
    obtain ⟨f, d⟩ := removeInner_spec i e oi (e - (i + 1)) (i + 1) ov (by omega) (by omega) hoi
    rcases d with ⟨d1, d2⟩ | ⟨d1, kk, okk, hk1, hk2, hk3, hk4, hk5, hk6⟩
    · rcases Nat.lt_trichotomy k i with h | h | h
      · exact ⟨k, o, hbk, hke, by rw [f k (by omega) (by omega)]; exact hko,
          Or.inr ⟨rfl, le_refl _⟩⟩
      · subst h
        have hoo : o = oi := Option.some.inj (hko.symm.trans hoi)
        exact ⟨k, oi, hbk, hke, d1, Or.inr ⟨by rw [hoo], le_refl _⟩⟩
      · have := (d2 k (by omega) hke).2 o hko
        exact ⟨i, oi, hbi, hie, d1, Or.inl this⟩
    · have hkk : (removeInner i (e - (i + 1)) (i + 1) ov).getD kk none = some okk := by
        rw [hk6 kk (le_refl _)]; exact hk3
      rcases Nat.lt_trichotomy k i with h | h | h
      · exact ⟨k, o, hbk, hke, by rw [f k (by omega) (by omega)]; exact hko,
          Or.inr ⟨rfl, le_refl _⟩⟩
      · subst h
        have hoo : o = oi := Option.some.inj (hko.symm.trans hoi)
        subst hoo
        refine ⟨kk, okk, by omega, hk2, hkk, ?_⟩
        rcases Nat.lt_or_eq_of_le hk4 with h2 | h2
        · exact Or.inl h2
        · exact Or.inr ⟨h2, by omega⟩
      · by_cases h2 : k < kk
        · have := (hk5 k (by omega) h2).2 o hko
          exact ⟨kk, okk, by omega, hk2, hkk, Or.inl (by omega)⟩
        · exact ⟨k, o, hbk, hke, by rw [hk6 k (by omega)]; exact hko,
            Or.inr ⟨rfl, le_refl _⟩⟩

theorem removeOuter_C_lex (thr : ℚ) (b e : Nat) :
    ∀ (n i : Nat) (ov : List (Option Overlap)), i + n = e → b ≤ i →
      (∀ k o, b ≤ k → k < e → ov.getD k none = some o → o.rejected thr = false) →
      ∀ k o, b ≤ k → k < e → ov.getD k none = some o →
        ∃ k2 o2, b ≤ k2 ∧ k2 < e ∧
          (removeOuter PolisherType.kC thr n i e ov).getD k2 none = some o2 ∧
          (o.length < o2.length ∨ (o.length = o2.length ∧ k ≤ k2)) := by
  intro n
  induction n with
  | zero =>
    intro i ov _ _ _ k o hbk hke hko
    exact ⟨k, o, hbk, hke, hko, Or.inr ⟨rfl, le_refl _⟩⟩
  | succ n ih =>
    intro i ov hie hbi hvalid k o hbk hke hko
    simp only [removeOuter]
    have hlt : i < e := by omega
    obtain ⟨k2, o2, a1, a2, a3, a4⟩ := removeBody_C_lex thr b i e ov hbi hlt hvalid k o hbk hke hko
    have hvalid2 : ∀ k o, b ≤ k → k < e →
        (removeBody PolisherType.kC thr i e ov).getD k none = some o → o.rejected thr = false := by
      intro k o h1 h2 h3
      rcases removeBody_nulled PolisherType.kC thr i e hlt ov k with c | c
      · rw [c] at h3; exact hvalid k o h1 h2 h3
      · rw [c] at h3; exact Option.noConfusion h3
    obtain ⟨k3, o3, c1, c2, c3, c4⟩ := ih (i + 1) _ (by omega) (by omega) hvalid2 k2 o2 a1 a2 a3
    refine ⟨k3, o3, c1, c2, c3, ?_⟩
    omega

/-- C22: in mode C, for a group `[begin, end)` that holds an overlap and in which every overlap
has `error <= error_threshold` and `q_id != t_id`, `remove_invalid_overlaps` leaves exactly one
overlap of the group, unchanged and in its place: it has the maximum length of the group and
every overlap behind it in the group is strictly shorter, so among several overlaps of equal
maximum length it is the last in input order. -/
theorem remove_invalid_overlaps_kC_last_longest (thr : ℚ) (ov : List (Option Overlap))
    (b e : Nat)
    (hvalid : ∀ k o, b ≤ k → k < e → ov.getD k none = some o →
      o.error ≤ thr ∧ o.q_id ≠ o.t_id)
    (hne : ∃ k o, b ≤ k ∧ k < e ∧ ov.getD k none = some o) :
    ∃ s os, b ≤ s ∧ s < e ∧ ov.getD s none = some os ∧
      (remove_invalid_overlaps PolisherType.kC thr ov b e).getD s none = some os ∧
      (∀ k, b ≤ k → k < e → k ≠ s →
        (remove_invalid_overlaps PolisherType.kC thr ov b e).getD k none = none) ∧
      (∀ k o, b ≤ k → k < e → ov.getD k none = some o → o.length ≤ os.length) ∧
      (∀ k o, s < k → k < e → ov.getD k none = some o → o.length < os.length) := by
  obtain ⟨k0, o0, hb0, he0, hk0⟩ := hne
  have hbe : b ≤ e := by omega
  obtain ⟨_, _, _, h4⟩ := removeOuter_basic PolisherType.kC thr e (e - b) b ov (by omega)
  have hone := removeOuter_C_atMostOne thr b e (e - b) b ov (by omega)
    (fun k1 h1 h2 => by omega)
  have hlex := removeOuter_C_lex thr b e (e - b) b ov (by omega) (le_refl _)
    (fun k o h1 h2 h3 => (rejected_eq_false_iff thr o).mpr (hvalid k o h1 h2 h3))
  obtain ⟨s, os, c1, c2, c3, _⟩ := hlex k0 o0 hb0 he0 hk0
  have hsurv : (removeOuter PolisherType.kC thr (e - b) b e ov).getD s none ≠ none := by
    rw [c3]
    exact Option.some_ne_none _
  have hdom : ∀ k o, b ≤ k → k < e → ov.getD k none = some o →
      o.length < os.length ∨ (o.length = os.length ∧ k ≤ s) := by
    intro k o d1 d2 d3
    obtain ⟨k4, o4, e1, e2, e3, e4⟩ := hlex k o d1 d2 d3
    have hk : k4 = s := by
      by_contra hc
      have := hone s c1 c2 hsurv k4 e1 e2 hc
      rw [this] at e3
      exact Option.noConfusion e3
    subst hk
    rw [c3] at e3
    cases e3
    exact e4
  refine ⟨s, os, c1, c2, (h4 s os c1 c2 c3).1, c3, ?_, ?_, ?_⟩
  · intro k d1 d2 d3
    exact hone s c1 c2 hsurv k d1 d2 d3
  · intro k o d1 d2 d3
    rcases hdom k o d1 d2 d3 with h | h
    · omega
    · omega
  · intro k o d1 d2 d3
    rcases hdom k o (by omega) d2 d3 with h | h
    · exact h
    · omega

theorem remove_invalid_overlaps_kC_last_longest_witness :
    (∃ s os, 0 ≤ s ∧ s < 2 ∧
      [some (Overlap.mk 0 1 false 0 500 true []),
        some (Overlap.mk 0 1 false 0 800 true [])].getD s none = some os ∧
      (remove_invalid_overlaps PolisherType.kC 1
        [some (Overlap.mk 0 1 false 0 500 true []),
          some (Overlap.mk 0 1 false 0 800 true [])] 0 2).getD s none = some os ∧
      (∀ k, 0 ≤ k → k < 2 → k ≠ s →
        (remove_invalid_overlaps PolisherType.kC 1
          [some (Overlap.mk 0 1 false 0 500 true []),
            some (Overlap.mk 0 1 false 0 800 true [])] 0 2).getD k none = none) ∧
      (∀ k o, 0 ≤ k → k < 2 →
        [some (Overlap.mk 0 1 false 0 500 true []),
          some (Overlap.mk 0 1 false 0 800 true [])].getD k none = some o →
        o.length ≤ os.length) ∧
      (∀ k o, s < k → k < 2 →
        [some (Overlap.mk 0 1 false 0 500 true []),
          some (Overlap.mk 0 1 false 0 800 true [])].getD k none = some o →
        o.length < os.length)) ∧
    remove_invalid_overlaps PolisherType.kC 1
        [some (Overlap.mk 0 1 false 0 500 true []),
          some (Overlap.mk 0 1 false 0 800 true [])] 0 2 =
      [none, some (Overlap.mk 0 1 false 0 800 true [])] ∧
    remove_invalid_overlaps PolisherType.kC 1
        [some (Overlap.mk 0 1 false 0 800 true []),
          some (Overlap.mk 0 1 false 0 500 true [])] 0 2 =
      [some (Overlap.mk 0 1 false 0 800 true []), none] ∧
    remove_invalid_overlaps PolisherType.kC 1
        [some (Overlap.mk 0 1 false 0 700 true []),
          some (Overlap.mk 0 1 true 0 700 true [])] 0 2 =
      [none, some (Overlap.mk 0 1 true 0 700 true [])] :=
  ⟨remove_invalid_overlaps_kC_last_longest 1
      [some (Overlap.mk 0 1 false 0 500 true []), some (Overlap.mk 0 1 false 0 800 true [])]
      0 2
      (by
        intro k o _ h2 h3
        interval_cases k
        · have ho : Overlap.mk 0 1 false 0 500 true [] = o := Option.some.inj h3
          subst ho
          exact ⟨by decide, by decide⟩
        · have ho : Overlap.mk 0 1 false 0 800 true [] = o := Option.some.inj h3
          subst ho
          exact ⟨by decide, by decide⟩)
      ⟨0, Overlap.mk 0 1 false 0 500 true [], le_refl _, by decide, rfl⟩,
    by decide, by decide, by decide⟩

/-! ### Offsets of a layer inside its window -/

/-- C23: for a break-point segment with target span `[ts, te)`, `ts < te`, that lies inside a
single window (`ts / w = (te - 1) / w`, with `w > 0` and 32-bit positions), the offsets that
the layer loop passes to `Window::add_layer` are `ts mod w` and `(te - 1) mod w`, so
`begin <= end < w`: the offsets are inclusive and fall inside the window. -/
theorem layer_offsets_inside_window (w : Nat) (thr : ℚ) (F : List Nat) (sequence : Sequence)
    (o : Overlap) (s e : Nat × Nat) (windows_ : List Window) (win : Window)
    (hw : 0 < w) (hlt : s.1 < e.1) (he : e.1 < 2 ^ 32)
    (hsame : s.1 / w = (e.1 - 1) / w)
    (hpass : layerPasses w thr sequence o.strand s e = true)
    (hwin : windows_[layerWindowId w F o.t_id s]? = some win) :
    (layerOf w sequence o.strand s e).begin_ = s.1 % w ∧
    (layerOf w sequence o.strand s e).end_ = (e.1 - 1) % w ∧
    s.1 % w ≤ (e.1 - 1) % w ∧ (e.1 - 1) % w < w ∧
    (layerStep w thr F sequence o s e windows_)[layerWindowId w F o.t_id s]? =
      some (win.add_layer (layerOf w sequence o.strand s e).data
        (layerOf w sequence o.strand s e).quality (s.1 % w) ((e.1 - 1) % w)) := by
  have h1 : w * (s.1 / w) + s.1 % w = s.1 := Nat.div_add_mod _ _
  have h2 : w * ((e.1 - 1) / w) + (e.1 - 1) % w = e.1 - 1 := Nat.div_add_mod _ _
  rw [← hsame] at h2
  have h3 : (e.1 - 1) % w < w := Nat.mod_lt _ hw
  have hcomm : s.1 / w * w = w * (s.1 / w) := Nat.mul_comm _ _
  have hstart : layerWindowStart w s = w * (s.1 / w) := by
    unfold layerWindowStart
    rw [hcomm]
    exact Nat.mod_eq_of_lt (by omega)
  have hb : (layerOf w sequence o.strand s e).begin_ = s.1 % w := by
    simp only [layerOf, hstart]
    omega
  have hend : (layerOf w sequence o.strand s e).end_ = (e.1 - 1) % w := by
    simp only [layerOf, hstart]
    omega
  refine ⟨hb, hend, by omega, h3, ?_⟩
  simp only [layerStep, hpass, if_true, hwin, hb, hend]
  rw [List.getElem?_set_self]
  exact getElem?_lt_length _ _ _ hwin

theorem layer_offsets_inside_window_witness :
    (layerOf 4 (Sequence.mk ['q'] "ACGTACGTAC".toList [] [] []) false (5, 0) (8, 3)).begin_
      = 5 % 4 ∧
    (layerOf 4 (Sequence.mk ['q'] "ACGTACGTAC".toList [] [] []) false (5, 0) (8, 3)).end_
      = (8 - 1) % 4 ∧
    5 % 4 ≤ (8 - 1) % 4 ∧ (8 - 1) % 4 < 4 ∧
    (layerStep 4 10 [0] (Sequence.mk ['q'] "ACGTACGTAC".toList [] [] [])
        (Overlap.mk 1 0 false 0 3 true [(5, 0), (8, 3)]) (5, 0) (8, 3)
        [createWindow 0 0 WindowType.kTGS "ACGT".toList "!!!!".toList,
          createWindow 0 1 WindowType.kTGS "ACGT".toList "!!!!".toList])[
        layerWindowId 4 [0] 0 (5, 0)]? =
      some ((createWindow 0 1 WindowType.kTGS "ACGT".toList "!!!!".toList).add_layer
        (layerOf 4 (Sequence.mk ['q'] "ACGTACGTAC".toList [] [] []) false (5, 0) (8, 3)).data
        (layerOf 4 (Sequence.mk ['q'] "ACGTACGTAC".toList [] [] []) false (5, 0) (8, 3)).quality
        (5 % 4) ((8 - 1) % 4)) :=
  layer_offsets_inside_window 4 10 [0] (Sequence.mk ['q'] "ACGTACGTAC".toList [] [] [])
    (Overlap.mk 1 0 false 0 3 true [(5, 0), (8, 3)]) (5, 0) (8, 3)
    [createWindow 0 0 WindowType.kTGS "ACGT".toList "!!!!".toList,
      createWindow 0 1 WindowType.kTGS "ACGT".toList "!!!!".toList]
    (createWindow 0 1 WindowType.kTGS "ACGT".toList "!!!!".toList)
    (by decide) (by decide) (by decide) (by decide)
    (by
      simp [layerPasses, querySpan]
      norm_num)
    (by decide)

/-! ### The value returned by shrinkToFit -/

theorem filter_isSome_isNone_length {α : Type} (l : List (Option α)) :
    (l.filter (fun x => x.isSome)).length + (l.filter (fun x => x.isNone)).length =
      l.length := by
  induction l with
  | nil => rfl
  | cons a rest ih =>
    cases a with
    | none => simp [List.filter_cons]; omega
    | some v => simp [List.filter_cons]; omega

/-- C24: for `begin <= src.size()` (a size below `2 ^ 64`), `shrinkToFit(src, begin)` returns
the number of null entries that were at indices `>= begin`, which is the old size minus the new
size of the vector. -/
theorem shrinkToFit_returns_deletions {α : Type} (src : List (Option α)) (b : Nat)
    (hb : b ≤ src.length) (hsz : src.length < 2 ^ 64) :
    (shrinkToFit src b).2 = ((src.drop b).filter (fun x => x.isNone)).length ∧
    (shrinkToFit src b).2 = src.length - (shrinkToFit src b).1.length := by
  obtain ⟨h1, h2, h3⟩ := shrinkLoop_spec (src.length - b) src b b rfl hb hb
    (fun k hk1 hk2 => by omega)
  have hlen := congrArg List.length h3
  rw [List.length_take, Nat.min_eq_left h1, List.length_append, List.length_take,
    Nat.min_eq_left hb] at hlen
  have hcount := filter_isSome_isNone_length (src.drop b)
  rw [List.length_drop] at hcount
  have hnew : (shrinkToFit src b).1.length =
      b + ((src.drop b).filter (fun x => x.isSome)).length := by
    rw [shrinkToFit_fst_eq src b hb, List.length_append, List.length_take, Nat.min_eq_left hb]
  have hret : (shrinkToFit src b).2 =
      ((shrinkLoop (src.length - b) src b b).1.length + 2 ^ 64 -
        (shrinkLoop (src.length - b) src b b).2) % 2 ^ 64 := rfl
  rw [hret, hnew, h2, hlen]
  constructor
  · omega
  · omega

theorem shrinkToFit_returns_deletions_witness :
    (shrinkToFit [some 7, none, none, some 8, none, some 9] 1).2 =
      (([some 7, none, none, some 8, none, some 9].drop 1).filter
        (fun x => x.isNone)).length ∧
    (shrinkToFit [some 7, none, none, some 8, none, some 9] 1).2 =
      [some 7, none, none, some 8, none, some 9].length -
        (shrinkToFit [some 7, none, none, some 8, none, some 9] 1).1.length :=
  shrinkToFit_returns_deletions [some 7, none, none, some 8, none, some 9] 1 (by decide)
    (by norm_num)

/-! ### The mean quality is never a division by zero -/

/-- C25: for `window_length >= 1`, a break-point pair whose query span is 0 fails the 2% span
test, so the layer loop takes `continue` before it reaches the division by the span: the pair
is skipped whatever the qualities are and the windows are left unchanged; in other words,
where the span test lets a pair through, the divisor of the mean quality is not 0. -/
theorem zero_span_skipped_before_division (w : Nat) (thr : ℚ) (F : List Nat)
    (sequence : Sequence) (o : Overlap) (s e : Nat × Nat) (windows_ : List Window)
    (hw : 1 ≤ w) :
    (querySpan s e = 0 →
      ((querySpan s e : ℚ) < (2 / 100 : ℚ) * (w : ℚ)) ∧
      layerPasses w thr sequence o.strand s e = false ∧
      layerStep w thr F sequence o s e windows_ = windows_) ∧
    (¬ ((querySpan s e : ℚ) < (2 / 100 : ℚ) * (w : ℚ)) → querySpan s e ≠ 0) := by
  have hpos : (0 : ℚ) < (2 / 100 : ℚ) * (w : ℚ) := by
    have hw2 : (1 : ℚ) ≤ (w : ℚ) := by exact_mod_cast hw
    nlinarith
  have hzero : querySpan s e = 0 → ((querySpan s e : ℚ) < (2 / 100 : ℚ) * (w : ℚ)) := by
    intro h
    rw [h]
    exact_mod_cast hpos
  refine ⟨?_, ?_⟩
  · intro h
    have hlt := hzero h
    have hp : layerPasses w thr sequence o.strand s e = false := by
      simp only [layerPasses, hlt, if_true]
    refine ⟨hlt, hp, ?_⟩
    simp only [layerStep, hp]
    rfl
  · intro hnot h
    exact hnot (hzero h)

theorem zero_span_skipped_before_division_witness :
    querySpan (3, 7) (9, 7) = 0 ∧
    layerPasses 1 10 (Sequence.mk ['q'] ['A'] [] ['5'] []) false (3, 7) (9, 7) = false ∧
    layerStep 1 10 [0] (Sequence.mk ['q'] ['A'] [] ['5'] [])
      (Overlap.mk 1 0 false 0 1 true [(3, 7), (9, 7)]) (3, 7) (9, 7)
      [createWindow 0 0 WindowType.kTGS ['A'] ['!']] =
      [createWindow 0 0 WindowType.kTGS ['A'] ['!']] :=
  ⟨by decide,
    ((zero_span_skipped_before_division 1 10 [0] (Sequence.mk ['q'] ['A'] [] ['5'] [])
      (Overlap.mk 1 0 false 0 1 true [(3, 7), (9, 7)]) (3, 7) (9, 7)
      [createWindow 0 0 WindowType.kTGS ['A'] ['!']] (by decide)).1 (by decide)).2⟩

end racon

namespace preqclr

/-! ### calculate_tot_bases -/

theorem read_lengths_replicate_aux (r : Nat) (n c : Nat) :
    (List.replicate n r).foldl (fun bins read_len => binRead (read_len % 2 ^ 32) bins)
      [(r % 2 ^ 32, c)] = [(r % 2 ^ 32, c + n)] := by
  induction n generalizing c with
  | zero => rfl
  | succ n ih =>
    rw [List.replicate_succ, List.foldl_cons]
    simp only [binRead, if_true]
    rw [ih (c + 1)]
    congr 2
    omega

theorem read_lengths_replicate (r n : Nat) :
    read_lengths (List.replicate (n + 1) r) = [(r % 2 ^ 32, n + 1)] := by
  unfold read_lengths
  rw [List.replicate_succ, List.foldl_cons]
  simp only [binRead]
  rw [read_lengths_replicate_aux r n 1]
  congr 2
  omega

/-- C18 (refuted on the code): the guard of `calculate_tot_bases` lets a running total above
`INT_MAX` through. For one read of length 3000000000, and for 30000 reads of length 100000,
`INT_MAX - nb` wraps around in `unsigned long long`, the addition is admitted and the value
3000000000 is handed to `writer->Int`, which writes it as the `int` -1294967296. -/
theorem calculate_tot_bases_writes_above_int_max :
    calculate_tot_bases [3000000000] = some [(3000000000, 3000000000)] ∧
    calculate_tot_bases (List.replicate 30000 100000) = some [(100000, 3000000000)] ∧
    INT_MAX < 3000000000 ∧ asInt 3000000000 = -1294967296 := by
  refine ⟨by decide, ?_, by decide, by decide⟩
  unfold calculate_tot_bases
  rw [read_lengths_replicate 100000 29999]
  decide
theorem binRead_keys_mem (r : Nat) (bins : List (Nat × Nat)) (k : Nat) :
    k ∈ (binRead r bins).map Prod.fst ↔ k = r ∨ k ∈ bins.map Prod.fst := by
  induction bins with
  | nil => simp [binRead]
  | cons p rest ih =>
    obtain ⟨k1, c1⟩ := p
    simp only [binRead]
    split
    · rename_i h
      subst h
      simp
    · split
      · simp
      · simp only [List.map_cons, List.mem_cons, ih]
        tauto

theorem binRead_sorted (r : Nat) (bins : List (Nat × Nat))
    (h : (bins.map Prod.fst).Pairwise (fun a b => a > b)) :
    ((binRead r bins).map Prod.fst).Pairwise (fun a b => a > b) := by
  induction bins with
  | nil => simp [binRead]
  | cons p rest ih =>
    obtain ⟨k1, c1⟩ := p
    simp only [List.map_cons, List.pairwise_cons] at h
    simp only [binRead]
    split
    · simp only [List.map_cons, List.pairwise_cons]
      exact h
    · rename_i hne
      split
      · rename_i hlt
        simp only [List.map_cons, List.pairwise_cons, List.mem_cons]
        refine ⟨?_, h⟩
        intro a ha
        rcases ha with ha | ha
        · omega
        · have := h.1 a ha
          omega
      · rename_i hge
        simp only [List.map_cons, List.pairwise_cons]
        refine ⟨?_, ih h.2⟩
        intro a ha
        rcases (binRead_keys_mem r rest a).mp ha with ha | ha
        · omega
        · exact h.1 a ha

theorem binBases_cons (k c : Nat) (bs : List (Nat × Nat)) (L : Nat) :
    binBases ((k, c) :: bs) L = (if L ≤ k then k * c else 0) + binBases bs L := by
  by_cases h : L ≤ k
  · simp [binBases, List.filter_cons, h]
  · simp [binBases, List.filter_cons, h]

theorem binBases_nil (L : Nat) : binBases [] L = 0 := rfl

theorem binRead_bases (r : Nat) (bins : List (Nat × Nat)) (L : Nat) :
    binBases (binRead r bins) L = binBases bins L + if L ≤ r then r else 0 := by
  induction bins with
  | nil =>
    simp only [binRead, binBases_cons, binBases_nil]
    split <;> omega
  | cons p rest ih =>
    obtain ⟨k1, c1⟩ := p
    simp only [binRead]
    split
    · rename_i h
      subst h
      simp only [binBases_cons]
      split
      · rw [Nat.mul_add]
        omega
      · omega
    · split
      · simp only [binBases_cons]
        split <;> omega
      · simp only [binBases_cons, ih]
        omega

theorem binRead_counts (r : Nat) (bins : List (Nat × Nat)) :
    ((binRead r bins).map Prod.snd).sum = (bins.map Prod.snd).sum + 1 := by
  induction bins with
  | nil => simp [binRead]
  | cons p rest ih =>
    obtain ⟨k1, c1⟩ := p
    simp only [binRead]
    split
    · simp; omega
    · split
      · simp; omega
      · simp only [List.map_cons, List.sum_cons, ih]
        omega

/-- The bins after the first loop, started from the bins `init`, when every read length fits
in 32 bits. -/
theorem read_lengths_fold (reads : List Nat) (hr : ∀ r ∈ reads, r < 2 ^ 32) :
    ∀ init : List (Nat × Nat), (init.map Prod.fst).Pairwise (fun a b => a > b) →
      ((reads.foldl (fun bins read_len => binRead (read_len % 2 ^ 32) bins) init).map
          Prod.fst).Pairwise (fun a b => a > b) ∧
      (∀ k, k ∈ (reads.foldl (fun bins read_len => binRead (read_len % 2 ^ 32) bins) init).map
          Prod.fst ↔ k ∈ reads ∨ k ∈ init.map Prod.fst) ∧
      (∀ L, binBases (reads.foldl (fun bins read_len => binRead (read_len % 2 ^ 32) bins) init) L
          = binBases init L + (reads.filter (fun r => decide (L ≤ r))).sum) ∧
      ((reads.foldl (fun bins read_len => binRead (read_len % 2 ^ 32) bins) init).map
          Prod.snd).sum = (init.map Prod.snd).sum + reads.length := by
  induction reads with
  | nil =>
    intro init h
    simp [h]
  | cons r rest ih =>
    intro init h
    have hr1 : r % 2 ^ 32 = r := Nat.mod_eq_of_lt (hr r (List.mem_cons_self _ _))
    obtain ⟨h1, h2, h3, h4⟩ := ih (fun x hx => hr x (List.mem_cons_of_mem _ hx))
      (binRead r init) (binRead_sorted r init h)
    rw [List.foldl_cons, hr1]
    refine ⟨h1, ?_, ?_, ?_⟩
    · intro k
      rw [h2 k, binRead_keys_mem, List.mem_cons]
      tauto
    · intro L
      rw [h3 L, binRead_bases]
      by_cases hL : L ≤ r
      · simp only [List.filter_cons, hL, decide_True, if_true, List.sum_cons]
        omega
      · simp only [List.filter_cons, hL, decide_False, if_false]
        simp
    · rw [h4, binRead_counts, List.length_cons]
      omega
theorem mem_le_sum (l : List Nat) (a : Nat) (h : a ∈ l) : a ≤ l.sum := by
  induction l with
  | nil => cases h
  | cons b rest ih =>
    rw [List.sum_cons]
    rcases List.mem_cons.mp h with h1 | h1
    · omega
    · have := ih h1
      omega

theorem totBasesLoop_eq_runningTotals :
    ∀ (bins : List (Nat × Nat)) (tot : Nat), (∀ p ∈ bins, p.2 ≤ INT_MAX) →
      tot + binBases bins 0 ≤ INT_MAX → totBasesLoop bins tot = runningTotals bins tot := by
  intro bins
  induction bins with
  | nil => intro tot _ _; rfl
  | cons p rest ih =>
    intro tot hc hsum
    obtain ⟨k, c⟩ := p
    have hc1 : c ≤ INT_MAX := hc (k, c) (List.mem_cons_self _ _)
    rw [binBases_cons, if_pos (Nat.zero_le _)] at hsum
    unfold INT_MAX at hc1 hsum
    have hcm : c % 2 ^ 32 = c := Nat.mod_eq_of_lt (by omega)
    have hb : basesOfBin k c = k * c := by
      unfold basesOfBin
      rw [hcm]
      exact Nat.mod_eq_of_lt (by omega)
    have hg : guardPasses (k * c) tot = true := by
      unfold guardPasses INT_MAX
      apply decide_eq_true
      right
      have : (2147483647 + 2 ^ 64 - k * c) % 2 ^ 64 = 2147483647 - k * c := by
        have h1 : 2147483647 + 2 ^ 64 - k * c = (2147483647 - k * c) + 2 ^ 64 := by omega
        rw [h1, Nat.add_mod_right]
        exact Nat.mod_eq_of_lt (by omega)
      rw [this]
      omega
    have ht : (tot + k * c) % 2 ^ 64 = tot + k * c := Nat.mod_eq_of_lt (by omega)
    simp only [totBasesLoop, hb, hg, if_true, ht, runningTotals]
    rw [ih (tot + k * c) (fun p hp => hc p (List.mem_cons_of_mem _ hp))
      (by unfold INT_MAX; omega)]

theorem runningTotals_keys :
    ∀ (bins : List (Nat × Nat)) (tot : Nat),
      (runningTotals bins tot).map Prod.fst = bins.map Prod.fst := by
  intro bins
  induction bins with
  | nil => intro tot; rfl
  | cons p rest ih =>
    intro tot
    obtain ⟨k, c⟩ := p
    simp only [runningTotals, List.map_cons, ih]

theorem binBases_eq_zero (bins : List (Nat × Nat)) (L : Nat)
    (h : ∀ a ∈ bins.map Prod.fst, a < L) : binBases bins L = 0 := by
  induction bins with
  | nil => rfl
  | cons p rest ih =>
    obtain ⟨k, c⟩ := p
    have hk : k < L := h k (by simp)
    rw [binBases_cons, if_neg (by omega), ih (fun a ha => h a (by simp [ha]))]

theorem runningTotals_mem :
    ∀ (bins : List (Nat × Nat)) (tot : Nat),
      (bins.map Prod.fst).Pairwise (fun a b => a > b) →
      ∀ L v, (L, v) ∈ runningTotals bins tot → v = tot + binBases bins L := by
  intro bins
  induction bins with
  | nil => intro tot _ L v h; cases h
  | cons p rest ih =>
    intro tot hs L v h
    obtain ⟨k, c⟩ := p
    simp only [List.map_cons, List.pairwise_cons] at hs
    simp only [runningTotals, List.mem_cons] at h
    rcases h with h | h
    · obtain ⟨h1, h2⟩ := Prod.mk.inj h
      subst h1
      rw [binBases_cons, if_pos (le_refl _), binBases_eq_zero rest L (fun a ha => hs.1 a ha)]
      omega
    · have hv := ih (tot + k * c) hs.2 L v h
      have hL : L ∈ rest.map Prod.fst := by
        rw [← runningTotals_keys rest (tot + k * c)]
        exact List.mem_map.mpr ⟨(L, v), h, rfl⟩
      have hlt := hs.1 L hL
      rw [binBases_cons, if_pos (by omega)]
      omega

/-- C19: for reads whose total number of bases is at most `INT_MAX` (and whose number is at
most `INT_MAX`, so that no `int` counter of a bin overflows), `calculate_tot_bases` writes its
entries in strictly decreasing order of read length, the keys written are exactly the read
lengths that occur, hence one entry per distinct read length, and the value written for the
cut-off `L` is the sum of the lengths of all reads whose length is at least `L`. -/
theorem calculate_tot_bases_totals (reads : List Nat) (hsum : reads.sum ≤ INT_MAX)
    (hcount : reads.length ≤ INT_MAX) :
    ∃ out, calculate_tot_bases reads = some out ∧
      (out.map Prod.fst).Pairwise (fun a b => a > b) ∧
      (∀ L, L ∈ out.map Prod.fst ↔ L ∈ reads) ∧
      ∀ L v, (L, v) ∈ out → v = (reads.filter (fun r => decide (L ≤ r))).sum := by
  have hr : ∀ r ∈ reads, r < 2 ^ 32 := by
    intro r hr
    have := mem_le_sum reads r hr
    unfold INT_MAX at hsum
    omega
  obtain ⟨h1, h2, h3, h4⟩ := read_lengths_fold reads hr [] List.Pairwise.nil
  have hcounts : ∀ p ∈ read_lengths reads, p.2 ≤ INT_MAX := by
    intro p hp
    have := mem_le_sum ((read_lengths reads).map Prod.snd) p.2 (List.mem_map.mpr ⟨p, hp, rfl⟩)
    unfold read_lengths at this
    rw [h4] at this
    simp only [List.map_nil, List.sum_nil, Nat.zero_add] at this
    omega
  have htotal : 0 + binBases (read_lengths reads) 0 ≤ INT_MAX := by
    unfold read_lengths
    rw [h3 0]
    simpa [binBases] using hsum
  have hall : (read_lengths reads).all (fun p => decide (p.2 ≤ INT_MAX)) = true := by
    rw [List.all_eq_true]
    intro p hp
    exact decide_eq_true (hcounts p hp)
  refine ⟨runningTotals (read_lengths reads) 0, ?_, ?_, ?_, ?_⟩
  · unfold calculate_tot_bases
    rw [hall, if_pos rfl, totBasesLoop_eq_runningTotals _ 0 hcounts htotal]
  · rw [runningTotals_keys]
    exact h1
  · intro L
    rw [runningTotals_keys]
    unfold read_lengths
    rw [h2 L]
    simp
  · intro L v hv
    have := runningTotals_mem (read_lengths reads) 0 h1 L v hv
    unfold read_lengths at this
    rw [h3 L] at this
    simpa [binBases] using this

theorem calculate_tot_bases_totals_witness :
    ∃ out, calculate_tot_bases [5, 3, 5, 7] = some out ∧
      (out.map Prod.fst).Pairwise (fun a b => a > b) ∧
      (∀ L, L ∈ out.map Prod.fst ↔ L ∈ [5, 3, 5, 7]) ∧
      ∀ L v, (L, v) ∈ out → v = ([5, 3, 5, 7].filter (fun r => decide (L ≤ r))).sum :=
  calculate_tot_bases_totals [5, 3, 5, 7] (by decide) (by decide)
/-! ### calculate_ngx -/

theorem mapInsert_keys_mem (k v : Nat) (m : List (Nat × Nat)) (a : Nat) :
    a ∈ (mapInsert k v m).map Prod.fst ↔ a = k ∨ a ∈ m.map Prod.fst := by
  induction m with
  | nil => simp [mapInsert]
  | cons p rest ih =>
    obtain ⟨k1, v1⟩ := p
    simp only [mapInsert]
    split
    · rename_i h
      subst h
      simp
    · split
      · simp
      · simp only [List.map_cons, List.mem_cons, ih]
        tauto

theorem mapInsert_sorted (k v : Nat) (m : List (Nat × Nat))
    (h : (m.map Prod.fst).Pairwise (fun a b => a < b)) :
    ((mapInsert k v m).map Prod.fst).Pairwise (fun a b => a < b) := by
  induction m with
  | nil => simp [mapInsert]
  | cons p rest ih =>
    obtain ⟨k1, v1⟩ := p
    simp only [List.map_cons, List.pairwise_cons] at h
    simp only [mapInsert]
    split
    · simp only [List.map_cons, List.pairwise_cons]
      exact h
    · rename_i hne
      split
      · rename_i hlt
        simp only [List.map_cons, List.pairwise_cons, List.mem_cons]
        refine ⟨?_, h⟩
        intro a ha
        rcases ha with ha | ha
        · omega
        · have := h.1 a ha
          omega
      · rename_i hge
        simp only [List.map_cons, List.pairwise_cons]
        refine ⟨?_, ih h.2⟩
        intro a ha
        rcases (mapInsert_keys_mem k v rest a).mp ha with ha | ha
        · omega
        · exact h.1 a ha

theorem mapInsert_of_mem (k v : Nat) (m : List (Nat × Nat))
    (hs : (m.map Prod.fst).Pairwise (fun a b => a < b)) (hk : k ∈ m.map Prod.fst) :
    mapInsert k v m = m := by
  induction m with
  | nil => simp at hk
  | cons p rest ih =>
    obtain ⟨k1, v1⟩ := p
    simp only [List.map_cons, List.pairwise_cons] at hs
    simp only [List.map_cons, List.mem_cons] at hk
    simp only [mapInsert]
    split
    · rfl
    · rename_i hne
      have hk2 : k ∈ rest.map Prod.fst := by
        rcases hk with hk | hk
        · exact absurd hk.symm hne
        · exact hk
      have hlt := hs.1 k hk2
      rw [if_neg (by omega), ih hs.2 hk2]

theorem mapInsert_mem (k v : Nat) (m : List (Nat × Nat)) (p : Nat × Nat)
    (h : p ∈ mapInsert k v m) : p = (k, v) ∨ p ∈ m := by
  induction m with
  | nil =>
    simp only [mapInsert, List.mem_singleton] at h
    exact Or.inl h
  | cons q rest ih =>
    obtain ⟨k1, v1⟩ := q
    simp only [mapInsert] at h
    split at h
    · exact Or.inr h
    · split at h
      · rcases List.mem_cons.mp h with h1 | h1
        · exact Or.inl h1
        · exact Or.inr h1
      · rcases List.mem_cons.mp h with h1 | h1
        · exact Or.inr (h1 ▸ List.mem_cons_self _ _)
        · rcases ih h1 with h2 | h2
          · exact Or.inl h2
          · exact Or.inr (List.mem_cons_of_mem _ h2)

theorem mapInsert_mono (k v : Nat) (m : List (Nat × Nat)) (p : Nat × Nat) (h : p ∈ m) :
    p ∈ mapInsert k v m := by
  induction m with
  | nil => cases h
  | cons q rest ih =>
    obtain ⟨k1, v1⟩ := q
    simp only [mapInsert]
    split
    · exact h
    · split
      · exact List.mem_cons_of_mem _ h
      · rcases List.mem_cons.mp h with h1 | h1
        · exact h1 ▸ List.mem_cons_self _ _
        · exact List.mem_cons_of_mem _ (ih h1)

theorem mapInsert_new (k v : Nat) (m : List (Nat × Nat)) (h : k ∉ m.map Prod.fst) :
    (k, v) ∈ mapInsert k v m := by
  induction m with
  | nil => simp [mapInsert]
  | cons q rest ih =>
    obtain ⟨k1, v1⟩ := q
    simp only [List.map_cons, List.mem_cons, not_or] at h
    simp only [mapInsert]
    rw [if_neg (fun hc => h.1 hc.symm)]
    split
    · exact List.mem_cons_self _ _
    · exact List.mem_cons_of_mem _ (ih h.2)

theorem gxLoop_mono (key : Nat → Nat) :
    ∀ (n x0 : Nat) (gx0 : List (Nat × Nat)) (p : Nat × Nat), p ∈ gx0 →
      p ∈ gxLoop key n x0 gx0 := by
  intro n
  induction n with
  | zero => intro x0 gx0 p h; exact h
  | succ n ih =>
    intro x0 gx0 p h
    simp only [gxLoop]
    exact ih (x0 + 1) _ p (mapInsert_mono _ _ _ _ h)

/-- The map `gx` stores the threshold of every `x` that no smaller `x` shares it with. -/
theorem gxLoop_stores (key : Nat → Nat) :
    ∀ (n x0 : Nat) (gx0 : List (Nat × Nat)),
      (∀ p ∈ gx0, ∃ x2, x2 < x0 ∧ p.1 = key x2) →
      ∀ x, x0 ≤ x → x < x0 + n → (∀ x2, x2 < x → key x2 ≠ key x) →
        (key x, x) ∈ gxLoop key n x0 gx0 := by
  intro n
  induction n with
  | zero => intro x0 gx0 _ x h1 h2; omega
  | succ n ih =>
    intro x0 gx0 hinv x h1 h2 hfirst
    simp only [gxLoop]
    rcases Nat.eq_or_lt_of_le h1 with h | h
    · subst h
      apply gxLoop_mono
      apply mapInsert_new
      intro hc
      obtain ⟨p, hp, hpk⟩ := List.mem_map.mp hc
      obtain ⟨x2, hx2, hk⟩ := hinv p hp
      exact hfirst x2 hx2 (by rw [← hk, hpk])
    · apply ih (x0 + 1) _ _ x (by omega) (by omega) hfirst
      intro p hp
      rcases mapInsert_mem _ _ _ _ hp with h3 | h3
      · exact ⟨x0, by omega, by rw [h3]⟩
      · obtain ⟨x2, hx2, hk⟩ := hinv p h3
        exact ⟨x2, by omega, hk⟩

theorem gxLoop_mem (key : Nat → Nat) :
    ∀ (n x0 : Nat) (gx0 : List (Nat × Nat)) (p : Nat × Nat), p ∈ gxLoop key n x0 gx0 →
      p ∈ gx0 ∨ (p.1 = key p.2 ∧ x0 ≤ p.2 ∧ p.2 < x0 + n) := by
  intro n
  induction n with
  | zero => intro x0 gx0 p h; exact Or.inl h
  | succ n ih =>
    intro x0 gx0 p h
    simp only [gxLoop] at h
    rcases ih (x0 + 1) _ p h with h1 | ⟨h1, h2, h3⟩
    · rcases mapInsert_mem _ _ _ _ h1 with h2 | h2
      · right
        subst h2
        exact ⟨rfl, le_refl _, by omega⟩
      · exact Or.inl h2
    · exact Or.inr ⟨h1, by omega, by omega⟩

/-- The inner loop of `calculate_ngx` keeps the map sorted, never drops a key, adds only
entries `(x, c)` for thresholds in the window whose `x` was not stored yet, and stores every `x`
whose threshold lies in the window. -/
theorem ngxInner_spec (start end_ c : Nat) (Q : Nat → Nat → Prop) :
    ∀ (g m : List (Nat × Nat)),
      (m.map Prod.fst).Pairwise (fun a b => a < b) →
      (∀ q ∈ m, Q q.1 q.2) →
      (∀ p ∈ g, start ≤ p.1 → p.1 ≤ end_ → p.2 ∉ m.map Prod.fst → Q p.2 c) →
      ((ngxInner g start end_ c m).map Prod.fst).Pairwise (fun a b => a < b) ∧
      (∀ q ∈ ngxInner g start end_ c m, Q q.1 q.2) ∧
      (∀ a ∈ m.map Prod.fst, a ∈ (ngxInner g start end_ c m).map Prod.fst) ∧
      (∀ p ∈ g, start ≤ p.1 → p.1 ≤ end_ → p.2 ∈ (ngxInner g start end_ c m).map Prod.fst) := by
  intro g
  induction g with
  | nil =>
    intro m hs hq _
    exact ⟨hs, hq, fun a ha => ha, fun p hp => by cases hp⟩
  | cons p g ih =>
    intro m hs hq hnew
    have hstep : ngxInner (p :: g) start end_ c m =
        ngxInner g start end_ c
          (if start ≤ p.1 ∧ p.1 ≤ end_ then mapInsert p.2 c m else m) := rfl
    rw [hstep]
    by_cases hcond : start ≤ p.1 ∧ p.1 ≤ end_
    · rw [if_pos hcond]
      have hs1 := mapInsert_sorted p.2 c m hs
      have hq1 : ∀ q ∈ mapInsert p.2 c m, Q q.1 q.2 := by
        intro q hq1
        by_cases hin : p.2 ∈ m.map Prod.fst
        · rw [mapInsert_of_mem p.2 c m hs hin] at hq1
          exact hq q hq1
        · rcases mapInsert_mem _ _ _ _ hq1 with h1 | h1
          · subst h1
            exact hnew p (List.mem_cons_self _ _) hcond.1 hcond.2 hin
          · exact hq q h1
      have hkeys : ∀ a ∈ m.map Prod.fst, a ∈ (mapInsert p.2 c m).map Prod.fst :=
        fun a ha => (mapInsert_keys_mem p.2 c m a).mpr (Or.inr ha)
      obtain ⟨r1, r2, r3, r4⟩ := ih (mapInsert p.2 c m) hs1 hq1
        (fun p2 hp2 h1 h2 h3 => hnew p2 (List.mem_cons_of_mem _ hp2) h1 h2
          (fun hc => h3 (hkeys _ hc)))
      refine ⟨r1, r2, fun a ha => r3 a (hkeys a ha), ?_⟩
      intro p2 hp2 h1 h2
      rcases List.mem_cons.mp hp2 with h3 | h3
      · subst h3
        exact r3 _ ((mapInsert_keys_mem p2.2 c m p2.2).mpr (Or.inl rfl))
      · exact r4 p2 h3 h1 h2
    · rw [if_neg hcond]
      obtain ⟨r1, r2, r3, r4⟩ := ih m hs hq
        (fun p2 hp2 h1 h2 h3 => hnew p2 (List.mem_cons_of_mem _ hp2) h1 h2 h3)
      refine ⟨r1, r2, r3, ?_⟩
      intro p2 hp2 h1 h2
      rcases List.mem_cons.mp hp2 with h3 | h3
      · subst h3
        exact absurd ⟨h1, h2⟩ hcond
      · exact r4 p2 h3 h1 h2
theorem take_sum_le (l : List Nat) (n : Nat) : (l.take n).sum ≤ l.sum := by
  have h := congrArg List.sum (List.take_append_drop n l)
  rw [List.sum_append] at h
  omega

/-- The outer loop of `calculate_ngx`: every entry it holds at the end names the first contig at
which the cumulative length reaches the threshold of its `x`. -/
theorem ngxLoop_spec (key : Nat → Nat) (gx : List (Nat × Nat)) (sorted : List Nat)
    (hgx : ∀ p ∈ gx, p.1 = key p.2 ∧ p.2 ≤ 100) :
    ∀ (rest pre : List Nat) (ngx : List (Nat × Nat)),
      sorted = pre ++ rest →
      pre.sum + rest.sum ≤ INT_MAX →
      (ngx.map Prod.fst).Pairwise (fun a b => a < b) →
      (∀ q ∈ ngx, FirstReaching key sorted q.1 q.2) →
      (pre ≠ [] → ∀ p ∈ gx, p.1 ≤ pre.sum → p.2 ∈ ngx.map Prod.fst) →
      ∃ out, ngxLoop gx rest pre.sum pre.sum ngx = some out ∧
        (∀ q ∈ out, FirstReaching key sorted q.1 q.2) ∧
        (out.map Prod.fst).Pairwise (fun a b => a < b) ∧
        (sorted ≠ [] → ∀ p ∈ gx, p.1 ≤ sorted.sum → p.2 ∈ out.map Prod.fst) := by
  intro rest
  induction rest with
  | nil =>
    intro pre ngx hsplit _ hs hq hb
    rw [List.append_nil] at hsplit
    refine ⟨ngx, rfl, hq, hs, ?_⟩
    intro hne p hp hle
    rw [hsplit] at hne hle
    exact hb hne p hp hle
  | cons c rest ih =>
    intro pre ngx hsplit hsum hs hq hb
    rw [List.sum_cons] at hsum
    have hguard : ¬ pre.sum + c > INT_MAX := by omega
    have hget : sorted[pre.length]? = some c := by
      rw [hsplit, List.getElem?_append_right (le_refl _)]
      simp
    have htake : sorted.take (pre.length + 1) = pre ++ [c] := by
      rw [hsplit, List.take_append_eq_append_take]
      simp
    have hnew : ∀ p ∈ gx, pre.sum ≤ p.1 → p.1 ≤ pre.sum + c → p.2 ∉ ngx.map Prod.fst →
        FirstReaching key sorted p.2 c := by
      intro p hp h1 h2 h3
      obtain ⟨hk, hx⟩ := hgx p hp
      refine ⟨hx, pre.length, hget, ?_, ?_⟩
      · rw [htake, List.sum_append, ← hk]
        simpa using h2
      · intro i2 hi2
        have hpre : pre ≠ [] := by
          intro hnil
          rw [hnil] at hi2
          exact absurd hi2 (Nat.not_lt_zero _)
        have hlt : pre.sum < p.1 := by
          by_contra hc
          exact h3 (hb hpre p hp (by omega))
        have htk : sorted.take (i2 + 1) = pre.take (i2 + 1) := by
          rw [hsplit, List.take_append_of_le_length (by omega)]
        rw [htk, ← hk]
        exact lt_of_le_of_lt (take_sum_le pre (i2 + 1)) hlt
    obtain ⟨r1, r2, r3, r4⟩ := ngxInner_spec pre.sum (pre.sum + c) c
      (FirstReaching key sorted) gx ngx hs hq hnew
    have hsum2 : (pre ++ [c]).sum = pre.sum + c := by simp
    have hrun := ih (pre ++ [c]) (ngxInner gx pre.sum (pre.sum + c) c ngx)
      (by rw [hsplit]; simp) (by rw [hsum2]; omega) r1 r2
      (by
        intro _ p hp hle
        rw [hsum2] at hle
        by_cases hpre : pre = []
        · exact r4 p hp (by rw [hpre]; simp) hle
        · by_cases hle2 : p.1 ≤ pre.sum
          · exact r3 _ (hb hpre p hp hle2)
          · exact r4 p hp (by omega) hle)
    rw [hsum2] at hrun
    simp only [ngxLoop, if_neg hguard]
    exact hrun

/-- C20: for non-negative contig lengths whose sum is at most `INT_MAX` (so that the `int`
sums do not overflow), and whatever thresholds `key x` the map `gx` stores, `calculate_ngx`
reports its entries in increasing order of `x`, one entry at most for an `x`; every entry
`(x, v)` it reports has `x` in `0..100` and `v` is the length of the first contig, in descending
order of length, at which the cumulative contig length reaches at least the threshold `key x`:
the cumulative length up to that contig is at least `key x` and the cumulative length up to
every earlier contig is below it. An entry is reported for every `x` in `0..100` whose
threshold is shared by no smaller `x` and is at most the total contig length. -/
theorem calculate_ngx_first_contig (contig_lengths : List Nat) (key : Nat → Nat)
    (hsum : contig_lengths.sum ≤ INT_MAX) :
    ∃ out, calculate_ngx contig_lengths key = some out ∧
      (sortDescending contig_lengths).Pairwise (fun a b => b ≤ a) ∧
      (sortDescending contig_lengths).Perm contig_lengths ∧
      (∀ x v, (x, v) ∈ out → x ≤ 100 ∧
        ∃ i, (sortDescending contig_lengths)[i]? = some v ∧
          key x ≤ ((sortDescending contig_lengths).take (i + 1)).sum ∧
          ∀ i2, i2 < i → ((sortDescending contig_lengths).take (i2 + 1)).sum < key x) ∧
      (out.map Prod.fst).Pairwise (fun a b => a < b) ∧
      (∀ x, x ≤ 100 → (∀ x2, x2 < x → key x2 ≠ key x) → contig_lengths ≠ [] →
        key x ≤ contig_lengths.sum → ∃ v, (x, v) ∈ out) := by
  haveI : IsTotal Nat (fun a b => b ≤ a) := ⟨fun a b => Nat.le_total b a⟩
  haveI : IsTrans Nat (fun a b => b ≤ a) := ⟨fun _ _ _ h1 h2 => Nat.le_trans h2 h1⟩
  have hperm : (sortDescending contig_lengths).Perm contig_lengths :=
    List.perm_insertionSort _ _
  have hsorted : (sortDescending contig_lengths).Pairwise (fun a b => b ≤ a) :=
    List.sorted_insertionSort _ _
  have hgx : ∀ p ∈ gxLoop key 101 0 [], p.1 = key p.2 ∧ p.2 ≤ 100 := by
    intro p hp
    rcases gxLoop_mem key 101 0 [] p hp with h | ⟨h1, _, h3⟩
    · cases h
    · exact ⟨h1, by omega⟩
  obtain ⟨out, hrun, hout, hkeys, hall⟩ := ngxLoop_spec key (gxLoop key 101 0 [])
    (sortDescending contig_lengths) hgx (sortDescending contig_lengths) [] []
    rfl (by rw [List.sum_nil, Nat.zero_add, hperm.sum_eq]; exact hsum) List.Pairwise.nil
    (fun q hq => by cases hq) (fun h => absurd rfl h)
  refine ⟨out, hrun, hsorted, hperm, fun x v h => hout (x, v) h, hkeys, ?_⟩
  intro x hx hfirst hne hle
  have hstored : (key x, x) ∈ gxLoop key 101 0 [] :=
    gxLoop_stores key 101 0 [] (fun p hp => by cases hp) x (Nat.zero_le _) (by omega) hfirst
  have hsne : sortDescending contig_lengths ≠ [] := by
    intro hc
    rw [hc] at hperm
    exact hne hperm.symm.eq_nil
  have hmem := hall hsne (key x, x) hstored (by rw [hperm.sum_eq]; exact hle)
  obtain ⟨q, hq, hqx⟩ := List.mem_map.mp hmem
  have hqx2 : q.1 = x := hqx
  exact ⟨q.2, by rw [← hqx2]; exact hq⟩

set_option maxRecDepth 100000 in
theorem calculate_ngx_first_contig_witness :
    calculate_ngx [30, 50, 20] (fun x => x / 50 * 60) = some [(0, 50), (50, 30)] ∧
    ∃ out, calculate_ngx [30, 50, 20] (fun x => x / 50 * 60) = some out ∧
      (sortDescending [30, 50, 20]).Pairwise (fun a b => b ≤ a) ∧
      (sortDescending [30, 50, 20]).Perm [30, 50, 20] ∧
      (∀ x v, (x, v) ∈ out → x ≤ 100 ∧
        ∃ i, (sortDescending [30, 50, 20])[i]? = some v ∧
          (fun x => x / 50 * 60) x ≤ ((sortDescending [30, 50, 20]).take (i + 1)).sum ∧
          ∀ i2, i2 < i → ((sortDescending [30, 50, 20]).take (i2 + 1)).sum <
            (fun x => x / 50 * 60) x) ∧
      (out.map Prod.fst).Pairwise (fun a b => a < b) ∧
      (∀ x, x ≤ 100 →
        (∀ x2, x2 < x → (fun x => x / 50 * 60) x2 ≠ (fun x => x / 50 * 60) x) →
        [30, 50, 20] ≠ [] → (fun x => x / 50 * 60) x ≤ [30, 50, 20].sum →
        ∃ v, (x, v) ∈ out) :=
  ⟨by decide, calculate_ngx_first_contig [30, 50, 20] (fun x => x / 50 * 60) (by decide)⟩
/-! ### parse_paf: the overlap length -/

/-- C26 (refuted on the code): for the PAF record `q 100 0 100 + t 1000 0 100`, whose query
is aligned up to its end, `qsuffix_len = qlen - qend - 1` wraps around to `2 ^ 32 - 1`, the
right clip becomes the target suffix 899 and the overlap length 999 exceeds `qlen = 100`: the
record adds 999/100 to the coverage of the query read. -/
theorem parse_paf_overlap_exceeds_read_length :
    qsuffix_len (PafRecord.mk ['q'] 100 0 100 0 ['t'] 1000 0 100) = 4294967295 ∧
    right_clip (PafRecord.mk ['q'] 100 0 100 0 ['t'] 1000 0 100) = 899 ∧
    overlap_len (PafRecord.mk ['q'] 100 0 100 0 ['t'] 1000 0 100) = 999 ∧
    (parse_paf [PafRecord.mk ['q'] 100 0 100 0 ['t'] 1000 0 100]).map
        (fun p => (p.1, p.2.read_len, p.2.cov)) =
      [(['q'], 100, 999 / 100), (['t'], 1000, 999 / 1000)] ∧
    (1 : ℚ) < 999 / 100 := by
  refine ⟨by decide, by decide, by decide, ?_, by norm_num⟩
  have h : overlap_len (PafRecord.mk ['q'] 100 0 100 0 ['t'] 1000 0 100) = 999 := by decide
  simp [parse_paf, pafStep, addCoverage, h, sequence.set, sequence.updateCov]

theorem toInt32_of_lt (v : Nat) (h : v < 2 ^ 31) : toInt32 v = (v : Int) := by
  unfold toInt32
  have h1 : v % 2 ^ 32 = v := Nat.mod_eq_of_lt (by omega)
  rw [h1, if_pos h]

/-- Where `qend < qlen` nothing wraps and the overlap length stays below the read length. -/
theorem overlap_len_lt_qlen (r : PafRecord) (h1 : r.qstart ≤ r.qend) (h2 : r.qend < r.qlen)
    (h3 : r.qlen < 2 ^ 31) : overlap_len r < r.qlen := by
  have hq : qsuffix_len r = r.qlen - r.qend - 1 := by
    unfold qsuffix_len
    omega
  have hl : 0 ≤ left_clip r ∧ left_clip r ≤ (r.qstart : Int) := by
    unfold left_clip
    split
    · split
      · rw [toInt32_of_lt _ (by omega)]; omega
      · rw [toInt32_of_lt _ (by omega)]; omega
    · omega
  have hr : 0 ≤ right_clip r ∧ right_clip r ≤ ((r.qlen - r.qend - 1 : Nat) : Int) := by
    unfold right_clip
    rw [hq]
    split
    · split
      · rw [toInt32_of_lt _ (by omega)]; omega
      · rw [toInt32_of_lt _ (by omega)]; omega
    · omega
  have hd : (r.qend + 2 ^ 32 - r.qstart % 2 ^ 32) % 2 ^ 32 = r.qend - r.qstart := by omega
  unfold overlap_len toUInt32
  rw [hd, toInt32_of_lt _ (by omega)]
  omega
/-! ### calculate_est_cov_and_est_genome_size: the percentile indices -/

theorem i25_one : i25 1 = 1 := by
  unfold i25
  have h : Int.ceil (((1 : Nat) : ℚ) * (25 / 100)) = 1 := by
    rw [Int.ceil_eq_iff]
    norm_num
  rw [h]
  rfl

theorem i75_eq_self (n : Nat) (h1 : 1 ≤ n) (h3 : n ≤ 3) : i75 n = n := by
  unfold i75
  have h : Int.ceil ((n : ℚ) * (75 / 100)) = (n : Int) := by
    rw [Int.ceil_eq_iff]
    have hn1 : (1 : ℚ) ≤ (n : ℚ) := by exact_mod_cast h1
    have hn3 : (n : ℚ) ≤ 3 := by exact_mod_cast h3
    push_cast
    constructor
    · linarith
    · linarith
  rw [h]
  exact Int.toNat_natCast n

theorem i50_zero : i50 0 = 0 := by
  unfold i50
  simp

theorem i50_one : i50 1 = 1 := by
  unfold i50
  have h : Int.ceil (((1 : Nat) : ℚ) * (50 / 100)) = 1 := by
    rw [Int.ceil_eq_iff]
    norm_num
  rw [h]
  rfl

/-- From four reads on the two quartile indices are inside `covs`, and from two filtered reads
on the median index is inside `filtered_covs`. -/
theorem percentile_indices_in_bounds :
    (∀ n, 4 ≤ n → i25 n < n ∧ i75 n < n) ∧ (∀ m, 2 ≤ m → i50 m < m) := by
  refine ⟨?_, ?_⟩
  · intro n hn
    have hq : (4 : ℚ) ≤ (n : ℚ) := by exact_mod_cast hn
    have h25 : Int.ceil ((n : ℚ) * (25 / 100)) ≤ (n : Int) - 1 := by
      rw [Int.ceil_le]
      push_cast
      linarith
    have h75 : Int.ceil ((n : ℚ) * (75 / 100)) ≤ (n : Int) - 1 := by
      rw [Int.ceil_le]
      push_cast
      linarith
    unfold i25 i75
    constructor
    · omega
    · omega
  · intro m hm
    have hq : (2 : ℚ) ≤ (m : ℚ) := by exact_mod_cast hm
    have h50 : Int.ceil ((m : ℚ) * (50 / 100)) ≤ (m : Int) - 1 := by
      rw [Int.ceil_le]
      push_cast
      linarith
    unfold i50
    omega

theorem estimateFrom_nil : estimateFrom [] = none := by
  unfold estimateFrom
  simp only [List.length_nil, i50_zero]
  rfl

/-- When every read has the same rounded coverage, the two bounds coincide, no read passes the
strict filter and `filtered_covs[i50]` is read in an empty vector (unless `covs[i25]` or
`covs[i75]` was outside `covs` before). -/
theorem est_cov_equal_coverages (paf : List sequence) (c : ℚ)
    (h : ∀ r ∈ paf, roundHalfAway r.cov = c) :
    calculate_est_cov_and_est_genome_size paf = none := by
  have hmem : ∀ p ∈ sortCovs (covsOf paf), p.1 = c := by
    intro p hp
    have hp2 : p ∈ covsOf paf := (List.perm_insertionSort _ _).mem_iff.mp hp
    obtain ⟨r, hr, hrp⟩ := List.mem_map.mp hp2
    rw [← hrp]
    exact h r hr
  unfold calculate_est_cov_and_est_genome_size
  cases h25 : (sortCovs (covsOf paf))[i25 (covsOf paf).length]? with
  | none => rfl
  | some c25 =>
    cases h75 : (sortCovs (covsOf paf))[i75 (covsOf paf).length]? with
    | none => rfl
    | some c75 =>
      have e25 : c25.1 = c := hmem c25 (List.getElem?_mem h25)
      have e75 : c75.1 = c := hmem c75 (List.getElem?_mem h75)
      have hkept : keptCovs (sortCovs (covsOf paf)) c25 c75 = [] := by
        unfold keptCovs lowerbound upperbound
        rw [e25, e75]
        apply List.filter_eq_nil_iff.mpr
        intro p _
        simp only [sub_self, zero_mul, sub_zero, add_zero, Bool.and_eq_true, decide_eq_true_eq,
          not_and, not_lt]
        intro hlt
        exact le_of_lt hlt
      simp only [hkept, estimateFrom_nil]

/-- For one, two or three reads `i75` is the size of `covs`: `covs[i75]` is outside the
vector. -/
theorem est_cov_small_maps (paf : List sequence) (h1 : 1 ≤ paf.length) (h3 : paf.length ≤ 3) :
    (sortCovs (covsOf paf))[i75 (covsOf paf).length]? = none ∧
    calculate_est_cov_and_est_genome_size paf = none := by
  have hlen : (covsOf paf).length = paf.length := by simp [covsOf]
  have hnone : (sortCovs (covsOf paf))[i75 (covsOf paf).length]? = none := by
    rw [hlen, i75_eq_self _ h1 h3]
    apply List.getElem?_eq_none
    rw [sortCovs, List.length_insertionSort, hlen]
  refine ⟨hnone, ?_⟩
  unfold calculate_est_cov_and_est_genome_size
  rw [hnone]
  cases (sortCovs (covsOf paf))[i25 (covsOf paf).length]? <;> rfl

/-- C27 (refuted on the code): for a read map with two reads, as one PAF record yields, the
index `i75 = ceil(2 * 0.75) = 2` is the size of `covs`, so `covs[i75]` is read outside the
vector; the same holds for three reads, and for one read `i25 = ceil(1 * 0.25) = 1` is outside
as well; moreover `i50`
is the size of `filtered_covs` when no read or one read passes the filter, as for four
reads of equal coverage, none of which passes the strict bounds. -/
theorem est_cov_indices_out_of_bounds :
    i25 1 = 1 ∧ i75 1 = 1 ∧ i75 2 = 2 ∧ i75 3 = 3 ∧ i50 0 = 0 ∧ i50 1 = 1 ∧
    (∀ r : sequence, (sortCovs (covsOf [r]))[i25 (covsOf [r]).length]? = none ∧
      calculate_est_cov_and_est_genome_size [r] = none) ∧
    (∀ r1 r2 : sequence,
      (sortCovs (covsOf [r1, r2]))[i75 (covsOf [r1, r2]).length]? = none ∧
      calculate_est_cov_and_est_genome_size [r1, r2] = none) ∧
    calculate_est_cov_and_est_genome_size
      [sequence.mk ['a'] 100 5, sequence.mk ['b'] 100 5, sequence.mk ['c'] 100 5,
        sequence.mk ['d'] 100 5] = none := by
  refine ⟨i25_one, i75_eq_self 1 (by decide) (by decide), i75_eq_self 2 (by decide) (by decide),
    i75_eq_self 3 (by decide) (by decide), i50_zero, i50_one, ?_,
    fun r1 r2 => est_cov_small_maps [r1, r2] (by simp) (by simp),
    est_cov_equal_coverages _ (roundHalfAway 5) (by
      intro r hr
      simp only [List.mem_cons, List.mem_singleton, List.not_mem_nil, or_false] at hr
      rcases hr with rfl | rfl | rfl | rfl <;> rfl)⟩
  intro r
  have hlen : (covsOf [r]).length = 1 := rfl
  have hsort : sortCovs (covsOf [r]) = [(roundHalfAway r.cov, r.read_len)] := rfl
  have hnone : (sortCovs (covsOf [r]))[i25 (covsOf [r]).length]? = none := by
    rw [hlen, i25_one, hsort]
    rfl
  refine ⟨hnone, ?_⟩
  unfold calculate_est_cov_and_est_genome_size
  rw [hnone]
end preqclr

namespace SPOA

/-! ### The topological order of the POA graph -/

theorem exists_minimal_node (R : Nat → Nat → Prop)
    (hac : ∀ v, ¬ Relation.TransGen R v v) (l : List Nat) (hl : l ≠ []) :
    ∃ m ∈ l, ∀ x ∈ l, ¬ R x m := by
  haveI : IsTrans {x // x ∈ l} (fun a b => Relation.TransGen R a.1 b.1) :=
    ⟨fun _ _ _ h1 h2 => Relation.TransGen.trans h1 h2⟩
  haveI : IsIrrefl {x // x ∈ l} (fun a b => Relation.TransGen R a.1 b.1) :=
    ⟨fun a => hac a.1⟩
  have wf : WellFounded (fun a b : {x // x ∈ l} => Relation.TransGen R a.1 b.1) :=
    Finite.wellFounded_of_trans_of_irrefl _
  obtain ⟨a, ha⟩ := List.exists_mem_of_ne_nil l hl
  obtain ⟨m, _, hm⟩ := wf.has_min Set.univ ⟨⟨a, ha⟩, trivial⟩
  exact ⟨m.1, m.2, fun x hx hR => hm ⟨x, hx⟩ trivial (Relation.TransGen.single hR)⟩

theorem nodeReady_iff (n : Node) (sorted : List Nat) :
    nodeReady n sorted = true ↔ ∀ e ∈ n.in_edges_, e.begin_node_id ∈ sorted := by
  simp [nodeReady, List.all_eq_true]

/-- In a well-formed graph every edge `(u, v)` is an in-edge of the node `v`. -/
theorem isEdge_in_edge (g : Graph) (hwf : g.WellFormed) (u v : Nat) (h : g.IsEdge u v) :
    ∃ m, g.nodes_[v]? = some m ∧ ∃ e ∈ m.in_edges_, e.begin_node_id = u ∧
      u < g.num_nodes_ ∧ v < g.num_nodes_ := by
  obtain ⟨n, hn, e, he, hu, hv⟩ := h
  have hin : ∀ (m : Node) (k : Nat), g.nodes_[k]? = some m → ∀ e2 ∈ m.in_edges_,
      e2.begin_node_id = u → e2.end_node_id = v →
      ∃ m2, g.nodes_[v]? = some m2 ∧ ∃ e3 ∈ m2.in_edges_, e3.begin_node_id = u ∧
        u < g.num_nodes_ ∧ v < g.num_nodes_ := by
    intro m k hk e2 he2 hu2 hv2
    obtain ⟨h1, h2⟩ := hwf.in_edges m (List.getElem?_mem hk) e2 he2
    have hid := hwf.ids k m hk
    have hkv : k = v := by rw [← hid, ← h1, hv2]
    subst hkv
    have hlt : k < g.nodes_.length := by
      by_contra hc
      rw [List.getElem?_eq_none (by omega)] at hk
      exact Option.noConfusion hk
    exact ⟨m, hk, e2, he2, hu2, by rw [← hu2]; exact h2, by rw [← hwf.size]; exact hlt⟩
  rcases List.mem_append.mp he with h1 | h1
  · obtain ⟨k, hk⟩ := List.mem_iff_getElem?.mp hn
    exact hin n k hk e h1 hu hv
  · obtain ⟨_, m, hm, hem⟩ := hwf.out_edges n hn e h1
    exact hin m _ hm e hem hu hv
/-- While a node remains in an acyclic graph, one of the remaining nodes is ready. -/
theorem exists_ready_node (g : Graph) (hwf : g.WellFormed) (hac : g.Acyclic)
    (remaining sorted : List Nat)
    (hperm : (sorted ++ remaining).Perm (List.range g.num_nodes_)) (hne : remaining ≠ []) :
    ∃ v ∈ remaining, (match g.nodes_[v]? with
      | some n => nodeReady n sorted
      | none => false) = true := by
  obtain ⟨m, hm, hmin⟩ := exists_minimal_node g.IsEdge hac remaining hne
  have hmr : m ∈ List.range g.num_nodes_ :=
    hperm.mem_iff.mp (List.mem_append_right _ hm)
  have hlt : m < g.nodes_.length := by
    rw [hwf.size]
    exact List.mem_range.mp hmr
  refine ⟨m, hm, ?_⟩
  rw [List.getElem?_eq_getElem hlt]
  simp only []
  rw [nodeReady_iff]
  intro e he
  have hnode : g.nodes_[m] ∈ g.nodes_ := List.getElem_mem _
  obtain ⟨h1, h2⟩ := hwf.in_edges _ hnode e he
  have hid : (g.nodes_[m]).id_ = m := hwf.ids m _ (List.getElem?_eq_getElem hlt)
  have hedge : g.IsEdge e.begin_node_id m :=
    ⟨g.nodes_[m], hnode, e, List.mem_append_left _ he, rfl, by rw [h1, hid]⟩
  have hmem : e.begin_node_id ∈ sorted ++ remaining :=
    hperm.mem_iff.mpr (List.mem_range.mpr h2)
  rcases List.mem_append.mp hmem with h | h
  · exact h
  · exact absurd hedge (hmin _ h)

/-- The loop places every node, each after the nodes its in-edges come from. -/
theorem kahnLoop_spec (g : Graph) (hwf : g.WellFormed) (hac : g.Acyclic) :
    ∀ (fuel : Nat) (remaining sorted : List Nat), remaining.length ≤ fuel →
      (sorted ++ remaining).Perm (List.range g.num_nodes_) →
      (∀ v ∈ sorted, ∀ u, g.IsEdge u v → u ∈ sorted ∧ sorted.indexOf u < sorted.indexOf v) →
      (kahnLoop g.nodes_ fuel remaining sorted).Perm (List.range g.num_nodes_) ∧
      ∀ v ∈ kahnLoop g.nodes_ fuel remaining sorted, ∀ u, g.IsEdge u v →
        u ∈ kahnLoop g.nodes_ fuel remaining sorted ∧
        (kahnLoop g.nodes_ fuel remaining sorted).indexOf u <
          (kahnLoop g.nodes_ fuel remaining sorted).indexOf v := by
  intro fuel
  induction fuel with
  | zero =>
    intro remaining sorted hlen hperm hinv
    have hnil : remaining = [] := List.length_eq_zero.mp (Nat.le_zero.mp hlen)
    subst hnil
    simp only [kahnLoop]
    rw [List.append_nil] at hperm
    exact ⟨hperm, hinv⟩
  | succ fuel ih =>
    intro remaining sorted hlen hperm hinv
    simp only [kahnLoop]
    cases hfind : remaining.find? (fun v =>
        match g.nodes_[v]? with
        | some n => nodeReady n sorted
        | none => false) with
    | none =>
      have hnil : remaining = [] := by
        by_contra hne
        obtain ⟨v, hv, hready⟩ := exists_ready_node g hwf hac remaining sorted hperm hne
        exact (List.find?_eq_none.mp hfind) v hv hready
      subst hnil
      rw [List.append_nil] at hperm
      exact ⟨hperm, hinv⟩
    | some v =>
      have hv : v ∈ remaining := List.mem_of_find?_eq_some hfind
      have hready := List.find?_some hfind
      have hnodup : (sorted ++ remaining).Nodup := hperm.nodup_iff.mpr (List.nodup_range _)
      have hvs : v ∉ sorted := fun hc =>
        (List.nodup_append.mp hnodup).2.2 hc hv
      have hperm2 : ((sorted ++ [v]) ++ remaining.erase v).Perm (List.range g.num_nodes_) := by
        refine List.Perm.trans ?_ hperm
        rw [List.append_assoc]
        exact List.Perm.append_left _ (List.perm_cons_erase hv).symm
      have hinv2 : ∀ w ∈ sorted ++ [v], ∀ u, g.IsEdge u w →
          u ∈ sorted ++ [v] ∧ (sorted ++ [v]).indexOf u < (sorted ++ [v]).indexOf w := by
        intro w hw u hedge
        rcases List.mem_append.mp hw with h | h
        · obtain ⟨h1, h2⟩ := hinv w h u hedge
          exact ⟨List.mem_append_left _ h1, by
            rw [List.indexOf_append_of_mem h1, List.indexOf_append_of_mem h]; exact h2⟩
        · have hwv : w = v := List.mem_singleton.mp h
          subst hwv
          obtain ⟨m, hm, e, he, heu, _⟩ := isEdge_in_edge g hwf u w hedge
          rw [hm] at hready
          have hu : u ∈ sorted := by
            rw [← heu]
            exact (nodeReady_iff m sorted).mp hready e he
          refine ⟨List.mem_append_left _ hu, ?_⟩
          rw [List.indexOf_append_of_mem hu, List.indexOf_append_of_not_mem hvs,
            List.indexOf_cons_self]
          have := List.indexOf_lt_length.mpr hu
          omega
      have hlen2 : (remaining.erase v).length ≤ fuel := by
        rw [List.length_erase_of_mem hv]
        omega
      exact ih (remaining.erase v) (sorted ++ [v]) hlen2 hperm2 hinv2

/-- C21: after `topological_sort` on a well-formed acyclic graph, `sorted_nodes_ids()` is a
permutation of all node ids in which, for every edge `(u, v)` of the graph, `u` appears before
`v`: `rank(u) < rank(v)`. -/
theorem topological_sort_respects_edges (g : Graph) (rigorous : Bool) (hwf : g.WellFormed)
    (hac : g.Acyclic) :
    ∃ ids, (g.topological_sort rigorous).sorted_nodes_ids = some ids ∧
      ids.Perm (List.range g.num_nodes_) ∧
      ids.Perm (g.nodes_.map Node.id_) ∧
      ∀ u v, g.IsEdge u v → ids.indexOf u < ids.indexOf v := by
  obtain ⟨h1, h2⟩ := kahnLoop_spec g hwf hac g.num_nodes_ (List.range g.num_nodes_) []
    (by simp) (by simp) (fun v hv => by cases hv)
  have hids : g.nodes_.map Node.id_ = List.range g.num_nodes_ := by
    apply List.ext_getElem?
    intro i
    rw [List.getElem?_map]
    by_cases hi : i < g.nodes_.length
    · rw [List.getElem?_eq_getElem hi, List.getElem?_range (by rw [← hwf.size]; exact hi)]
      simp only [Option.map_some']
      rw [hwf.ids i _ (List.getElem?_eq_getElem hi)]
    · rw [List.getElem?_eq_none (by omega), List.getElem?_eq_none (by
        rw [List.length_range, ← hwf.size]; omega)]
      rfl
  refine ⟨_, rfl, h1, by rw [hids]; exact h1, ?_⟩
  intro u v hedge
  obtain ⟨_, _, _, _, _, _, hv⟩ := isEdge_in_edge g hwf u v hedge
  have hmem : v ∈ kahnLoop g.nodes_ g.num_nodes_ (List.range g.num_nodes_) [] :=
    h1.mem_iff.mpr (List.mem_range.mpr hv)
  exact (h2 v hmem u hedge).2
/-- A ranking that increases along every edge shows that the graph is acyclic. -/
theorem acyclic_of_rank (g : Graph) (r : Nat → Nat)
    (h : ∀ u v, g.IsEdge u v → r u < r v) : g.Acyclic := by
  have hlt : ∀ u v, Relation.TransGen g.IsEdge u v → r u < r v := by
    intro u v huv
    induction huv with
    | single h1 => exact h _ _ h1
    | tail _ h2 ih => exact lt_trans ih (h _ _ h2)
  intro v hv
  exact lt_irrefl _ (hlt v v hv)

theorem exampleGraph_wellFormed : exampleGraph.WellFormed := by
  refine ⟨rfl, ?_, ?_, ?_⟩
  · intro i n h
    match i with
    | 0 => rw [← Option.some.inj h]; rfl
    | 1 => rw [← Option.some.inj h]; rfl
    | 2 => rw [← Option.some.inj h]; rfl
    | k + 3 => simp [exampleGraph] at h
  · intro n hn e he
    simp only [exampleGraph, List.mem_cons, List.mem_singleton, List.not_mem_nil,
      or_false] at hn
    rcases hn with rfl | rfl | rfl
    · simp only [List.mem_singleton] at he
      subst he
      exact ⟨rfl, by decide⟩
    · simp only [List.mem_singleton] at he
      subst he
      exact ⟨rfl, by decide⟩
    · simp at he
  · intro n hn e he
    simp only [exampleGraph, List.mem_cons, List.mem_singleton, List.not_mem_nil,
      or_false] at hn
    rcases hn with rfl | rfl | rfl
    · simp only [List.mem_singleton] at he
      subst he
      exact ⟨rfl, _, rfl, List.mem_singleton.mpr rfl⟩
    · simp at he
    · simp only [List.mem_singleton] at he
      subst he
      exact ⟨rfl, _, rfl, List.mem_singleton.mpr rfl⟩

theorem exampleGraph_acyclic : exampleGraph.Acyclic := by
  apply acyclic_of_rank exampleGraph (fun x => [1, 2, 0].getD x 0)
  rintro u v ⟨n, hn, e, he, rfl, rfl⟩
  simp only [exampleGraph, List.mem_cons, List.mem_singleton, List.not_mem_nil,
    or_false] at hn
  rcases hn with rfl | rfl | rfl
  · simp only [List.mem_append, List.mem_singleton] at he
    rcases he with rfl | rfl
    · decide
    · decide
  · simp only [List.mem_append, List.mem_singleton, List.not_mem_nil, or_false] at he
    subst he
    decide
  · simp only [List.mem_append, List.mem_singleton, List.not_mem_nil, false_or] at he
    subst he
    decide

theorem topological_sort_respects_edges_witness :
    (exampleGraph.topological_sort false).sorted_nodes_ids = some [2, 0, 1] ∧
    ∃ ids, (exampleGraph.topological_sort false).sorted_nodes_ids = some ids ∧
      ids.Perm (List.range exampleGraph.num_nodes_) ∧
      ids.Perm (exampleGraph.nodes_.map Node.id_) ∧
      ∀ u v, exampleGraph.IsEdge u v → ids.indexOf u < ids.indexOf v :=
  ⟨by decide,
    topological_sort_respects_edges exampleGraph false exampleGraph_wellFormed
      exampleGraph_acyclic⟩
end SPOA
